import Mathlib

/-!
Verification of the Policy Rule Normalization & Compliance Evaluation Engine
of the `card` repository (file `src/web/src/app/app.component.ts`):
`normalizeParserResponse` (with its inner `synthRuleCondition`),
`alignParsedCategoriesWithDataset`, `evaluateRuleAgainstTx` and
`applyPolicyToRows`.

The TypeScript code is shallowly embedded: JavaScript runtime values are the
inductive `JsVal` (numbers are modelled as rationals: every JS number is a
binary float, hence an exact rational with a finite decimal expansion; float
rounding itself is not modelled), strings are Lean `String`s processed as
`List Char`, and each TS function becomes a total Lean function mirroring the
source control flow.  JS regular expressions used by the source are embedded
as explicit scanners with the exact backtracking-normalised semantics of the
concrete patterns appearing in the code.
-/

set_option maxRecDepth 10000

namespace Card

/-! ## Character classes

`jsWs` models the JS regex class `\s` (`WhiteSpace` + `LineTerminator`),
which is also the set trimmed by `String.prototype.trim`.  `jsLineTerm`
models the characters NOT matched by `.` in a JS regex without the `s` flag.
-/

def jsWs (c : Char) : Bool :=
  c = ' ' || c = '\t' || c = '\n' || c = '\u000B' || c = '\u000C' || c = '\r' ||
  c = '\u00A0' || c = '\u1680' || c = '\u2000' || c = '\u2001' ||
  c = '\u2002' || c = '\u2003' || c = '\u2004' || c = '\u2005' ||
  c = '\u2006' || c = '\u2007' || c = '\u2008' || c = '\u2009' ||
  c = '\u200A' || c = '\u2028' || c = '\u2029' || c = '\u202F' ||
  c = '\u205F' || c = '\u3000' || c = '\uFEFF'

def jsLineTerm (c : Char) : Bool :=
  c = '\n' || c = '\r' || c = '\u2028' || c = '\u2029'

def isDigitCh (c : Char) : Bool := 48 ≤ c.toNat && c.toNat ≤ 57

def isIdentStart (c : Char) : Bool :=
  (97 ≤ c.toNat && c.toNat ≤ 122) || (65 ≤ c.toNat && c.toNat ≤ 90) || c.toNat = 95

def isIdentCh (c : Char) : Bool := isIdentStart c || isDigitCh c

def isQuoteCh (c : Char) : Bool := c = '\'' || c = '"'

/-- ASCII lower-casing, modelling `String.prototype.toLowerCase` and the `i`
regex flag on the ASCII letters that actually occur in the embedded
patterns. -/
def lowCh (c : Char) : Char :=
  if 65 ≤ c.toNat ∧ c.toNat ≤ 90 then Char.ofNat (c.toNat + 32) else c

def lowStr (s : String) : String := String.mk (s.data.map lowCh)

/-! ## List-of-characters utilities -/

/-- Trim, modelling `String.prototype.trim` on the character list. -/
def trimL (s : List Char) : List Char :=
  ((s.dropWhile jsWs).reverse.dropWhile jsWs).reverse

/-- Case-insensitive prefix stripping: the keyword is given lower-case, each
input character is lowered before comparison (the `i` regex flag). -/
def stripCI : List Char → List Char → Option (List Char)
  | [], s => some s
  | _ :: _, [] => none
  | k :: ks, c :: cs => if lowCh c = k then stripCI ks cs else none

/-- Literal (case-sensitive) prefix stripping. -/
def stripL : List Char → List Char → Option (List Char)
  | [], s => some s
  | _ :: _, [] => none
  | k :: ks, c :: cs => if c = k then stripL ks cs else none

/-- Bool test for a literal prefix. -/
def isPre (p s : List Char) : Bool := (stripL p s).isSome

/-- Replace the first occurrence of the literal pattern `pat` (never empty at
the one call site) by `rep`, modelling `String.prototype.replace` with a
string pattern. -/
def replaceFirstL (pat rep : List Char) : List Char → List Char
  | [] => []
  | c :: rest =>
    if isPre pat (c :: rest) then rep ++ (c :: rest).drop pat.length
    else c :: replaceFirstL pat rep rest

/-- Containment of a literal substring, modelling `String.prototype.includes`. -/
def containsL (needle : List Char) : List Char → Bool
  | [] => isPre needle []
  | c :: rest => isPre needle (c :: rest) || containsL needle rest

/-! ## The whitespace-delimited keyword splitter

`evaluateRuleAgainstTx` splits on the regexes `/\s+or\s+/i` and
`/\s+and\s+/i`.  Backtracking analysis of these patterns: a match starts at
a whitespace character, the leading `\s+` greedily absorbs the maximal
whitespace run (a shorter run would put a non-whitespace requirement on a
whitespace character), the keyword is compared case-insensitively, and a
final `\s+` requires at least one trailing whitespace character and greedily
absorbs the maximal run.  `tryTok` decides whether a match starts at the
head of its argument and returns the remainder after the match. -/

def tryTok (kw : List Char) (s : List Char) : Option (List Char) :=
  match s with
  | [] => none
  | c :: _ =>
    if jsWs c then
      match stripCI kw (s.dropWhile jsWs) with
      | none => none
      | some u =>
        match u with
        | [] => none
        | d :: _ => if jsWs d then some (u.dropWhile jsWs) else none
    else none

/-- Fueled splitter core; called with fuel at least the length of the input,
in which case the fuel-exhausted branch is unreachable. -/
def splitTokGo (kw : List Char) : Nat → List Char → List Char → List (List Char)
  | 0, acc, s => [acc.reverse ++ s]
  | _ + 1, acc, [] => [acc.reverse]
  | fuel + 1, acc, c :: rest =>
    match tryTok kw (c :: rest) with
    | some rest2 => acc.reverse :: splitTokGo kw fuel [] rest2
    | none => splitTokGo kw fuel (c :: acc) rest

/-- Split on the whitespace-delimited case-insensitive keyword, modelling
`s.split(/\s+kw\s+/i)`. -/
def splitTok (kw : List Char) (s : List Char) : List (List Char) :=
  splitTokGo kw s.length [] s

/-! ## Decimal digits and numbers

JS numbers are binary floats; every one of them is an exact rational with a
finite decimal expansion.  They are modelled as `ℚ`; `ratToChars` models the
default `String(number)` / template-literal conversion (shortest exact
decimal form; the exponent notation used beyond 1e21 and float rounding are
outside the model). -/

def digitCh (d : Nat) : Char := Char.ofNat (48 + d)

def chDigit (c : Char) : Nat := c.toNat - 48

/-- Decimal digit characters of a natural number, most significant first;
fueled, with fuel at least the number itself. -/
def natToCharsGo : Nat → Nat → List Char
  | 0, n => [digitCh (n % 10)]
  | fuel + 1, n =>
    if n < 10 then [digitCh n] else natToCharsGo fuel (n / 10) ++ [digitCh (n % 10)]

def natToChars (n : Nat) : List Char := natToCharsGo n n

/-- Numeric value of a list of decimal digit characters. -/
def natValL (cs : List Char) : Nat := cs.foldl (fun a c => 10 * a + chDigit c) 0

/-- Number of times `p` divides `n` (fueled). -/
def factorCount (p : Nat) : Nat → Nat → Nat
  | 0, _ => 0
  | fuel + 1, n =>
    if 2 ≤ p ∧ 0 < n ∧ n % p = 0 then factorCount p fuel (n / p) + 1 else 0

/-- Smallest `k` with `den ∣ 10 ^ k`, when one exists. -/
def decScale (den : Nat) : Option Nat :=
  if den = 2 ^ factorCount 2 den den * 5 ^ factorCount 5 den den then
    some (max (factorCount 2 den den) (factorCount 5 den den))
  else none

/-- Plain decimal rendering of a rational with finite decimal expansion
(the branch of JS `String(number)` used for decimal exponents in `(-6, 21]`).
The `/`-fallback is outside the JS image (binary floats always have a
power-of-two reduced denominator) and is never hit by any theorem below. -/
def ratToCharsDec (q : ℚ) : List Char :=
  let sign : List Char := if q < 0 then ['-'] else []
  let a := q.num.natAbs
  match decScale q.den with
  | some k =>
    let n := a * (10 ^ k / q.den)
    let ds := natToChars n
    let pad := List.replicate (k + 1 - ds.length) '0' ++ ds
    if k = 0 then sign ++ pad
    else sign ++ pad.take (pad.length - k) ++ '.' :: pad.drop (pad.length - k)
  | none => sign ++ natToChars a ++ '/' :: natToChars q.den

/-- Digit string with its trailing zeros removed (the significand of the
exponent form carries no trailing zeros). -/
def stripTrailZeros (ds : List Char) : List Char :=
  (ds.reverse.dropWhile (fun c => c = '0')).reverse

/-- Exponent-notation rendering of ECMAScript `Number::toString`: for a
value `s * 10 ^ (dexp - |s|)` with significand digits `sds` (no trailing
zeros), print the first digit, a dot and the remaining digits when there are
any, then `e`, the exponent sign, and `|dexp - 1|`. -/
def expChars (sds : List Char) (dexp : Int) : List Char :=
  (match sds with
   | [] => ['0']
   | d :: rest => if rest = [] then [d] else d :: '.' :: rest) ++
  'e' :: ((if dexp - 1 < 0 then ['-'] else ['+']) ++ natToChars (dexp - 1).natAbs)

/-- JS `String(number)` on a finite-decimal rational: plain decimal notation
exactly when the decimal exponent (digit count of the scaled integer minus
the scale) lies in `(-6, 21]`, exponent notation otherwise — so
`String(1e21) = "1e+21"` and `String(1e-7) = "1e-7"`. -/
def ratToChars (q : ℚ) : List Char :=
  let sign : List Char := if q < 0 then ['-'] else []
  let a := q.num.natAbs
  match decScale q.den with
  | some k =>
    let ds := natToChars (a * (10 ^ k / q.den))
    let dexp : Int := (ds.length : Int) - (k : Int)
    if -6 < dexp ∧ dexp ≤ 21 then ratToCharsDec q
    else sign ++ expChars (stripTrailZeros ds) dexp
  | none => sign ++ natToChars a ++ '/' :: natToChars q.den

def ratToString (q : ℚ) : String := String.mk (ratToChars q)

section PrintSanity

example : ratToString ((10 : ℚ) ^ 21) = "1e+21" := rfl

example : ratToString (⟨1500000000000000000000, 1, by norm_num, by norm_num⟩ : ℚ) =
    "1.5e+21" := by decide

example : ratToString (⟨999000000000000000000, 1, by norm_num, by norm_num⟩ : ℚ) =
    "999000000000000000000" := by decide

example : ratToString (⟨1, 1000000, by norm_num, by norm_num⟩ : ℚ) = "0.000001" := by decide

example : ratToString (⟨1, 10000000, by norm_num, by norm_num⟩ : ℚ) = "1e-7" := by decide

example : ratToString (⟨3, 20000000, by norm_num, by norm_num⟩ : ℚ) = "1.5e-7" := by decide

example : ratToString (0 : ℚ) = "0" := rfl

example : ratToString (⟨-3, 2, by norm_num, by norm_num⟩ : ℚ) = "-1.5" := by decide

end PrintSanity

/-- Numeric value captured by the regex group `(\d+(?:\.\d+)?)`. -/
def ratOfDigits (ip fp : List Char) : ℚ :=
  (natValL ip : ℚ) + (natValL fp : ℚ) / 10 ^ fp.length

/-! ## The anchored number tail of the regex
`^amount\s*(op)\s*(\d+(?:\.\d+)?)$` -/

/-- Match `(\d+(?:\.\d+)?)$`: a digit run, an optional fractional part, and
then the end of the string (the regex is `$`-anchored, so leftover input
fails the whole match). -/
def matchNumEnd (s : List Char) : Option ℚ :=
  let ip := s.takeWhile isDigitCh
  if ip = [] then none
  else
    match s.dropWhile isDigitCh with
    | [] => some (natValL ip : ℚ)
    | '.' :: t =>
      let fp := t.takeWhile isDigitCh
      if fp = [] then none
      else if t.dropWhile isDigitCh = [] then some (ratOfDigits ip fp) else none
    | _ => none

/-! ## JavaScript runtime values -/

inductive JsVal where
  | vnull
  | vundef
  | vbool (b : Bool)
  | vnum (q : ℚ)
  | vstr (s : String)
  | varr (elems : List JsVal)
  | vobj (fields : List (String × JsVal))

open JsVal

/-- JS truthiness of a value. -/
def jsTruthy : JsVal → Bool
  | vnull => false
  | vundef => false
  | vbool b => b
  | vnum q => !(q = 0 : Bool)
  | vstr s => !(s = "" : Bool)
  | varr _ => true
  | vobj _ => true

/-- The test `typeof v === 'object'` (true for objects, arrays and null). -/
def typeofObj : JsVal → Bool
  | vnull => true
  | varr _ => true
  | vobj _ => true
  | _ => false

def assocFind : List (String × JsVal) → String → Option JsVal
  | [], _ => none
  | (k2, v) :: rest, k => if k2 = k then some v else assocFind rest k

/-- Property read `v[k]`.  On objects it is the stored field or `undefined`;
on every other non-throwing receiver the properties read by the embedded
code (`rules`, `condition`, `name`, ..., never an array index or `length`)
are `undefined`.  Reads on `null`/`undefined` throw and are modelled
separately at the call sites that can reach them. -/
def jsGetField (v : JsVal) (k : String) : JsVal :=
  match v with
  | vobj fs => (assocFind fs k).getD vundef
  | _ => vundef

/-- Property write `v[k] = x` on an object: overwrite in place, or append
(JS insertion order) when the key is new. -/
def setAssoc : List (String × JsVal) → String → JsVal → List (String × JsVal)
  | [], k, x => [(k, x)]
  | (k2, v) :: rest, k, x =>
    if k2 = k then (k2, x) :: rest else (k2, v) :: setAssoc rest k x

def jsSetField (v : JsVal) (k : String) (x : JsVal) : JsVal :=
  match v with
  | vobj fs => vobj (setAssoc fs k x)
  | other => other

/-- The test `k in v` for receivers that already passed
`typeof v === 'object'`; `none` models the `TypeError` thrown on `null`. -/
def jsHasProp (v : JsVal) (k : String) : Option Bool :=
  match v with
  | vobj fs => some (assocFind fs k).isSome
  | varr _ => some false
  | _ => none

mutual

/-- String conversion `String(v)` (and template-literal interpolation). -/
def jsString : JsVal → String
  | vnull => "null"
  | vundef => "undefined"
  | vbool b => if b then "true" else "false"
  | vnum q => ratToString q
  | vstr s => s
  | varr xs => String.intercalate "," (jsStringList xs)
  | vobj _ => "[object Object]"

/-- Elements of `Array.prototype.join`: `null` and `undefined` become the
empty string, everything else its string conversion. -/
def jsStringList : List JsVal → List String
  | [] => []
  | vnull :: vs => "" :: jsStringList vs
  | vundef :: vs => "" :: jsStringList vs
  | v :: vs => jsString v :: jsStringList vs

end

/-! ## The `Number()` conversion on strings -/

def hexDigitVal (c : Char) : Option Nat :=
  if isDigitCh c then some (chDigit c)
  else if 'a' ≤ c ∧ c ≤ 'f' then some (c.toNat - 87)
  else if 'A' ≤ c ∧ c ≤ 'F' then some (c.toNat - 55)
  else none

def radixDigits (b : Nat) : List Char → Option Nat
  | [] => some 0
  | c :: rest =>
    match hexDigitVal c with
    | none => none
    | some d =>
      if d < b then
        match radixDigits b rest with
        | none => none
        | some v => some (v + d * b ^ rest.length)
      else none

def radixParse (b : Nat) (t : List Char) : Option ℚ :=
  match t with
  | [] => none
  | _ => (radixDigits b t).map (fun n => (n : ℚ))

/-- Parse `ExponentPart?` followed by end of input. -/
def parseExpEnd (t : List Char) : Option ℤ :=
  match t with
  | [] => some 0
  | e :: rest =>
    if e = 'e' ∨ e = 'E' then
      let (sgn, r2) : ℤ × List Char :=
        match rest with
        | '-' :: r => (-1, r)
        | '+' :: r => (1, r)
        | r => (1, r)
      let ds := r2.takeWhile isDigitCh
      if ds = [] then none
      else if r2.dropWhile isDigitCh = [] then some (sgn * natValL ds) else none
    else none

def applyExp (m : ℚ) (e : ℤ) : ℚ :=
  if 0 ≤ e then m * 10 ^ e.toNat else m / 10 ^ (-e).toNat

/-- Parse `StrDecimalLiteral` without the sign (digits, optional fraction,
optional exponent; or leading dot with mandatory fraction digits). -/
def parseDecBody (t : List Char) : Option ℚ :=
  let ip := t.takeWhile isDigitCh
  let rest := t.dropWhile isDigitCh
  if ip = [] then
    match rest with
    | '.' :: r =>
      let fp := r.takeWhile isDigitCh
      if fp = [] then none
      else
        (parseExpEnd (r.dropWhile isDigitCh)).map fun e =>
          applyExp (ratOfDigits [] fp) e
    | _ => none
  else
    match rest with
    | '.' :: r =>
      let fp := r.takeWhile isDigitCh
      (parseExpEnd (r.dropWhile isDigitCh)).map fun e =>
        applyExp (ratOfDigits ip fp) e
    | r => (parseExpEnd r).map fun e => applyExp ((natValL ip : ℚ)) e

/-- Model of `Number(string)`: trim, empty means zero, then a strict
numeric literal.  The non-finite literal `Infinity` is modelled as
unparseable (`none`, like `NaN`): no embedded code path distinguishes a
non-finite number from `NaN` observably except that synthesis would emit a
never-matching `amount > Infinity` condition; no theorem below quantifies
over non-finite thresholds. -/
def numOfString (s : String) : Option ℚ :=
  let t := trimL s.data
  if t = [] then some 0
  else if isPre ['0', 'x'] t ∨ isPre ['0', 'X'] t then radixParse 16 (t.drop 2)
  else if isPre ['0', 'o'] t ∨ isPre ['0', 'O'] t then radixParse 8 (t.drop 2)
  else if isPre ['0', 'b'] t ∨ isPre ['0', 'B'] t then radixParse 2 (t.drop 2)
  else
    match t with
    | '-' :: r => (parseDecBody r).map (fun q => -q)
    | '+' :: r => parseDecBody r
    | r => parseDecBody r

/-- Conversion `Number(v)`; `none` models `NaN` (every comparison with it is
false and `!==` is true). -/
def jsToNum : JsVal → Option ℚ
  | vnum q => some q
  | vnull => some 0
  | vundef => none
  | vbool b => some (if b then 1 else 0)
  | vstr s => numOfString s
  | varr xs => numOfString (jsString (varr xs))
  | vobj _ => none

/-- The expression `a || b`. -/
def jsOr (a b : JsVal) : JsVal := if jsTruthy a then a else b

/-- The expression `a ?? b`. -/
def jsCoalesce (a b : JsVal) : JsVal :=
  match a with
  | vnull => b
  | vundef => b
  | other => other

/-! ## The expression evaluator `evaluateRuleAgainstTx`

Each clause, after stripping one optional pair of wrapping parentheses and
trimming, is matched against three regexes in order:
1. `/^amount\s*(==|=|!=|<=|>=|<|>)\s*(\d+(?:\.\d+)?)$/i`
2. `/^([a-zA-Z_][a-zA-Z0-9_]*)\s*(==|=|!=)\s*(["'])(.*)\3$/i`
3. `/amount\s*>\s*(\d+(?:\.\d+)?)/i` (unanchored search)
-/

inductive COp where
  | ceq | cneq | clt | cle | cgt | cge

/-- Operator alternation `(==|=|!=|<=|>=|<|>)` in regex order.  First match
wins; this is equivalent to full backtracking because whenever two
alternatives share a prefix (`==`/`=`, `<=`/`<`, `>=`/`>`), the longer one
leaves a remainder whose head (`=`) can start neither `\s*` nor a digit, so
a failing continuation fails for both. -/
def parseOpAmount (s : List Char) : Option (COp × List Char) :=
  match stripL ['=', '='] s with
  | some r => some (COp.ceq, r)
  | none =>
    match stripL ['='] s with
    | some r => some (COp.ceq, r)
    | none =>
      match stripL ['!', '='] s with
      | some r => some (COp.cneq, r)
      | none =>
        match stripL ['<', '='] s with
        | some r => some (COp.cle, r)
        | none =>
          match stripL ['>', '='] s with
          | some r => some (COp.cge, r)
          | none =>
            match stripL ['<'] s with
            | some r => some (COp.clt, r)
            | none =>
              match stripL ['>'] s with
              | some r => some (COp.cgt, r)
              | none => none

/-- Clause regex 1 (exact amount comparison). -/
def matchAmountClause (c : List Char) : Option (COp × ℚ) :=
  match stripCI ['a', 'm', 'o', 'u', 'n', 't'] c with
  | none => none
  | some r1 =>
    match parseOpAmount (r1.dropWhile jsWs) with
    | none => none
    | some (op, r2) =>
      match matchNumEnd (r2.dropWhile jsWs) with
      | none => none
      | some v => some (op, v)

/-- Operator alternation `(==|=|!=)` of regex 2; the Bool is `true` for the
equality operators. -/
def parseOpStr (s : List Char) : Option (Bool × List Char) :=
  match stripL ['=', '='] s with
  | some r => some (true, r)
  | none =>
    match stripL ['='] s with
    | some r => some (true, r)
    | none =>
      match stripL ['!', '='] s with
      | some r => some (false, r)
      | none => none

/-- Clause regex 2 (string-literal field comparison).  The backtracking
normal form of `(["'])(.*)\3$` is: the final character of the clause must be
the opening quote, the literal is everything in between and may not contain
a line terminator (`.` without the `s` flag). -/
def matchStrClause (c : List Char) : Option (List Char × Bool × List Char) :=
  match c with
  | [] => none
  | c0 :: _ =>
    if isIdentStart c0 then
      let f := c.takeWhile isIdentCh
      match parseOpStr ((c.dropWhile isIdentCh).dropWhile jsWs) with
      | none => none
      | some (eqOp, r2) =>
        match r2.dropWhile jsWs with
        | [] => none
        | q :: body =>
          if isQuoteCh q then
            match body.getLast? with
            | none => none
            | some lastc =>
              if lastc = q ∧ body.dropLast.all (fun ch => !jsLineTerm ch) then
                some (f, eqOp, body.dropLast)
              else none
          else none
    else none

/-- Regex 3 attempted at one position. -/
def looseAmountAt (s : List Char) : Option ℚ :=
  match stripCI ['a', 'm', 'o', 'u', 'n', 't'] s with
  | none => none
  | some r1 =>
    match r1.dropWhile jsWs with
    | '>' :: r2 =>
      let r3 := r2.dropWhile jsWs
      let ip := r3.takeWhile isDigitCh
      if ip = [] then none
      else
        match r3.dropWhile isDigitCh with
        | '.' :: t =>
          let fp := t.takeWhile isDigitCh
          if fp = [] then some ((natValL ip : ℚ)) else some (ratOfDigits ip fp)
        | _ => some ((natValL ip : ℚ))
    | _ => none

/-- Regex 3: leftmost unanchored search for `amount\s*>\s*number`. -/
def looseAmount : List Char → Option ℚ
  | [] => none
  | c :: rest =>
    match looseAmountAt (c :: rest) with
    | some v => some v
    | none => looseAmount rest

/-- The preprocessing `clause.replace(/^\(|\)$/g, '')`: one leading `(` and
one trailing `)` are removed (the anchors allow only those two matches). -/
def stripParens (c : List Char) : List Char :=
  let c1 := if c.head? = some '(' then c.tail else c
  if c1.getLast? = some ')' then c1.dropLast else c1

/-- Reading `Number(tx.amount || 0)`. -/
def txAmount (tx : JsVal) : Option ℚ :=
  jsToNum (jsOr (jsGetField tx "amount") (JsVal.vnum 0))

/-- Reading `String(tx[field] ?? '')`. -/
def txFieldStr (tx : JsVal) (f : String) : String :=
  jsString (jsCoalesce (jsGetField tx f) (JsVal.vstr ""))

/-- Comparison against a possibly-NaN left operand: every comparison with
NaN is false except `!==`, which is true. -/
def cmpQOpt (a : Option ℚ) (op : COp) (b : ℚ) : Bool :=
  match a with
  | none =>
    match op with
    | COp.cneq => true
    | _ => false
  | some x =>
    match op with
    | COp.ceq => decide (x = b)
    | COp.cneq => decide (x ≠ b)
    | COp.clt => decide (x < b)
    | COp.cle => decide (x ≤ b)
    | COp.cgt => decide (b < x)
    | COp.cge => decide (b ≤ x)

/-- Satisfaction of one clause (the body of the inner loop, without the
`andOk` short-circuit bookkeeping). -/
def clauseSat (tx : JsVal) (clause : List Char) : Bool :=
  let c := trimL (stripParens clause)
  match matchAmountClause c with
  | some (op, v) => cmpQOpt (txAmount tx) op v
  | none =>
    match matchStrClause c with
    | some (f, eqOp, lit) =>
      let fv := (txFieldStr tx (String.mk f)).data
      if eqOp then decide (fv = lit) else decide (fv ≠ lit)
    | none =>
      match looseAmount c with
      | some v => cmpQOpt (txAmount tx) COp.cgt v
      | none => false

/-- The inner `for(const clause of andParts)` loop with its `andOk`
accumulator and `break` statements. -/
def evalAndLoop (tx : JsVal) : Bool → List (List Char) → Bool
  | andOk, [] => andOk
  | andOk, clause :: rest =>
    let c := trimL (stripParens clause)
    match matchAmountClause c with
    | some (op, v) =>
      let andOk2 := andOk && cmpQOpt (txAmount tx) op v
      if andOk2 = false then andOk2 else evalAndLoop tx andOk2 rest
    | none =>
      match matchStrClause c with
      | some (f, eqOp, lit) =>
        let fv := (txFieldStr tx (String.mk f)).data
        let sat := if eqOp then decide (fv = lit) else decide (fv ≠ lit)
        let andOk2 := andOk && sat
        if andOk2 = false then andOk2 else evalAndLoop tx andOk2 rest
      | none =>
        match looseAmount c with
        | some v =>
          if cmpQOpt (txAmount tx) COp.cgt v = false then false
          else evalAndLoop tx andOk rest
        | none => false

/-- The outer `for(const orPart of orParts)` loop. -/
def evalOrLoop (tx : JsVal) : List (List Char) → Bool
  | [] => false
  | g :: rest =>
    let andParts := (splitTok ['a', 'n', 'd'] g).map trimL
    if evalAndLoop tx true andParts then true else evalOrLoop tx rest

/-- Model of `evaluateRuleAgainstTx(rule, tx)`. -/
def evaluateRuleAgainstTx (rule tx : JsVal) : Bool :=
  let cond := jsOr (if jsTruthy rule then jsGetField rule "condition" else rule) (JsVal.vstr "")
  if jsTruthy cond = false then false
  else
    let s := trimL (jsString cond).data
    evalOrLoop tx ((splitTok ['o', 'r'] s).map trimL)

section EvalSanity

example :
    evaluateRuleAgainstTx
      (JsVal.vobj [("condition", JsVal.vstr "category == 'Travel' and amount > 300")])
      (JsVal.vobj [("amount", JsVal.vnum 301), ("category", JsVal.vstr "Travel")]) = true := by
  decide

example :
    evaluateRuleAgainstTx
      (JsVal.vobj [("condition", JsVal.vstr "category == 'Travel' and amount > 300")])
      (JsVal.vobj [("amount", JsVal.vnum 300), ("category", JsVal.vstr "Travel")]) = false := by
  decide

example :
    evaluateRuleAgainstTx
      (JsVal.vobj [("condition", JsVal.vstr "amount > 100 or category == 'Alcohol'")])
      (JsVal.vobj [("amount", JsVal.vnum 50), ("category", JsVal.vstr "Alcohol")]) = true := by
  decide

example :
    evaluateRuleAgainstTx
      (JsVal.vobj [("condition", JsVal.vstr "foo ~= bar")])
      (JsVal.vobj [("amount", JsVal.vnum 50)]) = false := by
  decide

end EvalSanity

/-! ## JSON.stringify (needed by the aggregator's nameless-rule fallback) -/

def hexCh (d : Nat) : Char :=
  if d < 10 then digitCh d else Char.ofNat (87 + d)

def escChar (c : Char) : List Char :=
  if c = '"' then ['\\', '"']
  else if c = '\\' then ['\\', '\\']
  else if c = '\n' then ['\\', 'n']
  else if c = '\r' then ['\\', 'r']
  else if c = '\t' then ['\\', 't']
  else if c = '\u0008' then ['\\', 'b']
  else if c = '\u000C' then ['\\', 'f']
  else if c.toNat < 32 then ['\\', 'u', '0', '0', hexCh (c.toNat / 16), hexCh (c.toNat % 16)]
  else [c]

def jsonEscape (s : String) : String :=
  String.mk ('"' :: (s.data.map escChar).flatten ++ ['"'])

mutual

/-- Model of `JSON.stringify`; `none` for `undefined` at the top level. -/
def jsonStringify : JsVal → Option String
  | JsVal.vundef => none
  | JsVal.vnull => some "null"
  | JsVal.vbool b => some (if b then "true" else "false")
  | JsVal.vnum q => some (ratToString q)
  | JsVal.vstr s => some (jsonEscape s)
  | JsVal.varr xs => some ("[" ++ String.intercalate "," (jsonStringifyArr xs) ++ "]")
  | JsVal.vobj fs => some ("\x7b" ++ String.intercalate "," (jsonStringifyObj fs) ++ "\x7d")

/-- Array elements: `undefined` serialises as `null`. -/
def jsonStringifyArr : List JsVal → List String
  | [] => []
  | v :: vs =>
    (match jsonStringify v with
      | some s => s
      | none => "null") :: jsonStringifyArr vs

/-- Object fields: `undefined`-valued fields are skipped. -/
def jsonStringifyObj : List (String × JsVal) → List String
  | [] => []
  | (k, v) :: rest =>
    match jsonStringify v with
    | none => jsonStringifyObj rest
    | some s => (jsonEscape k ++ ":" ++ s) :: jsonStringifyObj rest

end

/-! ## The compliance aggregator `applyPolicyToRows` -/

def defaultVerdict : JsVal :=
  JsVal.vobj
    [("compliant", JsVal.vbool true),
     ("violated_rules", JsVal.varr []),
     ("reason", JsVal.vstr "")]

/-- The pushed entry `rule.name || rule.violation_message || JSON.stringify(rule)`.
This is only evaluated for rules on which the evaluator returned true, which
forces the rule to be truthy, so the property reads cannot throw. -/
def ruleViolationName (rule : JsVal) : JsVal :=
  jsOr (jsOr (jsGetField rule "name") (jsGetField rule "violation_message"))
    (match jsonStringify rule with
      | some s => JsVal.vstr s
      | none => JsVal.vundef)

def applyPolicyRow (rules : List JsVal) (r : JsVal) : JsVal :=
  let violated := (rules.filter (fun rule => evaluateRuleAgainstTx rule r)).map ruleViolationName
  jsSetField r "policy"
    (JsVal.vobj
      [("compliant", JsVal.vbool violated.isEmpty),
       ("violated_rules", JsVal.varr violated),
       ("reason", JsVal.vstr (String.intercalate "; " (jsStringList violated)))])

def docRules (doc : JsVal) : Option (List JsVal) :=
  match jsGetField doc "rules" with
  | JsVal.varr rs => some rs
  | _ => none

/-- Model of `applyPolicyToRows(rows)` with the active rule document made an
explicit argument.  The per-rule `try/catch` of the source is dead code in
the model: every reachable operation in the loop body is total. -/
def applyPolicyToRows (doc : JsVal) (rows : List JsVal) : List JsVal :=
  match (if jsTruthy doc then docRules doc else none) with
  | none => rows.map (fun r => jsSetField r "policy" defaultVerdict)
  | some [] => rows.map (fun r => jsSetField r "policy" defaultVerdict)
  | some rules => rows.map (applyPolicyRow rules)

/-- OR-groups of a rule: the trimmed condition string split on the
whitespace-delimited `or`, each group trimmed. -/
def orGroups (rule : JsVal) : List (List Char) :=
  (splitTok ['o', 'r']
      (trimL (jsString (jsOr (if jsTruthy rule then jsGetField rule "condition" else rule)
        (JsVal.vstr ""))).data)).map trimL

/-- AND-clauses of an OR-group. -/
def andClauses (g : List Char) : List (List Char) :=
  (splitTok ['a', 'n', 'd'] g).map trimL

/-! ## JSON.parse -/

def jsonWsCh (c : Char) : Bool := c = ' ' || c = '\t' || c = '\n' || c = '\r'

/-- String body after the opening quote: returns content and remainder after
the closing quote.  Fueled by the input length. -/
def jsonParseStrBody : Nat → List Char → Option (List Char × List Char)
  | 0, _ => none
  | _ + 1, [] => none
  | fuel + 1, c :: rest =>
    if c = '"' then some ([], rest)
    else if c = '\\' then
      match rest with
      | [] => none
      | e :: rest2 =>
        let esc : Option (Char × List Char) :=
          if e = '"' then some ('"', rest2)
          else if e = '\\' then some ('\\', rest2)
          else if e = '/' then some ('/', rest2)
          else if e = 'b' then some ('\u0008', rest2)
          else if e = 'f' then some ('\u000C', rest2)
          else if e = 'n' then some ('\n', rest2)
          else if e = 'r' then some ('\r', rest2)
          else if e = 't' then some ('\t', rest2)
          else if e = 'u' then
            match rest2 with
            | h1 :: h2 :: h3 :: h4 :: rest3 =>
              match hexDigitVal h1, hexDigitVal h2, hexDigitVal h3, hexDigitVal h4 with
              | some a, some b, some c2, some d =>
                some (Char.ofNat (((a * 16 + b) * 16 + c2) * 16 + d), rest3)
              | _, _, _, _ => none
            | _ => none
          else none
        match esc with
        | none => none
        | some (ch, r) =>
          match jsonParseStrBody fuel r with
          | none => none
          | some (tail, rr) => some (ch :: tail, rr)
    else if c.toNat < 32 then none
    else
      match jsonParseStrBody fuel rest with
      | none => none
      | some (tail, rr) => some (c :: tail, rr)

/-- JSON number grammar `-?(0|[1-9]\d*)(\.\d+)?([eE][+-]?\d+)?`. -/
def jsonParseNum (s : List Char) : Option (ℚ × List Char) :=
  let sgn : ℚ := if s.head? = some '-' then -1 else 1
  let t := if s.head? = some '-' then s.tail else s
  let ip := t.takeWhile isDigitCh
  if ip = [] then none
  else if 1 < ip.length ∧ ip.head? = some '0' then none
  else
    let r1 := t.dropWhile isDigitCh
    let frac : Option (ℚ × List Char) :=
      match r1 with
      | '.' :: rr =>
        let fp := rr.takeWhile isDigitCh
        if fp = [] then none else some (ratOfDigits ip fp, rr.dropWhile isDigitCh)
      | _ => some ((natValL ip : ℚ), r1)
    match frac with
    | none => none
    | some (m, r2) =>
      match r2 with
      | e :: rest =>
        if e = 'e' ∨ e = 'E' then
          let esgn : ℤ := if rest.head? = some '-' then -1 else 1
          let r3 := if rest.head? = some '-' ∨ rest.head? = some '+' then rest.tail else rest
          let ds := r3.takeWhile isDigitCh
          if ds = [] then none
          else some (sgn * applyExp m (esgn * natValL ds), r3.dropWhile isDigitCh)
        else some (sgn * m, r2)
      | [] => some (sgn * m, [])

mutual

def jsonParseVal : Nat → List Char → Option (JsVal × List Char)
  | 0, _ => none
  | fuel + 1, s =>
    match s.dropWhile jsonWsCh with
    | [] => none
    | c :: rest =>
      if c = '{' then
        match rest.dropWhile jsonWsCh with
        | '}' :: r => some (JsVal.vobj [], r)
        | t2 => jsonParseMembers fuel t2 []
      else if c = '[' then
        match rest.dropWhile jsonWsCh with
        | ']' :: r => some (JsVal.varr [], r)
        | t2 => jsonParseElems fuel t2 []
      else if c = '"' then
        match jsonParseStrBody (rest.length + 1) rest with
        | none => none
        | some (cs, r) => some (JsVal.vstr (String.mk cs), r)
      else if c = 't' then
        match stripL ['r', 'u', 'e'] rest with
        | some r => some (JsVal.vbool true, r)
        | none => none
      else if c = 'f' then
        match stripL ['a', 'l', 's', 'e'] rest with
        | some r => some (JsVal.vbool false, r)
        | none => none
      else if c = 'n' then
        match stripL ['u', 'l', 'l'] rest with
        | some r => some (JsVal.vnull, r)
        | none => none
      else
        match jsonParseNum (c :: rest) with
        | some (q, r) => some (JsVal.vnum q, r)
        | none => none

def jsonParseMembers : Nat → List Char → List (String × JsVal) →
    Option (JsVal × List Char)
  | 0, _, _ => none
  | fuel + 1, s, acc =>
    match s with
    | '"' :: rest =>
      match jsonParseStrBody (rest.length + 1) rest with
      | none => none
      | some (kcs, r1) =>
        match r1.dropWhile jsonWsCh with
        | ':' :: r2 =>
          match jsonParseVal fuel r2 with
          | none => none
          | some (v, r3) =>
            let acc2 := setAssoc acc (String.mk kcs) v
            match r3.dropWhile jsonWsCh with
            | ',' :: r4 => jsonParseMembers fuel (r4.dropWhile jsonWsCh) acc2
            | '}' :: r4 => some (JsVal.vobj acc2, r4)
            | _ => none
        | _ => none
    | _ => none

def jsonParseElems : Nat → List Char → List JsVal → Option (JsVal × List Char)
  | 0, _, _ => none
  | fuel + 1, s, acc =>
    match jsonParseVal fuel s with
    | none => none
    | some (v, r1) =>
      match r1.dropWhile jsonWsCh with
      | ',' :: r2 => jsonParseElems fuel r2 (acc ++ [v])
      | ']' :: r2 => some (JsVal.varr (acc ++ [v]), r2)
      | _ => none

end

/-- Model of `JSON.parse`; `none` models a `SyntaxError`. -/
def jsonParse (s : String) : Option JsVal :=
  match jsonParseVal (2 * s.data.length + 2) s.data with
  | some (v, rest) => if rest.dropWhile jsonWsCh = [] then some v else none
  | none => none

/-- The regex extraction `s.match(/\{[\s\S]*\}/)`: greedy, so the span runs
from the first `{` to the last `}` of the string, provided that `}` comes
after that `{`. -/
def braceSpanL (s : List Char) : Option (List Char) :=
  match s.dropWhile (fun c => !(c = '{' : Bool)) with
  | [] => none
  | t =>
    match t.reverse.dropWhile (fun c => !(c = '}' : Bool)) with
    | [] => none
    | r => some r.reverse

/-! ## Condition synthesis -/

/-- Word-boundary test `\bW\b` at the head of the list: the keyword matches
case-insensitively and the following character (if any) is not a word
character; the boundary before is checked by the caller. -/
def wordAt (w : List Char) (s : List Char) : Bool :=
  match stripCI w s with
  | none => false
  | some [] => true
  | some (d :: _) => !isIdentCh d

def hasWordCIGo (w : List Char) : Option Char → List Char → Bool
  | _, [] => false
  | prev, c :: rest =>
    ((match prev with
      | none => true
      | some p => !isIdentCh p) && wordAt w (c :: rest)) || hasWordCIGo w (some c) rest

/-- Case-insensitive word-boundary search `/\bW\b/i`. -/
def hasWordCI (w : List Char) (s : List Char) : Bool := hasWordCIGo w none s

/-- The test `/[><=]|\band\b|\bor\b|==|!=/i.test(cond)` deciding whether a
condition already looks machine-checkable (`==` and `!=` are subsumed by the
character class). -/
def testMachineCond (s : List Char) : Bool :=
  s.any (fun c => c = '>' || c = '<' || c = '=') ||
    hasWordCI ['a', 'n', 'd'] s || hasWordCI ['o', 'r'] s

def isStrVal : JsVal → Bool
  | JsVal.vstr _ => true
  | _ => false

/-- Model of the inner `synthRuleCondition(r)` arrow function.  Its
`try/catch` is dead in the model: every reachable operation is total (`r`
is never `null`/`undefined` here because the caller's loop guard would have
thrown first, which the model accounts for at the loop). -/
def synthRuleCondition (r : JsVal) : JsVal :=
  let c := jsGetField r "condition"
  if jsTruthy r && jsTruthy c && isStrVal c && testMachineCond (trimL (jsString c).data) then
    c
  else
    let th := jsGetField r "threshold"
    let notNullish : Bool :=
      match th with
      | JsVal.vundef => false
      | JsVal.vnull => false
      | _ => true
    if jsTruthy r && notNullish && jsTruthy (jsGetField r "category") then
      match jsToNum th with
      | some thr =>
        JsVal.vstr ("category == '" ++ jsString (jsGetField r "category") ++
          "' and amount > " ++ ratToString thr)
      | none => c
    else c

mutual

/-- Strict equality `!==`-complement on the values compared by the synth
loop (a fresh string against an arbitrary field value, or a value against
itself), where JS strict equality coincides with structural equality. -/
def jsvalBeq : JsVal → JsVal → Bool
  | JsVal.vnull, JsVal.vnull => true
  | JsVal.vundef, JsVal.vundef => true
  | JsVal.vbool a, JsVal.vbool b => a == b
  | JsVal.vnum a, JsVal.vnum b => a == b
  | JsVal.vstr a, JsVal.vstr b => a == b
  | JsVal.varr xs, JsVal.varr ys => jsvalBeqList xs ys
  | JsVal.vobj fs, JsVal.vobj gs => jsvalBeqFields fs gs
  | _, _ => false

def jsvalBeqList : List JsVal → List JsVal → Bool
  | [], [] => true
  | x :: xs, y :: ys => jsvalBeq x y && jsvalBeqList xs ys
  | _, _ => false

def jsvalBeqFields : List (String × JsVal) → List (String × JsVal) → Bool
  | [], [] => true
  | (k1, v1) :: xs, (k2, v2) :: ys => k1 == k2 && jsvalBeq v1 v2 && jsvalBeqFields xs ys
  | _, _ => false

end

/-- One iteration of the synth loop body for rule `rr`; `none` models the
`TypeError` thrown by `rr.condition` when `rr` is `null` or `undefined`. -/
def updateRuleCond (rr : JsVal) : Option JsVal :=
  match rr with
  | JsVal.vnull => none
  | JsVal.vundef => none
  | _ =>
    let cond := jsGetField rr "condition"
    if !jsTruthy cond || isStrVal cond then
      let s := synthRuleCondition rr
      if jsTruthy s && !jsvalBeq s cond then some (jsSetField rr "condition" s)
      else some rr
    else some rr

/-- The synth loop over the rules array; the Bool records a thrown
exception, in which case the failing rule and the ones after it are left
untouched. -/
def updateRules : List JsVal → List JsVal × Bool
  | [] => ([], false)
  | rr :: rest =>
    match updateRuleCond rr with
    | none => (rr :: rest, true)
    | some rr2 =>
      let (rest2, threw) := updateRules rest
      (rr2 :: rest2, threw)

/-! ## The response normalizer

The detection phase locates the rules array and records how the resulting
document aliases the input, so that the in-place `rr.condition` writes of
the synth loop can be reflected both in the returned document and in the
caller's view of the input. -/

inductive NormOut where
  | ok (doc : JsVal)
  | err (msg : String)
  | thrown

/-- Where the detected rules array lives. -/
inductive DocSpec where
  | whole (rs : List JsVal)
  | entry (k : String ⊕ Nat) (src : JsVal) (rs : List JsVal)
  | selfArr (rs : List JsVal)
  | freshDoc (p : JsVal) (rs : List JsVal)
  | freshWrap (rs : List JsVal)
  | freshEntry (src : JsVal) (rs : List JsVal)

def specRules : DocSpec → List JsVal
  | DocSpec.whole rs => rs
  | DocSpec.entry _ _ rs => rs
  | DocSpec.selfArr rs => rs
  | DocSpec.freshDoc _ rs => rs
  | DocSpec.freshWrap rs => rs
  | DocSpec.freshEntry _ rs => rs

inductive DetectRes where
  | throw
  | notFound
  | found (spec : DocSpec)

def keyStr : String ⊕ Nat → String
  | Sum.inl k => k
  | Sum.inr i => String.mk (natToChars i)

/-- Enumerable own entries, in `Object.keys` order (insertion order for
objects, index order for arrays). -/
def jsEntryList : JsVal → List ((String ⊕ Nat) × JsVal)
  | JsVal.vobj fs => fs.map (fun kv => (Sum.inl kv.1, kv.2))
  | JsVal.varr xs => xs.enum.map (fun iv => (Sum.inr iv.1, iv.2))
  | _ => []

/-- The scan `for(const k of Object.keys(resp))` looking for the first entry
whose value is a non-empty array of rule-like objects.  `throw` models the
`TypeError` of `'name' in v[0]` when `v[0]` is `null`. -/
def scanRuleArray : List ((String ⊕ Nat) × JsVal) → DetectRes
  | [] => DetectRes.notFound
  | (k, v) :: rest =>
    match v with
    | JsVal.varr (x :: xs) =>
      if typeofObj x then
        match jsHasProp x "name", jsHasProp x "condition" with
        | some hn, some hc =>
          if hn || hc then DetectRes.found (DocSpec.entry k JsVal.vundef (x :: xs))
          else scanRuleArray rest
        | _, _ => DetectRes.throw
      else scanRuleArray rest
    | _ => scanRuleArray rest

/-- The array-of-rules test applied to a value `v` directly (the
`Array.isArray(resp) && resp.length>0 && typeof resp[0]==='object' &&
('name' in resp[0] || 'condition' in resp[0])` branch). -/
def arrOfRules (v : JsVal) : DetectRes :=
  match v with
  | JsVal.varr (x :: xs) =>
    if typeofObj x then
      match jsHasProp x "name", jsHasProp x "condition" with
      | some hn, some hc =>
        if hn || hc then DetectRes.found (DocSpec.selfArr (x :: xs))
        else DetectRes.notFound
      | _, _ => DetectRes.throw
    else DetectRes.notFound
  | _ => DetectRes.notFound

/-- Shape detection on the response object itself (no try/catch: a throw
here propagates out of `normalizeParserResponse`). -/
def detectObjShape (resp : JsVal) : DetectRes :=
  match jsGetField resp "rules" with
  | JsVal.varr rs => DetectRes.found (DocSpec.whole rs)
  | _ =>
    match scanRuleArray (jsEntryList resp) with
    | DetectRes.found (DocSpec.entry k _ rs) =>
      DetectRes.found
        (DocSpec.entry k (jsOr (jsGetField resp "source") (JsVal.vstr (keyStr k))) rs)
    | DetectRes.found other => DetectRes.found other
    | DetectRes.throw => DetectRes.throw
    | DetectRes.notFound => arrOfRules resp

def candidateStrings (resp : JsVal) : List String :=
  (match resp with
    | JsVal.vstr s => [s]
    | _ => []) ++
  (if typeofObj resp then
    (match jsGetField resp "extracted" with
      | JsVal.vstr s => [s]
      | _ => []) ++
    (match jsGetField resp "output" with
      | JsVal.vstr s => [s]
      | _ => []) ++
    (match jsGetField resp "text" with
      | JsVal.vstr s => [s]
      | _ => []) ++
    (match jsGetField resp "content" with
      | JsVal.vstr s => [s]
      | _ => [])
  else [])

/-- The brace-extraction attempt on one candidate string. -/
def braceTry (s : String) : DetectRes :=
  match braceSpanL s.data with
  | none => DetectRes.notFound
  | some t =>
    match jsonParse (String.mk t) with
    | none => DetectRes.notFound
    | some p =>
      if jsTruthy p then
        match jsGetField p "rules" with
        | JsVal.varr rs => DetectRes.found (DocSpec.freshDoc p rs)
        | _ =>
          match p with
          | JsVal.varr xs => DetectRes.found (DocSpec.freshWrap xs)
          | _ => DetectRes.notFound
      else DetectRes.notFound

/-- One candidate: direct JSON parse with shape tests (all inside
`try{...}catch{}`, so the `'name' in null` throw is swallowed and the brace
extraction still runs), then the brace extraction. -/
def tryCandidate (s : String) : DetectRes :=
  let direct : DetectRes :=
    match jsonParse s with
    | none => DetectRes.notFound
    | some p =>
      if jsTruthy p && typeofObj p then
        match jsGetField p "rules" with
        | JsVal.varr rs => DetectRes.found (DocSpec.freshDoc p rs)
        | _ =>
          match p with
          | JsVal.varr (x :: xs) =>
            if typeofObj x then DetectRes.found (DocSpec.freshWrap (x :: xs))
            else scanP p
          | _ => scanP p
      else DetectRes.notFound
  match direct with
  | DetectRes.found spec => DetectRes.found spec
  | _ => braceTry s
where
  scanP (p : JsVal) : DetectRes :=
    match scanRuleArray (jsEntryList p) with
    | DetectRes.found (DocSpec.entry k _ rs) =>
      DetectRes.found
        (DocSpec.freshEntry (jsOr (jsGetField p "source") (JsVal.vstr (keyStr k))) rs)
    | DetectRes.found other => DetectRes.found other
    | other => other

def tryCandidates : List String → DetectRes
  | [] => DetectRes.notFound
  | s :: rest =>
    if s = "" then tryCandidates rest
    else
      match tryCandidate s with
      | DetectRes.found spec => DetectRes.found spec
      | _ => tryCandidates rest

/-- The returned document, given the updated rules array. -/
def buildDoc (resp : JsVal) (spec : DocSpec) (rs2 : List JsVal) : JsVal :=
  match spec with
  | DocSpec.whole _ => jsSetField resp "rules" (JsVal.varr rs2)
  | DocSpec.entry _ src _ => JsVal.vobj [("rules", JsVal.varr rs2), ("source", src)]
  | DocSpec.selfArr _ => JsVal.vobj [("rules", JsVal.varr rs2)]
  | DocSpec.freshDoc p _ => jsSetField p "rules" (JsVal.varr rs2)
  | DocSpec.freshWrap _ => JsVal.vobj [("rules", JsVal.varr rs2)]
  | DocSpec.freshEntry src _ => JsVal.vobj [("rules", JsVal.varr rs2), ("source", src)]

/-- The caller's view of the input after the call: in-place writes through
the aliased rules array are visible exactly when the document shares
structure with the input. -/
def inputAfter (resp : JsVal) (spec : DocSpec) (rs2 : List JsVal) : JsVal :=
  match spec with
  | DocSpec.whole _ => jsSetField resp "rules" (JsVal.varr rs2)
  | DocSpec.entry (Sum.inl k) _ _ =>
    (match resp with
      | JsVal.vobj fs => JsVal.vobj (setAssoc fs k (JsVal.varr rs2))
      | other => other)
  | DocSpec.entry (Sum.inr i) _ _ =>
    (match resp with
      | JsVal.varr xs => JsVal.varr (xs.set i (JsVal.varr rs2))
      | other => other)
  | DocSpec.selfArr _ => JsVal.varr rs2
  | _ => resp

def finishDoc (resp : JsVal) (spec : DocSpec) : NormOut × JsVal :=
  match updateRules (specRules spec) with
  | (rs2, true) => (NormOut.thrown, inputAfter resp spec rs2)
  | (rs2, false) => (NormOut.ok (buildDoc resp spec rs2), inputAfter resp spec rs2)

/-- Model of `normalizeParserResponse(resp)`: the result together with the
post-call value of the input object graph. -/
def normalizeParserResponse (resp : JsVal) : NormOut × JsVal :=
  if jsTruthy resp = false then (NormOut.err "empty_response", resp)
  else
    match (if typeofObj resp then detectObjShape resp else DetectRes.notFound) with
    | DetectRes.throw => (NormOut.thrown, resp)
    | DetectRes.found spec => finishDoc resp spec
    | DetectRes.notFound =>
      match tryCandidates (candidateStrings resp) with
      | DetectRes.found spec => finishDoc resp spec
      | _ => (NormOut.err "no_rules_found_in_response", resp)

section NormSanity

example :
    jsonParse "\x7b\"rules\":[\x7b\"name\":\"R1\",\"condition\":\"amount > 50\"\x7d]\x7d" =
      some (JsVal.vobj [("rules", JsVal.varr
        [JsVal.vobj [("name", JsVal.vstr "R1"), ("condition", JsVal.vstr "amount > 50")]])]) := by
  rfl

example :
    (normalizeParserResponse (JsVal.vobj [("output", JsVal.vstr
      "Sure, here is the JSON: \x7b\"rules\":[\x7b\"name\":\"R1\",\"condition\":\"amount > 50\"\x7d]\x7d")])).1 =
    NormOut.ok (JsVal.vobj [("rules", JsVal.varr
      [JsVal.vobj [("name", JsVal.vstr "R1"), ("condition", JsVal.vstr "amount > 50")]])]) := by
  rfl

end NormSanity

/-! ## The category aligner `alignParsedCategoriesWithDataset`

The aligner first deep-copies the document (`JSON.parse(JSON.stringify(parsed))`)
and then rewrites the copy in place.  It touches only the `category` and
`condition` fields of rules; the documents it receives are canonical rule
documents, modelled by the typed structures below, on which the JSON
round-trip deep copy is the identity (all members are strings or absent, and
`JSON.parse` and `JSON.stringify` are mutually inverse on string data), so
the copy is modelled by value semantics. -/

structure ARule where
  name : Option String
  category : Option String
  condition : Option String
  deriving DecidableEq

structure AlignDoc where
  rules : List ARule
  version : Option String
  source : Option String
  deriving DecidableEq

/-- Model of the inner `mapCategory` closure: exact case-insensitive lookup
(later dataset categories overwrite earlier ones in `lowerMap`, and a falsy
`""` entry fails the `if(lowerMap[low])` guard), then first substring match,
else the value unchanged. -/
def mapCategory (cats : List String) (val : String) : String :=
  if val = "" then val
  else
    let s := String.mk (trimL val.data)
    if s = "" then val
    else
      let low := lowStr s
      let exact : Option String :=
        match cats.reverse.find? (fun c => lowStr c = low) with
        | some c => if c = "" then none else some c
        | none => none
      match exact with
      | some c => c
      | none =>
        match cats.find? (fun c =>
            containsL low.data (lowStr c).data || containsL (lowStr c).data low.data) with
        | some c => c
        | none => val

/-- Attempt of the quoted-literal regex starting right after a quote
character `q`: the literal is the run of non-quote characters; it must be
non-empty and closed by the same quote. -/
def tryLit (q : Char) (rest : List Char) : Option (List Char × List Char) :=
  let lit := rest.takeWhile (fun c => !isQuoteCh c)
  match rest.dropWhile (fun c => !isQuoteCh c) with
  | q2 :: suf => if q2 = q ∧ lit ≠ [] then some (lit, suf) else none
  | [] => none

/-- Leftmost match of `/(['"])([^'\x22]+)\1/`: returns the prefix before the
match, the quote character, the literal, and the suffix after the closing
quote. -/
def firstQuoted : List Char → Option (List Char × Char × List Char × List Char)
  | [] => none
  | c :: rest =>
    if isQuoteCh c then
      match tryLit c rest with
      | some (lit, suf) => some ([], c, lit, suf)
      | none => (firstQuoted rest).map (fun r => (c :: r.1, r.2.1, r.2.2.1, r.2.2.2))
    else (firstQuoted rest).map (fun r => (c :: r.1, r.2.1, r.2.2.1, r.2.2.2))

/-- Condition rewriting: map the first quoted literal and replace its first
occurrence (`r.condition.replace(m[0], m[1]+mapped+m[1])`), guarded by
`if(mapped && mapped !== lit)`. -/
def alignCondition (cats : List String) (cond : String) : String :=
  match firstQuoted cond.data with
  | none => cond
  | some (_, q, lit, _) =>
    let mapped := mapCategory cats (String.mk lit)
    if mapped ≠ "" ∧ mapped ≠ String.mk lit then
      String.mk (replaceFirstL (q :: (lit ++ [q])) (q :: (mapped.data ++ [q])) cond.data)
    else cond

def alignRule (cats : List String) (r : ARule) : ARule :=
  let r1 :=
    match r.category with
    | some c => if c ≠ "" then { r with category := some (mapCategory cats c) } else r
    | none => r
  match r1.condition with
  | some cond =>
    if cond ≠ "" then { r1 with condition := some (alignCondition cats cond) } else r1
  | none => r1

/-- Model of `alignParsedCategoriesWithDataset(parsed, datasetCategories)`
on canonical rule documents (the `!parsed || !Array.isArray(parsed.rules)`
early return cannot fire on them, and `String(c)` is the identity on the
string dataset categories). -/
def alignParsedCategoriesWithDataset (d : AlignDoc) (cats : List String) : AlignDoc :=
  { d with rules := d.rules.map (alignRule cats) }

section AlignSanity

example :
    alignParsedCategoriesWithDataset ⟨[⟨some "R", some "meals", none⟩], none, none⟩
      ["Meals", "Travel"] = ⟨[⟨some "R", some "Meals", none⟩], none, none⟩ := by
  decide

example :
    alignParsedCategoriesWithDataset
      (alignParsedCategoriesWithDataset ⟨[⟨none, some "a", none⟩], none, none⟩ ["AB", "ab"])
      ["AB", "ab"] ≠
    alignParsedCategoriesWithDataset ⟨[⟨none, some "a", none⟩], none, none⟩ ["AB", "ab"] := by
  decide

end AlignSanity

def checkTokAt (kw : List Char) (s : List Char) : Bool :=
  match stripCI kw (s.dropWhile jsWs) with
  | some (d :: _) => jsWs d
  | _ => false

def hasTokIn (kw : List Char) : List Char → Bool
  | [] => false
  | c :: rest => (jsWs c && checkTokAt kw (c :: rest)) || hasTokIn kw rest

/-! ## Evaluating the synthesized condition -/

def synthCondStr (C : String) (T : ℚ) : String :=
  "category == '" ++ C ++ "' and amount > " ++ ratToString T

def c1Rule0 : JsVal :=
  JsVal.vobj [("name", JsVal.vstr "R"), ("threshold", JsVal.vnum (-5)),
    ("category", JsVal.vstr "Travel")]

def c1Tx0 : JsVal :=
  JsVal.vobj [("amount", JsVal.vnum 0), ("category", JsVal.vstr "Travel")]

def c1e21Rule : JsVal :=
  JsVal.vobj [("threshold", JsVal.vnum (10 ^ 21)), ("category", JsVal.vstr "Travel")]

/-! ## Normalizer claims -/

/-- Canonical rules: objects whose `condition` is a non-empty
machine-checkable string (so synthesis leaves them untouched). -/
def canonicalRules (rs : List JsVal) : Prop :=
  ∀ rr ∈ rs, ∃ gs cs, rr = JsVal.vobj gs ∧
    jsGetField rr "condition" = JsVal.vstr cs ∧ cs ≠ "" ∧
    testMachineCond (trimL cs.data) = true

def c6D1 : JsVal :=
  JsVal.vobj [("rules", JsVal.varr
    [JsVal.vobj [("name", JsVal.vstr "R1"), ("condition", JsVal.vstr "amount > 50")]])]

def c7Rule : JsVal :=
  JsVal.vobj [("name", JsVal.vstr "R"), ("threshold", JsVal.vnum 100),
    ("category", JsVal.vstr "Travel")]

def c7D0 : JsVal := JsVal.vobj [("rules", JsVal.varr [c7Rule])]

def c8Rule : JsVal :=
  JsVal.vobj [("name", JsVal.vstr "R1"), ("condition", JsVal.vstr "amount > 50")]

def c8T : String :=
  "\x7b\"rules\":[\x7b\"name\":\"R1\",\"condition\":\"amount > 50\"\x7d]\x7d"

def c8S : String := "Sure, here is the JSON: " ++ c8T

theorem lenDropWhile (p : Char → Bool) (l : List Char) :
    (l.dropWhile p).length ≤ l.length :=
  (List.dropWhile_suffix p).length_le

theorem tryTok_nonWs {kw : List Char} {c : Char} {rest : List Char}
    (h : jsWs c = false) : tryTok kw (c :: rest) = none := by
  simp [tryTok, h]

theorem stripCI_length {kw s r : List Char} (h : stripCI kw s = some r) :
    r.length + kw.length = s.length := by
  induction kw generalizing s with
  | nil => simp [stripCI] at h; simp [h]
  | cons k ks ih =>
    cases s with
    | nil => simp [stripCI] at h
    | cons c cs =>
      simp only [stripCI] at h
      split at h
      · have := ih h; simp [List.length_cons]; omega
      · exact absurd h (by simp)

theorem tryTok_length {kw s r : List Char} (hkw : kw ≠ [])
    (h : tryTok kw s = some r) : r.length < s.length := by
  unfold tryTok at h
  cases s with
  | nil => simp at h
  | cons c cs =>
    by_cases hw : jsWs c
    · simp only [hw, if_true] at h
      rcases hs : stripCI kw ((c :: cs).dropWhile jsWs) with _ | u
      · rw [hs] at h; simp at h
      · rw [hs] at h
        have hlen := stripCI_length hs
        have hdw : ((c :: cs).dropWhile jsWs).length ≤ (c :: cs).length :=
          lenDropWhile jsWs (c :: cs)
        cases u with
        | nil => simp at h
        | cons d ds =>
          simp only at h
          split at h
          · have : r = (d :: ds).dropWhile jsWs := by
              simpa using h.symm
            have h2 : ((d :: ds).dropWhile jsWs).length ≤ (d :: ds).length :=
              lenDropWhile jsWs (d :: ds)
            have hk : 1 ≤ kw.length := by
              cases kw
              · exact absurd rfl hkw
              · simp
            subst this
            simp only [List.length_cons] at *
            omega
          · simp at h
    · simp [hw] at h

theorem chDigit_digitCh {d : Nat} (h : d < 10) : chDigit (digitCh d) = d := by
  interval_cases d <;> decide

theorem isDigitCh_digitCh {d : Nat} (h : d < 10) : isDigitCh (digitCh d) = true := by
  interval_cases d <;> decide

theorem natValL_cons (c : Char) (cs : List Char) :
    natValL (c :: cs) = natValL cs + chDigit c * 10 ^ cs.length := by
  have key : ∀ (l : List Char) (a : Nat),
      l.foldl (fun x c => 10 * x + chDigit c) a =
        a * 10 ^ l.length + l.foldl (fun x c => 10 * x + chDigit c) 0 := by
    intro l
    induction l with
    | nil => intro a; simp
    | cons d ds ih =>
      intro a
      simp only [List.foldl_cons, List.length_cons]
      rw [ih (10 * a + chDigit d), ih (10 * 0 + chDigit d)]
      ring
  simp only [natValL, List.foldl_cons]
  rw [key cs (10 * 0 + chDigit c)]
  ring

theorem natValL_append (a b : List Char) :
    natValL (a ++ b) = natValL a * 10 ^ b.length + natValL b := by
  induction a with
  | nil => simp [natValL]
  | cons c cs ih =>
    simp only [List.cons_append, natValL_cons, ih, List.length_append]
    ring

theorem natValL_natToCharsGo {fuel n : Nat} (h : n ≤ fuel) :
    natValL (natToCharsGo fuel n) = n := by
  induction fuel generalizing n with
  | zero =>
    interval_cases n
    decide
  | succ f ih =>
    by_cases hn : n < 10
    · simp only [natToCharsGo, hn, if_true]
      simp [natValL_cons, natValL, chDigit_digitCh hn]
    · simp only [natToCharsGo, hn, if_false]
      have h10 : 0 < n := by omega
      have hdiv : n / 10 < n := Nat.div_lt_self h10 (by decide)
      rw [natValL_append, ih (by omega)]
      have hm : n % 10 < 10 := Nat.mod_lt _ (by decide)
      simp [natValL_cons, natValL, chDigit_digitCh hm]
      omega

theorem natValL_natToChars (n : Nat) : natValL (natToChars n) = n :=
  natValL_natToCharsGo le_rfl

theorem natToCharsGo_digits {fuel n : Nat} :
    ∀ c ∈ natToCharsGo fuel n, isDigitCh c = true := by
  induction fuel generalizing n with
  | zero =>
    intro c hc
    simp only [natToCharsGo, List.mem_singleton] at hc
    subst hc
    exact isDigitCh_digitCh (Nat.mod_lt _ (by decide))
  | succ f ih =>
    intro c hc
    by_cases hn : n < 10
    · simp only [natToCharsGo, hn, if_true, List.mem_singleton] at hc
      subst hc
      exact isDigitCh_digitCh hn
    · simp only [natToCharsGo, hn, if_false, List.mem_append, List.mem_singleton] at hc
      rcases hc with hc | hc
      · exact ih _ hc
      · subst hc
        exact isDigitCh_digitCh (Nat.mod_lt _ (by decide))

theorem natToChars_digits {n : Nat} : ∀ c ∈ natToChars n, isDigitCh c = true :=
  natToCharsGo_digits

theorem natToChars_ne_nil (n : Nat) : natToChars n ≠ [] := by
  unfold natToChars
  cases n with
  | zero => decide
  | succ m =>
    by_cases hn : m + 1 < 10 <;> simp [natToCharsGo, hn]

theorem natValL_zeros (m : Nat) : natValL (List.replicate m '0') = 0 := by
  induction m with
  | zero => rfl
  | succ k ih =>
    rw [List.replicate_succ, natValL_cons, ih]
    have h0 : chDigit '0' = 0 := by decide
    simp [h0]

theorem decScale_dvd {den k : Nat} (h : decScale den = some k) : den ∣ 10 ^ k := by
  unfold decScale at h
  split at h
  · rename_i heq
    have hk : k = max (factorCount 2 den den) (factorCount 5 den den) := by
      simpa using h.symm
    have h10 : (10 : Nat) ^ k = 2 ^ k * 5 ^ k := by
      rw [show (10 : Nat) = 2 * 5 from rfl, Nat.mul_pow]
    rw [h10, heq, hk]
    exact Nat.mul_dvd_mul
      (Nat.pow_dvd_pow 2 (Nat.le_max_left _ _))
      (Nat.pow_dvd_pow 5 (Nat.le_max_right _ _))
  · exact absurd h (by simp)

/-! ## Helpers on takeWhile and dropWhile -/

theorem takeWhile_all {p : Char → Bool} :
    ∀ {xs : List Char}, (∀ c ∈ xs, p c = true) → xs.takeWhile p = xs := by
  intro xs
  induction xs with
  | nil => intro _; rfl
  | cons c cs ih =>
    intro h
    simp only [List.takeWhile_cons, h c (by simp), if_true]
    rw [ih (fun d hd => h d (by simp [hd]))]

theorem dropWhile_all {p : Char → Bool} :
    ∀ {xs : List Char}, (∀ c ∈ xs, p c = true) → xs.dropWhile p = [] := by
  intro xs
  induction xs with
  | nil => intro _; rfl
  | cons c cs ih =>
    intro h
    simp only [List.dropWhile_cons, h c (by simp), if_true]
    exact ih (fun d hd => h d (by simp [hd]))

theorem takeWhile_mid {p : Char → Bool} {xs : List Char} {y : Char} (ys : List Char)
    (hall : ∀ c ∈ xs, p c = true) (hy : p y = false) :
    (xs ++ y :: ys).takeWhile p = xs := by
  induction xs with
  | nil => simp [List.takeWhile_cons, hy]
  | cons c cs ih =>
    simp only [List.cons_append, List.takeWhile_cons, hall c (by simp), if_true]
    rw [ih (fun d hd => hall d (by simp [hd]))]

theorem dropWhile_mid {p : Char → Bool} {xs : List Char} {y : Char} (ys : List Char)
    (hall : ∀ c ∈ xs, p c = true) (hy : p y = false) :
    (xs ++ y :: ys).dropWhile p = y :: ys := by
  induction xs with
  | nil => simp [List.dropWhile_cons, hy]
  | cons c cs ih =>
    simp only [List.cons_append, List.dropWhile_cons, hall c (by simp), if_true]
    exact ih (fun d hd => hall d (by simp [hd]))

/-- Round-trip for the plain-decimal rendering: the evaluator's anchored
number regex recovers exactly the digits printed by the plain branch of the
JS number-to-string conversion, for any non-negative finite-decimal
rational. -/
theorem matchNumEnd_ratToCharsDec {q : ℚ} {k : Nat} (hq : 0 ≤ q)
    (hk : decScale q.den = some k) : matchNumEnd (ratToCharsDec q) = some q := by
  have hneg : ¬ q < 0 := not_lt.mpr hq
  set a := q.num.natAbs with ha
  set n := a * (10 ^ k / q.den) with hn
  set ds := natToChars n with hds
  set pad := List.replicate (k + 1 - ds.length) '0' ++ ds with hpad
  have hpad_digits : ∀ c ∈ pad, isDigitCh c = true := by
    intro c hc
    rw [hpad] at hc
    rcases List.mem_append.mp hc with hc | hc
    · rw [List.eq_of_mem_replicate hc]; decide
    · exact natToChars_digits c hc
  have hpad_val : natValL pad = n := by
    rw [hpad, natValL_append, natValL_zeros, natValL_natToChars]
    ring
  have hds_ne : ds ≠ [] := natToChars_ne_nil n
  have hpad_len : k + 1 ≤ pad.length := by
    rw [hpad]
    simp only [List.length_append, List.length_replicate]
    have : 1 ≤ ds.length := by
      cases hd : ds
      · exact absurd hd hds_ne
      · simp
    omega
  have hdvd : q.den ∣ 10 ^ k := decScale_dvd hk
  have hden_pos : 0 < q.den := q.pos
  have hqa : ((a : ℤ)) = q.num := Int.natAbs_of_nonneg (Rat.num_nonneg.mpr hq)
  have hval : ((n : ℚ)) = q * 10 ^ k := by
    have hmul : n * q.den = a * 10 ^ k := by
      rw [hn, Nat.mul_assoc, Nat.div_mul_cancel hdvd]
    have hqd : (q.den : ℚ) ≠ 0 := by positivity
    have hcast : ((n : ℚ)) * (q.den : ℚ) = (a : ℚ) * (10 : ℚ) ^ k := by
      have := congrArg (fun m : ℕ => (m : ℚ)) hmul
      push_cast at this
      simpa using this
    have hq_eq : (a : ℚ) = q * q.den := by
      have hnum : ((q.num : ℚ)) = q * q.den := by
        rw [mul_comm]
        exact_mod_cast (Rat.den_mul_eq_num q).symm
      rw [← hnum]
      exact_mod_cast congrArg (fun z : ℤ => (z : ℚ)) hqa
    have h2 : ((n : ℚ)) * (q.den : ℚ) = q * 10 ^ k * (q.den : ℚ) := by
      rw [hcast, hq_eq]; ring
    exact mul_right_cancel₀ hqd h2
  by_cases hk0 : k = 0
  · subst hk0
    have hden1 : q.den = 1 := Nat.dvd_one.mp (by simpa using hdvd)
    have hshape : ratToCharsDec q = pad := by
      unfold ratToCharsDec
      rw [hk]
      simp only [hneg, if_false, if_pos rfl]
      rw [hpad, hds, hn]
      norm_num
    rw [hshape]
    unfold matchNumEnd
    have ht : pad.takeWhile isDigitCh = pad := takeWhile_all hpad_digits
    have hd : pad.dropWhile isDigitCh = [] := dropWhile_all hpad_digits
    have hpne : pad ≠ [] := by
      intro hapd
      rw [hapd] at hpad_len
      simp at hpad_len
    simp only [ht, hd, if_neg hpne]
    rw [hpad_val]
    congr 1
    rw [hval]
    norm_num
  · have hkpos : 0 < k := Nat.pos_of_ne_zero hk0
    set ip := pad.take (pad.length - k) with hip
    set fp := pad.drop (pad.length - k) with hfp
    have hsplit : pad = ip ++ fp := (List.take_append_drop _ _).symm
    have hip_len : ip.length = pad.length - k := by
      rw [hip, List.length_take]
      omega
    have hfp_len : fp.length = k := by
      rw [hfp, List.length_drop]
      omega
    have hip_digits : ∀ c ∈ ip, isDigitCh c = true := fun c hc =>
      hpad_digits c (hsplit ▸ List.mem_append.mpr (Or.inl hc))
    have hfp_digits : ∀ c ∈ fp, isDigitCh c = true := fun c hc =>
      hpad_digits c (hsplit ▸ List.mem_append.mpr (Or.inr hc))
    have hip_ne : ip ≠ [] := by
      intro habs
      have := hip_len
      rw [habs] at this
      simp at this
      omega
    have hfp_ne : fp ≠ [] := by
      intro habs
      rw [habs] at hfp_len
      simp at hfp_len
      omega
    have hshape : ratToCharsDec q = ip ++ '.' :: fp := by
      unfold ratToCharsDec
      rw [hk]
      simp only [hneg, if_false, if_neg hk0]
      simp [← hds, ← hpad, ← hip, ← hfp]
    rw [hshape]
    unfold matchNumEnd
    have hdot : isDigitCh '.' = false := by decide
    have ht : (ip ++ '.' :: fp).takeWhile isDigitCh = ip := takeWhile_mid fp hip_digits hdot
    have hd : (ip ++ '.' :: fp).dropWhile isDigitCh = '.' :: fp := dropWhile_mid fp hip_digits hdot
    simp only [ht, hd, if_neg hip_ne]
    have htf : fp.takeWhile isDigitCh = fp := takeWhile_all hfp_digits
    have hdf : fp.dropWhile isDigitCh = [] := dropWhile_all hfp_digits
    simp only [htf, hdf, if_neg hfp_ne, if_pos rfl]
    unfold ratOfDigits
    have hval2 : natValL ip * 10 ^ k + natValL fp = n := by
      rw [← hfp_len, ← natValL_append, ← hsplit, hpad_val]
    have h10 : ((10 : ℚ)) ^ k ≠ 0 := by positivity
    rw [hfp_len]
    field_simp
    have := congrArg (fun m : ℕ => (m : ℚ)) hval2
    push_cast at this
    rw [hval] at this
    linear_combination this

/-! ## Structural lemmas about the evaluator loops -/

theorem evalAndLoop_eq_all (tx : JsVal) (cls : List (List Char)) :
    evalAndLoop tx true cls = cls.all (clauseSat tx) := by
  induction cls with
  | nil => rfl
  | cons cl rest ih =>
    simp only [evalAndLoop, clauseSat, List.all_cons]
    cases hm : matchAmountClause (trimL (stripParens cl)) with
    | some pv =>
      obtain ⟨op, v⟩ := pv
      cases hx : cmpQOpt (txAmount tx) op v <;> simp [hx, ih]
    | none =>
      cases hs : matchStrClause (trimL (stripParens cl)) with
      | some fl =>
        obtain ⟨f, eqOp, lit⟩ := fl
        cases heq : eqOp <;>
          [cases hx : decide ((txFieldStr tx (String.mk f)).data ≠ lit);
            cases hx : decide ((txFieldStr tx (String.mk f)).data = lit)] <;>
          simp_all
      | none =>
        cases hl : looseAmount (trimL (stripParens cl)) with
        | some v =>
          cases hx : cmpQOpt (txAmount tx) COp.cgt v <;> simp [hx, ih]
        | none => simp

theorem evalOrLoop_eq_any (tx : JsVal) (gs : List (List Char)) :
    evalOrLoop tx gs =
      gs.any (fun g => ((splitTok ['a', 'n', 'd'] g).map trimL).all (clauseSat tx)) := by
  induction gs with
  | nil => rfl
  | cons g rest ih =>
    simp only [evalOrLoop, List.any_cons, evalAndLoop_eq_all]
    cases hx : ((splitTok ['a', 'n', 'd'] g).map trimL).all (clauseSat tx) <;> simp [hx, ih]

theorem jsOr_empty_of_falsy {a : JsVal}
    (h : jsTruthy (jsOr a (JsVal.vstr "")) = false) :
    jsOr a (JsVal.vstr "") = JsVal.vstr "" := by
  by_cases ha : jsTruthy a
  · simp [jsOr, ha] at h
  · simp [jsOr, ha]

theorem evaluateRuleAgainstTx_eq_any_all (rule tx : JsVal) :
    evaluateRuleAgainstTx rule tx =
      (orGroups rule).any (fun g => (andClauses g).all (clauseSat tx)) := by
  unfold evaluateRuleAgainstTx orGroups andClauses
  by_cases htr : jsTruthy (jsOr (if jsTruthy rule then jsGetField rule "condition" else rule)
    (JsVal.vstr "")) = false
  · have he := jsOr_empty_of_falsy htr
    simp only [he]
    rfl
  · simp only [if_neg htr]
    exact evalOrLoop_eq_any tx _

/-! ## Character-class facts -/

theorem char_eq_of_toNat {a b : Char} (h : a.toNat = b.toNat) : a = b :=
  Char.ext (UInt32.ext h)

theorem jsWs_cases {c : Char} (h : jsWs c = true) :
    c.toNat = 32 ∨ c.toNat = 9 ∨ c.toNat = 10 ∨ c.toNat = 11 ∨ c.toNat = 12 ∨
    c.toNat = 13 ∨ c.toNat = 160 ∨ c.toNat = 5760 ∨
    (8192 ≤ c.toNat ∧ c.toNat ≤ 8202) ∨ c.toNat = 8232 ∨ c.toNat = 8233 ∨
    c.toNat = 8239 ∨ c.toNat = 8287 ∨ c.toNat = 12288 ∨ c.toNat = 65279 := by
  simp only [jsWs, Bool.or_eq_true, decide_eq_true_eq] at h
  rcases h with ((((((((((((((((((((((((h | h) | h) | h) | h) | h) | h) | h) | h) | h) |
    h) | h) | h) | h) | h) | h) | h) | h) | h) | h) | h) | h) | h) | h) | h) <;>
    subst h <;> simp

theorem notWs_of_toNat_small {c : Char} (hlt : c.toNat < 128)
    (h32 : c.toNat ≠ 32) (h9 : ¬ (9 ≤ c.toNat ∧ c.toNat ≤ 13)) : jsWs c = false := by
  cases hw : jsWs c
  · rfl
  · have := jsWs_cases hw
    omega

theorem digit_props {c : Char} (h : isDigitCh c = true) :
    jsWs c = false ∧ lowCh c = c ∧ jsLineTerm c = false ∧ isQuoteCh c = false ∧
    isIdentCh c = true := by
  simp only [isDigitCh, Bool.and_eq_true, decide_eq_true_eq] at h
  refine ⟨notWs_of_toNat_small (by omega) (by omega) (by omega), ?_, ?_, ?_, ?_⟩
  · simp only [lowCh]
    rw [if_neg (by omega)]
  · cases hl : jsLineTerm c
    · rfl
    · exfalso
      simp only [jsLineTerm, Bool.or_eq_true, decide_eq_true_eq] at hl
      rcases hl with ((hl | hl) | hl) | hl <;> subst hl <;> revert h <;> decide
  · cases hq : isQuoteCh c
    · rfl
    · exfalso
      simp only [isQuoteCh, Bool.or_eq_true, decide_eq_true_eq] at hq
      rcases hq with hq | hq <;> subst hq <;> revert h <;> decide
  · simp only [isIdentCh, isDigitCh, isIdentStart, Bool.or_eq_true, Bool.and_eq_true,
      decide_eq_true_eq]
    omega

theorem digit_ne_of_toNat {c : Char} (h : isDigitCh c = true) {d : Char}
    (hd : ¬ (48 ≤ d.toNat ∧ d.toNat ≤ 57)) : c ≠ d := by
  intro heq
  subst heq
  simp only [isDigitCh, Bool.and_eq_true, decide_eq_true_eq] at h
  omega

theorem digitOrDot_notWs {c : Char} (h : isDigitCh c = true ∨ c = '.') : jsWs c = false := by
  rcases h with h | h
  · exact (digit_props h).1
  · subst h; decide

theorem digitOrDot_lowCh_ne {c : Char} (h : isDigitCh c = true ∨ c = '.') {k : Char}
    (hk : ¬ (48 ≤ k.toNat ∧ k.toNat ≤ 57)) (hdot : k ≠ '.') : lowCh c ≠ k := by
  rcases h with h | h
  · rw [(digit_props h).2.1]
    exact digit_ne_of_toNat h hk
  · subst h
    have hdd : lowCh '.' = '.' := by decide
    rw [hdd]
    intro he
    exact hdot he.symm

theorem identCh_props {c : Char} (h : isIdentCh c = true) :
    jsWs c = false ∧ isQuoteCh c = false := by
  simp only [isIdentCh, isIdentStart, isDigitCh, Bool.or_eq_true, Bool.and_eq_true,
    decide_eq_true_eq] at h
  constructor
  · exact notWs_of_toNat_small (by omega) (by omega) (by omega)
  · cases hq : isQuoteCh c
    · rfl
    · exfalso
      simp only [isQuoteCh, Bool.or_eq_true, decide_eq_true_eq] at hq
      rcases hq with hq | hq <;> subst hq <;> simp at h

/-! ## Token-scan positions

`checkTokAt` captures the one way a whitespace-delimited keyword match can
start at a position of a string independently of what follows it: a
whitespace head, then (after the maximal whitespace run) the keyword, then
one more whitespace character, all inside the string.  `hasTokIn` scans all
positions.  These are the decidable side conditions under which embedding a
string into a larger condition cannot create or destroy splitter matches. -/

theorem stripCI_mismatch_tail {kw : List Char} {b : Char} {w : List Char}
    (hb : ∀ k ∈ kw, ¬ lowCh b = k) :
    ∀ u : List Char,
      stripCI kw (u ++ b :: w) = none ∨
      ∃ r, stripCI kw u = some r ∧ stripCI kw (u ++ b :: w) = some (r ++ b :: w) := by
  induction kw with
  | nil =>
    intro u
    exact Or.inr ⟨u, rfl, rfl⟩
  | cons k ks ih =>
    intro u
    cases u with
    | nil =>
      left
      simp only [List.nil_append, stripCI]
      rw [if_neg (hb k (by simp))]
    | cons c cs =>
      simp only [List.cons_append, stripCI]
      by_cases hc : lowCh c = k
      · rw [if_pos hc, if_pos hc]
        exact ih (fun k2 hk2 => hb k2 (by simp [hk2])) cs
      · rw [if_neg hc, if_neg hc]
        exact Or.inl rfl

theorem dropWhile_append_left {p : Char → Bool} :
    ∀ {xs : List Char}, xs.dropWhile p ≠ [] →
      ∀ ys, (xs ++ ys).dropWhile p = xs.dropWhile p ++ ys := by
  intro xs
  induction xs with
  | nil => intro h; exact absurd rfl h
  | cons c cs ih =>
    intro h ys
    by_cases hc : p c
    · rw [List.dropWhile_cons_of_pos hc] at h
      simp only [List.cons_append]
      rw [List.dropWhile_cons_of_pos hc, List.dropWhile_cons_of_pos hc]
      exact ih h ys
    · simp only [List.cons_append]
      rw [List.dropWhile_cons_of_neg (by simpa using hc),
        List.dropWhile_cons_of_neg (by simpa using hc)]
      rfl

/-- Embedding lemma: a string with no internal keyword token, followed by a
non-whitespace character that cannot begin the keyword, admits no splitter
match starting at any of its positions. -/
theorem tryTok_embed_none {kw C : List Char} {b : Char} {w : List Char}
    (hkw : kw ≠ [])
    (hb1 : jsWs b = false)
    (hb2 : ∀ k ∈ kw, ¬ lowCh b = k)
    (hno : hasTokIn kw C = false) :
    ∀ j, j < C.length → tryTok kw (C.drop j ++ b :: w) = none := by
  induction C with
  | nil => intro j hj; simp at hj
  | cons c rest ih =>
    intro j hj
    simp only [hasTokIn, Bool.or_eq_false_iff, Bool.and_eq_false_iff] at hno
    cases j with
    | succ j2 =>
      have hno2 : hasTokIn kw rest = false := hno.2
      simp only [List.drop_succ_cons]
      exact ih hno2 j2 (by simpa using hj)
    | zero =>
      simp only [List.drop_zero, List.cons_append]
      by_cases hwc : jsWs c
      case neg => exact tryTok_nonWs (by simpa using hwc)
      case pos =>
        have hchk : checkTokAt kw (c :: rest) = false := by
          rcases hno.1 with h | h
          · rw [hwc] at h; cases h
          · exact h
        simp only [tryTok]
        rw [if_pos hwc]
        by_cases hall : (c :: rest).dropWhile jsWs = []
        · have hdw : ((c :: rest) ++ b :: w).dropWhile jsWs = b :: w := by
            have h2 : ∀ x ∈ c :: rest, jsWs x = true := by
              intro x hx
              exact List.dropWhile_eq_nil_iff.mp hall x hx
            exact dropWhile_mid w h2 hb1
          rw [List.cons_append] at hdw
          rw [hdw]
          cases kw with
          | nil => exact absurd rfl hkw
          | cons k0 ks =>
            rw [show stripCI (k0 :: ks) (b :: w) = none from by
              simp only [stripCI]
              rw [if_neg (hb2 k0 (by simp))]]
        · have hdw : ((c :: rest) ++ b :: w).dropWhile jsWs =
              (c :: rest).dropWhile jsWs ++ b :: w := dropWhile_append_left hall _
          rw [List.cons_append] at hdw
          rw [hdw]
          rcases stripCI_mismatch_tail hb2 ((c :: rest).dropWhile jsWs) with h | ⟨r, hr1, hr2⟩
          · rw [h]
          · rw [hr2]
            cases r with
            | nil => simp [hb1]
            | cons d ds =>
              simp only [List.cons_append]
              have hd : jsWs d = false := by
                cases hdws : jsWs d
                · rfl
                · exfalso
                  unfold checkTokAt at hchk
                  rw [hr1] at hchk
                  simp [hdws] at hchk
              rw [if_neg (by simp [hd])]

/-! ## Splitter evaluation lemmas -/

theorem splitTokGo_cons_eq (kw : List Char) (fuel : Nat) (acc : List Char) (c : Char)
    (rest : List Char) :
    splitTokGo kw (fuel + 1) acc (c :: rest) =
      (match tryTok kw (c :: rest) with
        | some rest2 => acc.reverse :: splitTokGo kw fuel [] rest2
        | none => splitTokGo kw fuel (c :: acc) rest) := rfl

theorem splitTokGo_cons_none {kw : List Char} {fuel : Nat} {acc : List Char} {c : Char}
    {rest : List Char} (h : tryTok kw (c :: rest) = none) :
    splitTokGo kw (fuel + 1) acc (c :: rest) = splitTokGo kw fuel (c :: acc) rest := by
  rw [splitTokGo_cons_eq, h]

theorem splitTokGo_cons_some {kw : List Char} {fuel : Nat} {acc : List Char} {c : Char}
    {rest rest2 : List Char} (h : tryTok kw (c :: rest) = some rest2) :
    splitTokGo kw (fuel + 1) acc (c :: rest) = acc.reverse :: splitTokGo kw fuel [] rest2 := by
  rw [splitTokGo_cons_eq, h]

theorem splitTokGo_through {kw : List Char} :
    ∀ (u v acc : List Char) (fuel : Nat),
      (∀ j < u.length, tryTok kw (u.drop j ++ v) = none) →
      u.length + v.length ≤ fuel →
      splitTokGo kw fuel acc (u ++ v) =
        splitTokGo kw (fuel - u.length) (u.reverse ++ acc) v := by
  intro u
  induction u with
  | nil => intro v acc fuel _ _; simp
  | cons c u2 ih =>
    intro v acc fuel h hlen
    cases fuel with
    | zero => simp at hlen
    | succ f =>
      have h0 : tryTok kw (c :: (u2 ++ v)) = none := by
        have := h 0 (by simp)
        simpa using this
      rw [List.cons_append, splitTokGo_cons_none h0]
      have hrec := ih v (c :: acc) f
        (fun j hj => by
          have := h (j + 1) (by simpa using Nat.succ_lt_succ hj)
          simpa using this)
        (by simp at hlen ⊢; omega)
      rw [hrec]
      have harith : f - u2.length = (f + 1) - (c :: u2).length := by simp
      have hacc : u2.reverse ++ (c :: acc) = (c :: u2).reverse ++ acc := by simp
      rw [harith, hacc]

theorem splitTokGo_fire {kw v rest2 : List Char} (h : tryTok kw v = some rest2)
    (f : Nat) (acc : List Char) :
    splitTokGo kw (f + 1) acc v = acc.reverse :: splitTokGo kw f [] rest2 := by
  cases v with
  | nil => simp [tryTok] at h
  | cons c rest => exact splitTokGo_cons_some h

theorem splitTokGo_notok {kw : List Char} :
    ∀ (s acc : List Char) (fuel : Nat),
      (∀ j < s.length, tryTok kw (s.drop j) = none) →
      s.length ≤ fuel →
      splitTokGo kw fuel acc s = [acc.reverse ++ s] := by
  intro s
  induction s with
  | nil =>
    intro acc fuel _ _
    cases fuel with
    | zero => simp [show splitTokGo kw 0 acc [] = [acc.reverse ++ []] from rfl]
    | succ f => simp [show splitTokGo kw (f + 1) acc [] = [acc.reverse] from rfl]
  | cons c rest ih =>
    intro acc fuel h hlen
    cases fuel with
    | zero => simp at hlen
    | succ f =>
      have h0 : tryTok kw (c :: rest) = none := by
        have := h 0 (by simp)
        simpa using this
      rw [splitTokGo_cons_none h0]
      rw [ih (c :: acc) f
        (fun j hj => by
          have := h (j + 1) (by simpa using Nat.succ_lt_succ hj)
          simpa using this)
        (by simp at hlen ⊢; omega)]
      simp

theorem splitTok_one {kw s : List Char}
    (h : ∀ j < s.length, tryTok kw (s.drop j) = none) : splitTok kw s = [s] := by
  unfold splitTok
  rw [splitTokGo_notok s [] s.length h le_rfl]
  simp

theorem splitTok_two {kw u m v : List Char} (hm0 : m ≠ [])
    (hu : ∀ j < u.length, tryTok kw (u.drop j ++ (m ++ v)) = none)
    (hm : tryTok kw (m ++ v) = some v)
    (hv : ∀ j < v.length, tryTok kw (v.drop j) = none) :
    splitTok kw (u ++ (m ++ v)) = [u, v] := by
  unfold splitTok
  rw [splitTokGo_through u (m ++ v) [] _ hu (by simp)]
  have hm1 : 1 ≤ m.length := by
    cases m with
    | nil => exact absurd rfl hm0
    | cons _ _ => simp
  have hfuel : (u ++ (m ++ v)).length - u.length = (m.length + v.length - 1) + 1 := by
    simp
    omega
  rw [hfuel, splitTokGo_fire hm, splitTokGo_notok v [] _ hv (by omega)]
  simp

/-! ## Positional no-match toolkit -/

theorem dropWhile_cons_ws {c : Char} (h : jsWs c = true) (l : List Char) :
    (c :: l).dropWhile jsWs = l.dropWhile jsWs :=
  List.dropWhile_cons_of_pos h

theorem dropWhile_cons_nws {c : Char} (h : jsWs c = false) (l : List Char) :
    (c :: l).dropWhile jsWs = c :: l :=
  List.dropWhile_cons_of_neg (by simp [h])

theorem tryTok_ws_eq {kw : List Char} {c : Char} {rest : List Char} (hw : jsWs c = true) :
    tryTok kw (c :: rest) =
      (match stripCI kw ((c :: rest).dropWhile jsWs) with
        | none => none
        | some u =>
          match u with
          | [] => none
          | d :: _ => if jsWs d then some (u.dropWhile jsWs) else none) := by
  conv_lhs =>
    rw [show tryTok kw (c :: rest) =
      (if jsWs c then
        (match stripCI kw ((c :: rest).dropWhile jsWs) with
          | none => none
          | some u =>
            match u with
            | [] => none
            | d :: _ => if jsWs d then some (u.dropWhile jsWs) else none)
      else none) from rfl]
  rw [if_pos hw]

theorem tryTok_none_mismatch {k0 : Char} {ks s : List Char} {d : Char} {t : List Char}
    (hdw : s.dropWhile jsWs = d :: t) (hd : ¬ lowCh d = k0) : tryTok (k0 :: ks) s = none := by
  cases s with
  | nil => simp at hdw
  | cons c rest =>
    by_cases hw : jsWs c
    · rw [tryTok_ws_eq hw, hdw]
      rw [show stripCI (k0 :: ks) (d :: t) = none from by simp [stripCI, hd]]
  
    · exact tryTok_nonWs (by simpa using hw)

theorem noTok_all_nonWs {kw s : List Char} (h : ∀ c ∈ s, jsWs c = false) :
    ∀ j, j < s.length → tryTok kw (s.drop j) = none := by
  intro j hj
  rw [List.drop_eq_getElem_cons hj]
  exact tryTok_nonWs (h _ (List.getElem_mem hj))

theorem noTok_glue {kw A B : List Char}
    (hA : ∀ j, j < A.length → tryTok kw (A.drop j ++ B) = none)
    (hB : ∀ j, j < B.length → tryTok kw (B.drop j) = none) :
    ∀ j, j < (A ++ B).length → tryTok kw ((A ++ B).drop j) = none := by
  intro j hj
  by_cases hja : j < A.length
  · rw [List.drop_append_of_le_length (le_of_lt hja)]
    exact hA j hja
  · rw [show j = A.length + (j - A.length) from by omega, List.drop_append]
    apply hB
    simp [List.length_append] at hj
    omega

theorem trimL_id {s : List Char}
    (h1 : ∀ c, s.head? = some c → jsWs c = false)
    (h2 : ∀ c, s.getLast? = some c → jsWs c = false) : trimL s = s := by
  unfold trimL
  have hd : s.dropWhile jsWs = s := by
    cases s with
    | nil => rfl
    | cons c cs => exact dropWhile_cons_nws (h1 c rfl) cs
  rw [hd]
  have hr : s.reverse.dropWhile jsWs = s.reverse := by
    cases hrev : s.reverse with
    | nil => rfl
    | cons c cs =>
      have hlast : s.getLast? = some c := by
        rw [← List.head?_reverse, hrev]
        rfl
      exact dropWhile_cons_nws (h2 c hlast) cs
  rw [hr, List.reverse_reverse]

theorem stripParens_id {s : List Char} (h1 : s.head? ≠ some '(')
    (h2 : s.getLast? ≠ some ')') : stripParens s = s := by
  unfold stripParens
  simp only [if_neg h1, if_neg h2]

/-! ## Clause-level evaluation lemmas -/

theorem ratToCharsDec_digitOrDot {q : ℚ} {k : Nat} (hq : 0 ≤ q)
    (hk : decScale q.den = some k) :
    (∀ c ∈ ratToCharsDec q, isDigitCh c = true ∨ c = '.') ∧ ratToCharsDec q ≠ [] := by
  have hneg : ¬ q < 0 := not_lt.mpr hq
  set a := q.num.natAbs with ha
  set n := a * (10 ^ k / q.den) with hn
  set ds := natToChars n with hds
  set pad := List.replicate (k + 1 - ds.length) '0' ++ ds with hpad
  have hpad_digits : ∀ c ∈ pad, isDigitCh c = true := by
    intro c hc
    rw [hpad] at hc
    rcases List.mem_append.mp hc with hc | hc
    · rw [List.eq_of_mem_replicate hc]; decide
    · exact natToChars_digits c hc
  have hpad_len : 1 ≤ pad.length := by
    rw [hpad]
    simp only [List.length_append, List.length_replicate]
    have : 1 ≤ ds.length := by
      cases hd : ds with
      | nil => exact absurd hd (natToChars_ne_nil n)
      | cons _ _ => simp
    omega
  by_cases hk0 : k = 0
  · subst hk0
    have hshape : ratToCharsDec q = pad := by
      unfold ratToCharsDec
      rw [hk]
      simp only [hneg, if_false, if_pos rfl]
      rw [hpad, hds, hn]
      norm_num
    rw [hshape]
    constructor
    · intro c hc; exact Or.inl (hpad_digits c hc)
    · intro habs; rw [habs] at hpad_len; simp at hpad_len
  · have hshape : ratToCharsDec q = pad.take (pad.length - k) ++ '.' :: pad.drop (pad.length - k) := by
      unfold ratToCharsDec
      rw [hk]
      simp only [hneg, if_false, if_neg hk0]
      simp [← hds, ← hpad]
    rw [hshape]
    constructor
    · intro c hc
      rcases List.mem_append.mp hc with hc | hc
      · exact Or.inl (hpad_digits c (List.mem_of_mem_take hc))
      · rcases List.mem_cons.mp hc with hc | hc
        · exact Or.inr hc
        · exact Or.inl (hpad_digits c (List.mem_of_mem_drop hc))
    · intro habs
      have := congrArg List.length habs
      simp at this

theorem natToCharsGo_len_bounds : ∀ fuel n : Nat, n ≤ fuel →
    n < 10 ^ (natToCharsGo fuel n).length ∧
      (n = 0 ∨ 10 ^ ((natToCharsGo fuel n).length - 1) ≤ n) := by
  intro fuel
  induction fuel with
  | zero =>
    intro n hn
    have h0 : n = 0 := Nat.le_zero.mp hn
    subst h0
    exact ⟨by decide, Or.inl rfl⟩
  | succ fuel ih =>
    intro n hn
    by_cases h10 : n < 10
    · have hgo : natToCharsGo (fuel + 1) n = [digitCh n] := by
        simp only [natToCharsGo, h10, if_true]
      rw [hgo]
      refine ⟨by simpa using h10, ?_⟩
      rcases Nat.eq_zero_or_pos n with h0 | hpos
      · exact Or.inl h0
      · exact Or.inr (by simpa using hpos)
    · have hgo : natToCharsGo (fuel + 1) n = natToCharsGo fuel (n / 10) ++ [digitCh (n % 10)] := by
        simp only [natToCharsGo, h10, if_false]
      have hdiv : n / 10 ≤ fuel := by
        have h1 : n / 10 < n := Nat.div_lt_self (by omega) (by omega)
        omega
      obtain ⟨hlt, hge⟩ := ih (n / 10) hdiv
      have hL1 : 1 ≤ (natToCharsGo fuel (n / 10)).length := by
        by_contra hc
        have hL0 : (natToCharsGo fuel (n / 10)).length = 0 := by omega
        rw [hL0] at hlt
        simp at hlt
        omega
      rw [hgo]
      have hlen : (natToCharsGo fuel (n / 10) ++ [digitCh (n % 10)]).length =
          (natToCharsGo fuel (n / 10)).length + 1 := by simp
      rw [hlen]
      constructor
      · have h2 : n < 10 * 10 ^ (natToCharsGo fuel (n / 10)).length := by omega
        calc n < 10 * 10 ^ (natToCharsGo fuel (n / 10)).length := h2
        _ = 10 ^ ((natToCharsGo fuel (n / 10)).length + 1) := by ring
      · right
        rcases hge with h0 | hge2
        · omega
        · have h3 : 10 ^ (natToCharsGo fuel (n / 10)).length ≤ 10 * (n / 10) := by
            have hsplit : 10 ^ (natToCharsGo fuel (n / 10)).length =
                10 * 10 ^ ((natToCharsGo fuel (n / 10)).length - 1) := by
              rw [← pow_succ']
              congr 1
              omega
            omega
          simp only [Nat.add_sub_cancel]
          omega

theorem natToChars_len_lt (n : Nat) : n < 10 ^ (natToChars n).length :=
  (natToCharsGo_len_bounds n n le_rfl).1

theorem natToChars_len_le {n : Nat} (h : n ≠ 0) : 10 ^ ((natToChars n).length - 1) ≤ n := by
  rcases (natToCharsGo_len_bounds n n le_rfl).2 with h0 | h2
  · exact absurd h0 h
  · exact h2

theorem rat_scaled_eq {q : ℚ} {k : Nat} (hq : 0 ≤ q) (hk : decScale q.den = some k) :
    ((q.num.natAbs * (10 ^ k / q.den) : Nat) : ℚ) = q * 10 ^ k := by
  have hdvd : q.den ∣ 10 ^ k := decScale_dvd hk
  have hqa : ((q.num.natAbs : ℤ)) = q.num := Int.natAbs_of_nonneg (Rat.num_nonneg.mpr hq)
  have hmul : q.num.natAbs * (10 ^ k / q.den) * q.den = q.num.natAbs * 10 ^ k := by
    rw [Nat.mul_assoc, Nat.div_mul_cancel hdvd]
  have hqd : (q.den : ℚ) ≠ 0 := by positivity
  have hcast : ((q.num.natAbs * (10 ^ k / q.den) : Nat) : ℚ) * (q.den : ℚ) =
      (q.num.natAbs : ℚ) * (10 : ℚ) ^ k := by
    have h2 := congrArg (fun m : ℕ => (m : ℚ)) hmul
    push_cast at h2
    simpa using h2
  have hq_eq : ((q.num.natAbs : ℚ)) = q * q.den := by
    have hnum : ((q.num : ℚ)) = q * q.den := by
      rw [mul_comm]
      exact_mod_cast (Rat.den_mul_eq_num q).symm
    have h9 : ((q.num.natAbs : ℤ) : ℚ) = (q.num : ℚ) := by rw [hqa]
    rw [← hnum, ← h9]
    exact (Int.cast_natCast q.num.natAbs).symm
  have h3 : ((q.num.natAbs * (10 ^ k / q.den) : Nat) : ℚ) * (q.den : ℚ) =
      q * 10 ^ k * (q.den : ℚ) := by
    rw [hcast, hq_eq]
    ring
  exact mul_right_cancel₀ hqd h3

theorem dexp_in_range {q : ℚ} {k : Nat} (hq : 0 ≤ q) (hk : decScale q.den = some k)
    (hub : q < 10 ^ 21) (hlb : (1 : ℚ) / 10 ^ 6 ≤ q ∨ q = 0) :
    -6 < ((natToChars (q.num.natAbs * (10 ^ k / q.den))).length : Int) - (k : Int) ∧
      ((natToChars (q.num.natAbs * (10 ^ k / q.den))).length : Int) - (k : Int) ≤ 21 := by
  rcases hlb with hlb | h0
  · have hval := rat_scaled_eq hq hk
    have hqpos : 0 < q := lt_of_lt_of_le (by positivity) hlb
    have hnpos : q.num.natAbs * (10 ^ k / q.den) ≠ 0 := by
      intro hz
      rw [hz] at hval
      have h1 : (0 : ℚ) = q * 10 ^ k := by exact_mod_cast hval
      have h2 : (0 : ℚ) < q * 10 ^ k := by positivity
      rw [← h1] at h2
      exact lt_irrefl 0 h2
    have hub2 : q.num.natAbs * (10 ^ k / q.den) < 10 ^ (21 + k) := by
      have h1 : ((q.num.natAbs * (10 ^ k / q.den) : Nat) : ℚ) < (10 : ℚ) ^ (21 + k) := by
        rw [hval, pow_add]
        exact mul_lt_mul_of_pos_right hub (by positivity)
      exact_mod_cast h1
    have hlb2 : 10 ^ k ≤ q.num.natAbs * (10 ^ k / q.den) * 10 ^ 6 := by
      have h1 : ((10 : ℚ)) ^ k ≤ ((q.num.natAbs * (10 ^ k / q.den) : Nat) : ℚ) * 10 ^ 6 := by
        rw [hval]
        have h6 : (1 : ℚ) ≤ q * 10 ^ 6 := by
          have h7 := mul_le_mul_of_nonneg_right hlb (show (0 : ℚ) ≤ 10 ^ 6 by positivity)
          have h8 : (1 : ℚ) / 10 ^ 6 * 10 ^ 6 = 1 := by norm_num
          rw [h8] at h7
          exact h7
        calc ((10 : ℚ)) ^ k = 1 * 10 ^ k := by ring
        _ ≤ q * 10 ^ 6 * 10 ^ k := mul_le_mul_of_nonneg_right h6 (by positivity)
        _ = q * 10 ^ k * 10 ^ 6 := by ring
      exact_mod_cast h1
    have hLlt := natToChars_len_lt (q.num.natAbs * (10 ^ k / q.den))
    have hLge := natToChars_len_le hnpos
    have hL1 : 1 ≤ (natToChars (q.num.natAbs * (10 ^ k / q.den))).length := by
      have := natToChars_ne_nil (q.num.natAbs * (10 ^ k / q.den))
      cases hc : natToChars (q.num.natAbs * (10 ^ k / q.den)) with
      | nil => exact absurd hc this
      | cons x xs => simp
    constructor
    · have h3 : (10 : Nat) ^ k <
          10 ^ ((natToChars (q.num.natAbs * (10 ^ k / q.den))).length + 6) := by
        calc (10 : Nat) ^ k ≤ q.num.natAbs * (10 ^ k / q.den) * 10 ^ 6 := hlb2
        _ < 10 ^ (natToChars (q.num.natAbs * (10 ^ k / q.den))).length * 10 ^ 6 :=
          mul_lt_mul_of_pos_right hLlt (by positivity)
        _ = 10 ^ ((natToChars (q.num.natAbs * (10 ^ k / q.den))).length + 6) := by
          rw [pow_add]
      have h4 := (Nat.pow_lt_pow_iff_right (by norm_num : 1 < 10)).mp h3
      omega
    · have h3 : (10 : Nat) ^ ((natToChars (q.num.natAbs * (10 ^ k / q.den))).length - 1) <
          10 ^ (21 + k) := lt_of_le_of_lt hLge hub2
      have h4 := (Nat.pow_lt_pow_iff_right (by norm_num : 1 < 10)).mp h3
      omega
  · subst h0
    have hk0 : k = 0 := by
      have h1 : decScale (0 : ℚ).den = some 0 := by decide
      rw [h1] at hk
      exact (Option.some.inj hk).symm
    subst hk0
    decide

theorem ratToChars_eq_dec {q : ℚ} {k : Nat} (hq : 0 ≤ q) (hk : decScale q.den = some k)
    (hub : q < 10 ^ 21) (hlb : (1 : ℚ) / 10 ^ 6 ≤ q ∨ q = 0) :
    ratToChars q = ratToCharsDec q := by
  unfold ratToChars
  rw [hk]
  dsimp only
  rw [if_pos (dexp_in_range hq hk hub hlb)]

/-- Round-trip through the faithful printer: within the plain-notation range
of JS `String(number)` — values below `1e21` that are zero or at least
`1e-6` — the evaluator's anchored number regex recovers exactly the printed
number. -/
theorem matchNumEnd_ratToChars {q : ℚ} {k : Nat} (hq : 0 ≤ q)
    (hk : decScale q.den = some k) (hub : q < 10 ^ 21)
    (hlb : (1 : ℚ) / 10 ^ 6 ≤ q ∨ q = 0) :
    matchNumEnd (ratToChars q) = some q := by
  rw [ratToChars_eq_dec hq hk hub hlb]
  exact matchNumEnd_ratToCharsDec hq hk

theorem ratToChars_digitOrDot {q : ℚ} {k : Nat} (hq : 0 ≤ q)
    (hk : decScale q.den = some k) (hub : q < 10 ^ 21)
    (hlb : (1 : ℚ) / 10 ^ 6 ≤ q ∨ q = 0) :
    (∀ c ∈ ratToChars q, isDigitCh c = true ∨ c = '.') ∧ ratToChars q ≠ [] := by
  rw [ratToChars_eq_dec hq hk hub hlb]
  exact ratToCharsDec_digitOrDot hq hk

theorem txAmount_num {tx : JsVal} {a : ℚ} (h : jsGetField tx "amount" = JsVal.vnum a) :
    txAmount tx = some a := by
  unfold txAmount
  rw [h]
  by_cases ha : a = 0
  · subst ha; rfl
  · unfold jsOr
    rw [if_pos (by simp [jsTruthy, ha])]
    rfl

theorem txFieldStr_of {tx : JsVal} {f v : String} (h : jsGetField tx f = JsVal.vstr v) :
    txFieldStr tx f = v := by
  unfold txFieldStr
  rw [h]
  rfl

theorem txFieldStr_nullish {tx : JsVal} {f : String}
    (h : jsGetField tx f = JsVal.vundef ∨ jsGetField tx f = JsVal.vnull) :
    txFieldStr tx f = "" := by
  unfold txFieldStr
  rcases h with h | h <;> rw [h] <;> rfl

/-- Regex 1 on a clause not starting with `a`/`A` fails. -/
theorem matchAmountClause_headMismatch {c0 : Char} {rest : List Char}
    (h : ¬ lowCh c0 = 'a') : matchAmountClause (c0 :: rest) = none := by
  rw [show matchAmountClause (c0 :: rest) =
    (match stripCI ['a', 'm', 'o', 'u', 'n', 't'] (c0 :: rest) with
      | none => none
      | some r1 =>
        match parseOpAmount (r1.dropWhile jsWs) with
        | none => none
        | some (op, r2) =>
          match matchNumEnd (r2.dropWhile jsWs) with
          | none => none
          | some v => some (op, v)) from rfl]
  rw [show stripCI ['a', 'm', 'o', 'u', 'n', 't'] (c0 :: rest) = none from by
    simp [stripCI, h]]

/-- Regex 1 on the synthesized amount clause `amount > <T>`. -/
theorem matchAmountClause_gt_print {T : ℚ} {k : Nat} (hT0 : 0 ≤ T)
    (hk : decScale T.den = some k) (hub : T < 10 ^ 21)
    (hlb : (1 : ℚ) / 10 ^ 6 ≤ T ∨ T = 0) :
    matchAmountClause ("amount > ".data ++ ratToChars T) = some (COp.cgt, T) := by
  obtain ⟨hdig, hne⟩ := ratToChars_digitOrDot hT0 hk hub hlb
  obtain ⟨d, t2, hT'⟩ : ∃ d t2, ratToChars T = d :: t2 := by
    cases hc : ratToChars T with
    | nil => exact absurd hc hne
    | cons d t2 => exact ⟨d, t2, rfl⟩
  have hstrip : stripCI ['a', 'm', 'o', 'u', 'n', 't']
      ("amount > ".data ++ ratToChars T) = some (' ' :: '>' :: ' ' :: ratToChars T) := rfl
  rw [show matchAmountClause ("amount > ".data ++ ratToChars T) =
    (match parseOpAmount ((' ' :: '>' :: ' ' :: ratToChars T).dropWhile jsWs) with
      | none => none
      | some (op, r2) =>
        match matchNumEnd (r2.dropWhile jsWs) with
        | none => none
        | some v => some (op, v)) from by
    conv_lhs => rw [show matchAmountClause ("amount > ".data ++ ratToChars T) =
      (match stripCI ['a', 'm', 'o', 'u', 'n', 't'] ("amount > ".data ++ ratToChars T) with
        | none => none
        | some r1 =>
          match parseOpAmount (r1.dropWhile jsWs) with
          | none => none
          | some (op, r2) =>
            match matchNumEnd (r2.dropWhile jsWs) with
            | none => none
            | some v => some (op, v)) from rfl]
    rw [hstrip]]
  have hdw1 : (' ' :: '>' :: ' ' :: ratToChars T).dropWhile jsWs =
      '>' :: ' ' :: ratToChars T := by
    rw [dropWhile_cons_ws (by decide), dropWhile_cons_nws (by decide)]
  rw [hdw1]
  rw [show parseOpAmount ('>' :: ' ' :: ratToChars T) =
    some (COp.cgt, ' ' :: ratToChars T) from rfl]
  have hdw2 : (' ' :: ratToChars T).dropWhile jsWs = ratToChars T := by
    rw [dropWhile_cons_ws (by decide), hT', dropWhile_cons_nws (digitOrDot_notWs
      (hdig d (by rw [hT']; simp)))]
  change (match matchNumEnd ((' ' :: ratToChars T).dropWhile jsWs) with
    | none => none
    | some v => some (COp.cgt, v)) = some (COp.cgt, T)
  rw [hdw2, matchNumEnd_ratToChars hT0 hk hub hlb]

/-- Unfolding of regex 2 at an identifier-start head. -/
theorem matchStrClause_cons {c0 : Char} {rest : List Char} (h : isIdentStart c0 = true) :
    matchStrClause (c0 :: rest) =
      (match parseOpStr (((c0 :: rest).dropWhile isIdentCh).dropWhile jsWs) with
        | none => none
        | some (eqOp, r2) =>
          match r2.dropWhile jsWs with
          | [] => none
          | q :: body =>
            if isQuoteCh q then
              match body.getLast? with
              | none => none
              | some lastc =>
                if lastc = q ∧ body.dropLast.all (fun ch => !jsLineTerm ch) then
                  some ((c0 :: rest).takeWhile isIdentCh, eqOp, body.dropLast)
                else none
            else none) := by
  have h0 : matchStrClause (c0 :: rest) =
      (if isIdentStart c0 then
        (match parseOpStr (((c0 :: rest).dropWhile isIdentCh).dropWhile jsWs) with
          | none => none
          | some (eqOp, r2) =>
            match r2.dropWhile jsWs with
            | [] => none
            | q :: body =>
              if isQuoteCh q then
                match body.getLast? with
                | none => none
                | some lastc =>
                  if lastc = q ∧ body.dropLast.all (fun ch => !jsLineTerm ch) then
                    some ((c0 :: rest).takeWhile isIdentCh, eqOp, body.dropLast)
                  else none
              else none)
      else none) := rfl
  rw [h0, if_pos h]

/-- Regex 2 on a clause of the shape `FIELD <op> '<LIT>'`. -/
theorem matchStrClause_shape {c0 d0 : Char} {frest opc drest lit : List Char} {eqv : Bool}
    (hc0 : isIdentStart c0 = true)
    (hfall : ∀ c ∈ c0 :: frest, isIdentCh c = true)
    (hopc : opc = d0 :: drest) (hd0 : jsWs d0 = false)
    (hop : parseOpStr (opc ++ (' ' :: '\'' :: (lit ++ ['\'']))) =
      some (eqv, ' ' :: '\'' :: (lit ++ ['\''])))
    (hlit : ∀ c ∈ lit, jsLineTerm c = false) :
    matchStrClause ((c0 :: frest) ++ ' ' :: (opc ++ (' ' :: '\'' :: (lit ++ ['\''])))) =
      some (c0 :: frest, eqv, lit) := by
  set R := opc ++ (' ' :: '\'' :: (lit ++ ['\''])) with hR
  rw [List.cons_append, matchStrClause_cons hc0]
  have htakeI : (c0 :: (frest ++ ' ' :: R)).takeWhile isIdentCh = c0 :: frest := by
    have := @takeWhile_mid isIdentCh (c0 :: frest) ' ' R hfall (by decide)
    simpa using this
  have hdropI : (c0 :: (frest ++ ' ' :: R)).dropWhile isIdentCh = ' ' :: R := by
    have := @dropWhile_mid isIdentCh (c0 :: frest) ' ' R hfall (by decide)
    simpa using this
  rw [hdropI]
  have hdropW : (' ' :: R).dropWhile jsWs = R := by
    rw [dropWhile_cons_ws (by decide)]
    rw [hR, hopc]
    have := dropWhile_cons_nws hd0 (drest ++ (' ' :: '\'' :: (lit ++ ['\''])))
    simpa using this
  rw [hdropW, hR, hop]
  change (if isQuoteCh '\'' then
      match (lit ++ ['\'']).getLast? with
      | none => none
      | some lastc =>
        if lastc = '\'' ∧ (lit ++ ['\'']).dropLast.all (fun ch => !jsLineTerm ch) then
          some ((c0 :: (frest ++ ' ' :: R)).takeWhile isIdentCh, eqv, (lit ++ ['\'']).dropLast)
        else none
    else none) = some (c0 :: frest, eqv, lit)
  rw [if_pos (show isQuoteCh '\'' = true by decide)]
  rw [List.getLast?_concat]
  change (if '\'' = '\'' ∧ (lit ++ ['\'']).dropLast.all (fun ch => !jsLineTerm ch) then
      some ((c0 :: (frest ++ ' ' :: R)).takeWhile isIdentCh, eqv, (lit ++ ['\'']).dropLast)
    else none) = some (c0 :: frest, eqv, lit)
  rw [List.dropLast_concat]
  rw [if_pos ⟨rfl, by
    rw [List.all_eq_true]
    intro x hx
    simp [hlit x hx]⟩]
  rw [htakeI]

/-! ## Splitting the synthesized condition -/

theorem noTok_P1 {k0 : Char} {ks : List Char} (h1 : ¬ lowCh '=' = k0)
    (h2 : ¬ lowCh '\'' = k0) (B1 : List Char) :
    ∀ j, j < ("category == '".data).length →
      tryTok (k0 :: ks) (("category == '".data).drop j ++ B1) = none := by
  intro j hj
  rw [show ("category == '".data).length = 13 from rfl] at hj
  interval_cases j
  all_goals try exact tryTok_nonWs (by decide)
  all_goals try exact tryTok_none_mismatch rfl h1
  all_goals exact tryTok_none_mismatch rfl h2

theorem noTok_P2or {Td : List Char} (hTd : ∀ c ∈ Td, isDigitCh c = true ∨ c = '.')
    (hTne : Td ≠ []) :
    ∀ j, j < ("' and amount > ".data).length →
      tryTok ['o', 'r'] (("' and amount > ".data).drop j ++ Td) = none := by
  intro j hj
  rw [show ("' and amount > ".data).length = 15 from rfl] at hj
  obtain ⟨d, t2, hT⟩ : ∃ d t2, Td = d :: t2 := by
    cases hc : Td with
    | nil => exact absurd hc hTne
    | cons d t2 => exact ⟨d, t2, rfl⟩
  have hd : isDigitCh d = true ∨ d = '.' := hTd d (by rw [hT]; simp)
  interval_cases j
  all_goals try exact tryTok_nonWs (by decide)
  all_goals try exact tryTok_none_mismatch rfl (by decide)
  -- j = 14: the space right before the number
  refine tryTok_none_mismatch (d := d) (t := t2) ?_ ?_
  · show (' ' :: Td).dropWhile jsWs = d :: t2
    rw [dropWhile_cons_ws (by decide), hT, dropWhile_cons_nws (digitOrDot_notWs hd)]
  · exact digitOrDot_lowCh_ne hd (by decide) (by decide)

theorem noTok_amountTail {k0 : Char} {ks : List Char} {Td : List Char}
    (hne : ¬ lowCh '>' = k0) (hnd : ∀ d, (isDigitCh d = true ∨ d = '.') → ¬ lowCh d = k0)
    (hTd : ∀ c ∈ Td, isDigitCh c = true ∨ c = '.') (hTne : Td ≠ []) :
    ∀ j, j < ("amount > ".data ++ Td).length →
      tryTok (k0 :: ks) (("amount > ".data ++ Td).drop j) = none := by
  apply noTok_glue
  · intro j hj
    rw [show ("amount > ".data).length = 9 from rfl] at hj
    obtain ⟨d, t2, hT⟩ : ∃ d t2, Td = d :: t2 := by
      cases hc : Td with
      | nil => exact absurd hc hTne
      | cons d t2 => exact ⟨d, t2, rfl⟩
    have hd : isDigitCh d = true ∨ d = '.' := hTd d (by rw [hT]; simp)
    interval_cases j
    all_goals try exact tryTok_nonWs (by decide)
    all_goals try exact tryTok_none_mismatch rfl hne
    -- j = 8: the space right before the number
    refine tryTok_none_mismatch (d := d) (t := t2) ?_ (hnd d hd)
    show (' ' :: Td).dropWhile jsWs = d :: t2
    rw [dropWhile_cons_ws (by decide), hT, dropWhile_cons_nws (digitOrDot_notWs hd)]
  · exact noTok_all_nonWs (fun c hc => digitOrDot_notWs (hTd c hc))

theorem noTok_glue_cont {kw A B X : List Char}
    (hA : ∀ j, j < A.length → tryTok kw (A.drop j ++ (B ++ X)) = none)
    (hB : ∀ j, j < B.length → tryTok kw (B.drop j ++ X) = none) :
    ∀ j, j < (A ++ B).length → tryTok kw ((A ++ B).drop j ++ X) = none := by
  intro j hj
  by_cases hja : j < A.length
  · rw [List.drop_append_of_le_length (le_of_lt hja), List.append_assoc]
    exact hA j hja
  · rw [show j = A.length + (j - A.length) from by omega, List.drop_append]
    apply hB
    simp [List.length_append] at hj
    omega

theorem splitOr_synth {Cd Td : List Char}
    (hCor : hasTokIn ['o', 'r'] Cd = false)
    (hTd : ∀ c ∈ Td, isDigitCh c = true ∨ c = '.') (hTne : Td ≠ []) :
    splitTok ['o', 'r'] ("category == '".data ++ (Cd ++ ("' and amount > ".data ++ Td))) =
      ["category == '".data ++ (Cd ++ ("' and amount > ".data ++ Td))] := by
  apply splitTok_one
  apply noTok_glue (A := "category == '".data)
  · exact noTok_P1 (by decide) (by decide) _
  · apply noTok_glue (A := Cd)
    · intro j hj
      exact tryTok_embed_none (by decide) (by decide)
        (by intro x hx; fin_cases hx <;> decide) hCor j hj
    · apply noTok_glue (A := "' and amount > ".data)
      · exact noTok_P2or hTd hTne
      · exact noTok_all_nonWs (fun c hc => digitOrDot_notWs (hTd c hc))

theorem splitAnd_synth {Cd Td : List Char}
    (hCand : hasTokIn ['a', 'n', 'd'] Cd = false)
    (hTd : ∀ c ∈ Td, isDigitCh c = true ∨ c = '.') (hTne : Td ≠ []) :
    splitTok ['a', 'n', 'd'] ("category == '".data ++ (Cd ++ ("' and amount > ".data ++ Td))) =
      ["category == '".data ++ (Cd ++ ['\'']), "amount > ".data ++ Td] := by
  have hassoc : "category == '".data ++ (Cd ++ ("' and amount > ".data ++ Td)) =
      ("category == '".data ++ (Cd ++ ['\''])) ++
        ((' ' :: 'a' :: 'n' :: 'd' :: ' ' :: []) ++ ("amount > ".data ++ Td)) := by
    simp
  rw [hassoc]
  apply splitTok_two (by simp)
  · apply noTok_glue_cont (A := "category == '".data)
    · exact noTok_P1 (by decide) (by decide) _
    · apply noTok_glue_cont (A := Cd)
      · intro j hj
        exact tryTok_embed_none (by decide) (by decide)
          (by intro x hx; fin_cases hx <;> decide) hCand j hj
      · intro j hj
        rw [show (['\''] : List Char).length = 1 from rfl] at hj
        interval_cases j
        exact tryTok_nonWs (by decide)
  · show tryTok ['a', 'n', 'd']
      ((' ' :: 'a' :: 'n' :: 'd' :: ' ' :: []) ++ ("amount > ".data ++ Td)) =
      some ("amount > ".data ++ Td)
    rfl
  · exact noTok_amountTail (by decide)
      (fun d hd => digitOrDot_lowCh_ne hd (by decide) (by decide)) hTd hTne

theorem assocFind_setAssoc_self (fs : List (String × JsVal)) (k : String) (v : JsVal) :
    assocFind (setAssoc fs k v) k = some v := by
  induction fs with
  | nil => simp [setAssoc, assocFind]
  | cons kv rest ih =>
    obtain ⟨k2, v2⟩ := kv
    by_cases hk : k2 = k
    · simp [setAssoc, hk, assocFind]
    · simp [setAssoc, hk, assocFind, ih]

theorem jsGetField_setField (fs : List (String × JsVal)) (k : String) (v : JsVal) :
    jsGetField (jsSetField (JsVal.vobj fs) k v) k = v := by
  simp [jsSetField, jsGetField, assocFind_setAssoc_self]

theorem vobj_of_getField_ne {rule : JsVal} {k : String} {v : JsVal}
    (h : jsGetField rule k = v) (hne : v ≠ JsVal.vundef) :
    ∃ fs, rule = JsVal.vobj fs := by
  cases rule with
  | vobj fs => exact ⟨fs, rfl⟩
  | vnull => exact absurd h.symm (by simpa [jsGetField] using hne)
  | vundef => exact absurd h.symm (by simpa [jsGetField] using hne)
  | vbool b => exact absurd h.symm (by simpa [jsGetField] using hne)
  | vnum q => exact absurd h.symm (by simpa [jsGetField] using hne)
  | vstr s => exact absurd h.symm (by simpa [jsGetField] using hne)
  | varr xs => exact absurd h.symm (by simpa [jsGetField] using hne)

theorem clauseSat_synthCat {Cd : List Char} (tx : JsVal) {cat : String}
    (hcat : jsGetField tx "category" = JsVal.vstr cat)
    (hCn : ∀ c ∈ Cd, jsLineTerm c = false) :
    clauseSat tx ("category == '".data ++ (Cd ++ ['\''])) = decide (cat.data = Cd) := by
  unfold clauseSat
  have hsp : stripParens ("category == '".data ++ (Cd ++ ['\''])) =
      "category == '".data ++ (Cd ++ ['\'']) := by
    apply stripParens_id
    · intro h
      simp at h
    · rw [show "category == '".data ++ (Cd ++ ['\'']) =
        ("category == '".data ++ Cd) ++ ['\''] from by simp, List.getLast?_concat]
      simp
  have htr : trimL ("category == '".data ++ (Cd ++ ['\''])) =
      "category == '".data ++ (Cd ++ ['\'']) := by
    apply trimL_id
    · intro c hc
      simp at hc
      rw [← hc]
      decide
    · intro c hc
      rw [show "category == '".data ++ (Cd ++ ['\'']) =
        ("category == '".data ++ Cd) ++ ['\''] from by simp, List.getLast?_concat] at hc
      simp at hc
      rw [← hc]
      decide
  rw [hsp, htr]
  dsimp only
  rw [show matchAmountClause ("category == '".data ++ (Cd ++ ['\''])) = none from
    matchAmountClause_headMismatch (by decide)]
  rw [show "category == '".data ++ (Cd ++ ['\'']) =
    ("category".data ++ ' ' :: (['=', '='] ++ (' ' :: '\'' :: (Cd ++ ['\''])))) from by simp]
  rw [matchStrClause_shape (by decide) (by intro c hc; fin_cases hc <;> decide) rfl
    (by decide)
    (show parseOpStr (['=', '='] ++ (' ' :: '\'' :: (Cd ++ ['\'']))) =
      some (true, ' ' :: '\'' :: (Cd ++ ['\''])) from rfl) hCn]
  dsimp only
  rw [show (⟨['c', 'a', 't', 'e', 'g', 'o', 'r', 'y']⟩ : String) = "category" from rfl]
  rw [txFieldStr_of hcat]
  rw [if_pos rfl]

theorem clauseSat_synthAmt {T : ℚ} {k : Nat} (tx : JsVal) {a : ℚ}
    (hT0 : 0 ≤ T) (hk : decScale T.den = some k) (hub : T < 10 ^ 21)
    (hlb : (1 : ℚ) / 10 ^ 6 ≤ T ∨ T = 0)
    (ha : jsGetField tx "amount" = JsVal.vnum a) :
    clauseSat tx ("amount > ".data ++ ratToChars T) = decide (T < a) := by
  obtain ⟨hdig, hne⟩ := ratToChars_digitOrDot hT0 hk hub hlb
  have hlast : ∃ d, ("amount > ".data ++ ratToChars T).getLast? = some d ∧
      (isDigitCh d = true ∨ d = '.') := by
    have h1 : ("amount > ".data ++ ratToChars T).getLast? = (ratToChars T).getLast? :=
      List.getLast?_append_of_ne_nil _ hne
    cases hg : (ratToChars T).getLast? with
    | none => exact absurd (List.getLast?_eq_none_iff.mp hg) hne
    | some d =>
      exact ⟨d, by rw [h1, hg], hdig d (List.mem_of_mem_getLast? hg)⟩
  obtain ⟨d, hd1, hd2⟩ := hlast
  unfold clauseSat
  have hsp : stripParens ("amount > ".data ++ ratToChars T) =
      "amount > ".data ++ ratToChars T := by
    apply stripParens_id
    · intro h; simp at h
    · rw [hd1]
      intro h
      simp at h
      rcases hd2 with hd2 | hd2
      · exact absurd rfl (digit_ne_of_toNat (h ▸ hd2) (by decide))
      · rw [h] at hd2; simp at hd2
  have htr : trimL ("amount > ".data ++ ratToChars T) = "amount > ".data ++ ratToChars T := by
    apply trimL_id
    · intro c hc; simp at hc; rw [← hc]; decide
    · intro c hc
      rw [hd1] at hc
      simp at hc
      rw [← hc]
      exact digitOrDot_notWs hd2
  rw [hsp, htr]
  dsimp only
  rw [matchAmountClause_gt_print hT0 hk hub hlb]
  rw [txAmount_num ha]
  rfl

theorem decide_data_eq (cat C : String) : decide (cat.data = C.data) = decide (cat = C) := by
  apply decide_eq_decide.mpr
  constructor
  · intro h
    have := congrArg String.mk h
    simpa using this
  · intro h
    rw [h]

theorem evalSynthCond {C : String} {T : ℚ} {k : Nat} (tx : JsVal) {a : ℚ} {cat : String}
    (hCor : hasTokIn ['o', 'r'] C.data = false)
    (hCand : hasTokIn ['a', 'n', 'd'] C.data = false)
    (hCn : ∀ c ∈ C.data, jsLineTerm c = false)
    (hT0 : 0 ≤ T) (hk : decScale T.den = some k) (hub : T < 10 ^ 21)
    (hlb : (1 : ℚ) / 10 ^ 6 ≤ T ∨ T = 0)
    (ha : jsGetField tx "amount" = JsVal.vnum a)
    (hcat : jsGetField tx "category" = JsVal.vstr cat) :
    evalOrLoop tx ((splitTok ['o', 'r'] (trimL (synthCondStr C T).data)).map trimL) =
      (decide (cat = C) && decide (T < a)) := by
  obtain ⟨hdig, hne⟩ := ratToChars_digitOrDot hT0 hk hub hlb
  have hdata : (synthCondStr C T).data =
      "category == '".data ++ (C.data ++ ("' and amount > ".data ++ ratToChars T)) := by
    simp [synthCondStr, ratToString]
  have hne2 : ("' and amount > ".data ++ ratToChars T) ≠ [] := by
    intro h
    rcases List.append_eq_nil.mp h with ⟨h1, _⟩
    simp at h1
  have hne3 : (C.data ++ ("' and amount > ".data ++ ratToChars T)) ≠ [] := by
    intro h
    rcases List.append_eq_nil.mp h with ⟨_, h2⟩
    exact hne2 h2
  have hTlast : ∃ d, (ratToChars T).getLast? = some d ∧ (isDigitCh d = true ∨ d = '.') := by
    cases hg : (ratToChars T).getLast? with
    | none => exact absurd (List.getLast?_eq_none_iff.mp hg) hne
    | some d => exact ⟨d, rfl, hdig d (List.mem_of_mem_getLast? hg)⟩
  obtain ⟨dl, hdl1, hdl2⟩ := hTlast
  have hSlast : ("category == '".data ++
      (C.data ++ ("' and amount > ".data ++ ratToChars T))).getLast? = some dl := by
    rw [List.getLast?_append_of_ne_nil _ hne3, List.getLast?_append_of_ne_nil _ hne2,
      List.getLast?_append_of_ne_nil _ hne, hdl1]
  have htrS : trimL ("category == '".data ++
      (C.data ++ ("' and amount > ".data ++ ratToChars T))) =
      "category == '".data ++ (C.data ++ ("' and amount > ".data ++ ratToChars T)) := by
    apply trimL_id
    · intro c hc
      simp at hc
      rw [← hc]
      decide
    · intro c hc
      rw [hSlast] at hc
      simp at hc
      rw [← hc]
      exact digitOrDot_notWs hdl2
  rw [hdata, htrS, splitOr_synth hCor hdig hne]
  have htr1 : trimL ("category == '".data ++ (C.data ++ ['\''])) =
      "category == '".data ++ (C.data ++ ['\'']) := by
    apply trimL_id
    · intro c hc; simp at hc; rw [← hc]; decide
    · intro c hc
      rw [show "category == '".data ++ (C.data ++ ['\'']) =
        ("category == '".data ++ C.data) ++ ['\''] from by simp, List.getLast?_concat] at hc
      simp at hc
      rw [← hc]
      decide
  have htr2 : trimL ("amount > ".data ++ ratToChars T) = "amount > ".data ++ ratToChars T := by
    apply trimL_id
    · intro c hc; simp at hc; rw [← hc]; decide
    · intro c hc
      rw [List.getLast?_append_of_ne_nil _ hne, hdl1] at hc
      simp at hc
      rw [← hc]
      exact digitOrDot_notWs hdl2
  rw [show (([("category == '".data ++
      (C.data ++ ("' and amount > ".data ++ ratToChars T)))]).map trimL) =
    [("category == '".data ++ (C.data ++ ("' and amount > ".data ++ ratToChars T)))] from by
    simp only [List.map_cons, List.map_nil, htrS]]
  unfold evalOrLoop
  rw [splitAnd_synth hCand hdig hne]
  rw [show ([("category == '".data ++ (C.data ++ ['\''])),
      ("amount > ".data ++ ratToChars T)].map trimL) =
    [("category == '".data ++ (C.data ++ ['\''])), ("amount > ".data ++ ratToChars T)] from by
    simp only [List.map_cons, List.map_nil, htr1, htr2]]
  dsimp only
  rw [evalAndLoop_eq_all]
  rw [show ([("category == '".data ++ (C.data ++ ['\''])),
      ("amount > ".data ++ ratToChars T)].all (clauseSat tx)) =
    (clauseSat tx ("category == '".data ++ (C.data ++ ['\''])) &&
      clauseSat tx ("amount > ".data ++ ratToChars T)) from by
    simp [List.all_cons]]
  rw [clauseSat_synthCat tx hcat hCn, clauseSat_synthAmt tx hT0 hk hub hlb ha, decide_data_eq]
  cases hb : (decide (cat = C) && decide (T < a)) <;> simp [hb]
  exact rfl

theorem synthRuleCondition_fires {rule : JsVal} {C : String} {T : ℚ}
    (hrule : jsTruthy rule = true)
    (hth : jsGetField rule "threshold" = JsVal.vnum T)
    (hcat : jsGetField rule "category" = JsVal.vstr C) (hC0 : C ≠ "")
    (hcond : jsGetField rule "condition" = JsVal.vundef ∨
      ∃ cs, jsGetField rule "condition" = JsVal.vstr cs ∧
        testMachineCond (trimL cs.data) = false) :
    synthRuleCondition rule = JsVal.vstr (synthCondStr C T) := by
  unfold synthRuleCondition
  dsimp only
  have hguard : (jsTruthy rule && jsTruthy (jsGetField rule "condition") &&
      isStrVal (jsGetField rule "condition") &&
      testMachineCond (trimL (jsString (jsGetField rule "condition")).data)) = false := by
    rcases hcond with h | ⟨cs, h, htm⟩
    · rw [h]
      simp [jsTruthy]
    · rw [h]
      simp only [jsString, htm, Bool.and_false]
  rw [if_neg (by rw [hguard]; simp)]
  rw [hth, hcat]
  rw [if_pos (show _ = true by rw [hrule]; simp [jsTruthy, hC0])]
  rw [show jsToNum (JsVal.vnum T) = some T from rfl]
  rfl

/-- C1 counterexample, two failures of the printed-then-reparsed threshold.
First, a rule with the parseable numeric threshold `-5` and category
`Travel` synthesizes exactly the condition the claim describes, yet the
transaction `{amount: 0, category: "Travel"}` — whose category equals the
rule category and whose amount `0` is strictly greater than `-5` — does NOT
match: the evaluator's number regexes accept only unsigned literals, so the
synthesized clause `amount > -5` is unrecognized and the AND-group fails
closed.  Second, a threshold of `1e21` is printed by `String(number)` in
exponent notation, so synthesis yields `amount > 1e+21`; the anchored
number regexes reject it and the loose fallback regex reads it as
`amount > 1`, so the transaction `{amount: 2, category: "Travel"}` DOES
match although its amount is far below the threshold.  The claim's
"returns true exactly when the transaction's category equals C and its
amount is strictly greater than T" is therefore false on both sides. -/
theorem claim_C1_counterexample :
    (synthRuleCondition c1Rule0 = JsVal.vstr "category == 'Travel' and amount > -5" ∧
     evaluateRuleAgainstTx (jsSetField c1Rule0 "condition"
       (JsVal.vstr "category == 'Travel' and amount > -5")) c1Tx0 = false ∧
     jsGetField c1Tx0 "category" = JsVal.vstr "Travel" ∧ ((-5 : ℚ) < 0)) ∧
    (synthRuleCondition c1e21Rule = JsVal.vstr "category == 'Travel' and amount > 1e+21" ∧
     evaluateRuleAgainstTx (jsSetField c1e21Rule "condition"
       (JsVal.vstr "category == 'Travel' and amount > 1e+21"))
       (JsVal.vobj [("amount", JsVal.vnum 2), ("category", JsVal.vstr "Travel")]) = true ∧
     ((2 : ℚ) < 10 ^ 21)) := by
  exact ⟨⟨rfl, by decide, rfl, by norm_num⟩, ⟨rfl, by decide, by norm_num⟩⟩

/-- C1 (amended): for every rule whose condition is absent or not
machine-checkable, with a numeric threshold `T` that is non-negative (with
a finite decimal expansion, as every JS number has) and inside the
plain-notation printing range of `String(number)` — below `1e21`, and zero
or at least `1e-6` — and a non-empty category `C` that contains no
whitespace-delimited `and`/`or` token and no line terminator, synthesis
produces the condition `category == '<C>' and amount > <T>`, and evaluating
the synthesized rule against any transaction carrying a numeric `amount`
and a string `category` returns true exactly when the category equals `C`
(string equality) and the amount is strictly greater than `T`.  Outside
that printing range `String` emits exponent notation, which the evaluator
misreads (see the counterexample). -/
theorem claim_C1 {rule : JsVal} {C : String} {T : ℚ} {k : Nat}
    (hrule : jsTruthy rule = true)
    (hth : jsGetField rule "threshold" = JsVal.vnum T)
    (hcat : jsGetField rule "category" = JsVal.vstr C) (hC0 : C ≠ "")
    (hcond : jsGetField rule "condition" = JsVal.vundef ∨
      ∃ cs, jsGetField rule "condition" = JsVal.vstr cs ∧
        testMachineCond (trimL cs.data) = false)
    (hCor : hasTokIn ['o', 'r'] C.data = false)
    (hCand : hasTokIn ['a', 'n', 'd'] C.data = false)
    (hCn : ∀ c ∈ C.data, jsLineTerm c = false)
    (hT0 : 0 ≤ T) (hk : decScale T.den = some k)
    (hTub : T < 10 ^ 21) (hTlb : (1 : ℚ) / 10 ^ 6 ≤ T ∨ T = 0) :
    synthRuleCondition rule = JsVal.vstr (synthCondStr C T) ∧
    ∀ (tx : JsVal) (a : ℚ) (cat : String),
      jsGetField tx "amount" = JsVal.vnum a →
      jsGetField tx "category" = JsVal.vstr cat →
      evaluateRuleAgainstTx (jsSetField rule "condition" (JsVal.vstr (synthCondStr C T))) tx =
        (decide (cat = C) && decide (T < a)) := by
  refine ⟨synthRuleCondition_fires hrule hth hcat hC0 hcond, ?_⟩
  intro tx a cat ha hcatx
  obtain ⟨fs, hfs⟩ := vobj_of_getField_ne hth (by simp)
  subst hfs
  have htrue : jsTruthy (jsSetField (JsVal.vobj fs) "condition"
      (JsVal.vstr (synthCondStr C T))) = true := by
    simp [jsSetField, jsTruthy]
  have hCne : (synthCondStr C T).data ≠ [] := by
    rw [show (synthCondStr C T).data =
      "category == '".data ++ (C.data ++ ("' and amount > ".data ++ ratToChars T)) from by
      simp [synthCondStr, ratToString]]
    intro h
    rcases List.append_eq_nil.mp h with ⟨h1, _⟩
    simp at h1
  have hstrT : jsTruthy (JsVal.vstr (synthCondStr C T)) = true := by
    have hne : synthCondStr C T ≠ "" := by
      intro h
      exact hCne (by simp [h])
    simp [jsTruthy, hne]
  unfold evaluateRuleAgainstTx
  dsimp only
  rw [if_pos htrue, jsGetField_setField]
  rw [show jsOr (JsVal.vstr (synthCondStr C T)) (JsVal.vstr "") =
    JsVal.vstr (synthCondStr C T) from by unfold jsOr; rw [if_pos hstrT]]
  rw [if_neg (by rw [hstrT]; simp)]
  rw [show jsString (JsVal.vstr (synthCondStr C T)) = synthCondStr C T from rfl]
  exact evalSynthCond tx hCor hCand hCn hT0 hk hTub hTlb ha hcatx

/-- C1 witness: threshold 300 and category `Travel`; the amended claim's
hypotheses hold and the synthesized rule matches `{amount: 301,
category: "Travel"}` and not `{amount: 300, category: "Travel"}`. -/
theorem claim_C1_witness :
    (jsTruthy (JsVal.vobj [("threshold", JsVal.vnum 300),
        ("category", JsVal.vstr "Travel")]) = true) ∧
    synthRuleCondition (JsVal.vobj [("threshold", JsVal.vnum 300),
        ("category", JsVal.vstr "Travel")]) = JsVal.vstr (synthCondStr "Travel" 300) ∧
    evaluateRuleAgainstTx
      (jsSetField (JsVal.vobj [("threshold", JsVal.vnum 300), ("category", JsVal.vstr "Travel")])
        "condition" (JsVal.vstr (synthCondStr "Travel" 300)))
      (JsVal.vobj [("amount", JsVal.vnum 301), ("category", JsVal.vstr "Travel")]) = true ∧
    evaluateRuleAgainstTx
      (jsSetField (JsVal.vobj [("threshold", JsVal.vnum 300), ("category", JsVal.vstr "Travel")])
        "condition" (JsVal.vstr (synthCondStr "Travel" 300)))
      (JsVal.vobj [("amount", JsVal.vnum 300), ("category", JsVal.vstr "Travel")]) = false := by
  have h := @claim_C1 (JsVal.vobj [("threshold", JsVal.vnum 300),
      ("category", JsVal.vstr "Travel")]) "Travel" 300 0
    rfl rfl rfl (by decide) (Or.inl rfl) (by decide) (by decide) (by decide)
    (by norm_num) (by decide) (by norm_num) (Or.inl (by norm_num))
  refine ⟨rfl, h.1, ?_, ?_⟩
  · rw [h.2 (JsVal.vobj [("amount", JsVal.vnum 301), ("category", JsVal.vstr "Travel")])
      301 "Travel" rfl rfl]
    decide
  · rw [h.2 (JsVal.vobj [("amount", JsVal.vnum 300), ("category", JsVal.vstr "Travel")])
      300 "Travel" rfl rfl]
    decide

/-- C2 (confirmed): the evaluator is total — the embedding returns a boolean
for every rule and transaction value (no operation in the modelled source
can throw for any string condition, including empty strings, malformed
operators and unknown fields, which is why the model is a total function
into Bool) — and a falsy (empty or absent) condition evaluates to false. -/
theorem claim_C2 (rule tx : JsVal) :
    (evaluateRuleAgainstTx rule tx = true ∨ evaluateRuleAgainstTx rule tx = false) ∧
    (jsTruthy (jsGetField rule "condition") = false →
      evaluateRuleAgainstTx rule tx = false) := by
  constructor
  · cases h : evaluateRuleAgainstTx rule tx
    · exact Or.inr rfl
    · exact Or.inl rfl
  · intro h
    unfold evaluateRuleAgainstTx
    dsimp only
    by_cases hr : jsTruthy rule = true
    · rw [if_pos hr]
      rw [show jsOr (jsGetField rule "condition") (JsVal.vstr "") = JsVal.vstr "" from by
        unfold jsOr
        rw [if_neg (by rw [h]; simp)]]
      rw [if_pos (show jsTruthy (JsVal.vstr "") = false by decide)]
    · rw [if_neg hr]
      rw [show jsOr rule (JsVal.vstr "") = JsVal.vstr "" from by
        unfold jsOr
        rw [if_neg hr]]
      rw [if_pos (show jsTruthy (JsVal.vstr "") = false by decide)]

/-- C2 witness: an empty condition and a rule without a condition both
evaluate to false. -/
theorem claim_C2_witness :
    jsTruthy (jsGetField (JsVal.vobj [("condition", JsVal.vstr "")]) "condition") = false ∧
    evaluateRuleAgainstTx (JsVal.vobj [("condition", JsVal.vstr "")])
      (JsVal.vobj [("amount", JsVal.vnum 5)]) = false ∧
    evaluateRuleAgainstTx (JsVal.vobj [("name", JsVal.vstr "R")])
      (JsVal.vobj [("amount", JsVal.vnum 5)]) = false :=
  ⟨by decide,
   (claim_C2 (JsVal.vobj [("condition", JsVal.vstr "")])
     (JsVal.vobj [("amount", JsVal.vnum 5)])).2 (by decide),
   (claim_C2 (JsVal.vobj [("name", JsVal.vstr "R")])
     (JsVal.vobj [("amount", JsVal.vnum 5)])).2 (by decide)⟩

/-- C3 (confirmed): the evaluator equals the any/all semantics over the
OR-groups (split on the whitespace-delimited case-insensitive `or` token)
and their AND-clauses (split on `and`), and the spec's scenario holds:
`"amount > 100 or category == 'Alcohol'"` is true against
`{amount: 50, category: "Alcohol"}`. -/
theorem claim_C3 :
    (∀ rule tx, evaluateRuleAgainstTx rule tx =
      (orGroups rule).any (fun g => (andClauses g).all (clauseSat tx))) ∧
    evaluateRuleAgainstTx
      (JsVal.vobj [("condition", JsVal.vstr "amount > 100 or category == 'Alcohol'")])
      (JsVal.vobj [("amount", JsVal.vnum 50), ("category", JsVal.vstr "Alcohol")]) = true :=
  ⟨evaluateRuleAgainstTx_eq_any_all, by decide⟩

/-- C4 (confirmed): a clause recognized by none of the three clause regexes
makes its whole AND-group evaluate false, and a rule whose condition is the
unrecognized clause `foo ~= bar` matches no transaction (and the embedding
is a total function, so no exception is possible). -/
theorem claim_C4 :
    (∀ (tx : JsVal) (g cl : List Char), cl ∈ andClauses g →
      matchAmountClause (trimL (stripParens cl)) = none →
      matchStrClause (trimL (stripParens cl)) = none →
      looseAmount (trimL (stripParens cl)) = none →
      evalAndLoop tx true (andClauses g) = false) ∧
    (∀ (rule tx : JsVal), jsTruthy rule = true →
      jsGetField rule "condition" = JsVal.vstr "foo ~= bar" →
      evaluateRuleAgainstTx rule tx = false) := by
  constructor
  · intro tx g cl hmem h1 h2 h3
    rw [evalAndLoop_eq_all]
    apply List.all_eq_false.mpr
    refine ⟨cl, hmem, ?_⟩
    unfold clauseSat
    dsimp only
    rw [h1, h2, h3]
    simp
  · intro rule tx hr h
    unfold evaluateRuleAgainstTx
    dsimp only
    rw [if_pos hr, h]
    rfl

/-- C4 witness: the unrecognized clause `foo ~= bar` fails its group and the
rule never matches. -/
theorem claim_C4_witness :
    ("foo ~= bar".data ∈ andClauses ("foo ~= bar".data) ∧
      evalAndLoop (JsVal.vobj [("amount", JsVal.vnum 5)]) true
        (andClauses ("foo ~= bar".data)) = false) ∧
    evaluateRuleAgainstTx (JsVal.vobj [("condition", JsVal.vstr "foo ~= bar")])
      (JsVal.vobj [("amount", JsVal.vnum 5)]) = false :=
  ⟨⟨by decide,
    claim_C4.1 (JsVal.vobj [("amount", JsVal.vnum 5)]) ("foo ~= bar".data)
      ("foo ~= bar".data) (by decide) rfl rfl rfl⟩,
   claim_C4.2 (JsVal.vobj [("condition", JsVal.vstr "foo ~= bar")])
     (JsVal.vobj [("amount", JsVal.vnum 5)]) rfl rfl⟩

/-- C5 (confirmed): with a null rule document or an empty rules array,
`applyPolicyToRows` marks every row compliant with the default verdict
`{compliant: true, violated_rules: [], reason: ""}` — a returned default,
not an error. -/
theorem claim_C5 (doc : JsVal) (rows : List JsVal)
    (h : doc = JsVal.vnull ∨ jsGetField doc "rules" = JsVal.varr []) :
    applyPolicyToRows doc rows =
      rows.map (fun r => jsSetField r "policy" defaultVerdict) := by
  unfold applyPolicyToRows
  rcases h with h | h
  · subst h
    rfl
  · by_cases ht : jsTruthy doc = true
    · rw [if_pos ht]
      unfold docRules
      rw [h]
    · rw [if_neg ht]

/-- C5 witness: a null document and a zero-rule document both yield the
compliant default on a concrete row. -/
theorem claim_C5_witness :
    applyPolicyToRows JsVal.vnull [JsVal.vobj [("txn_id", JsVal.vstr "t1")]] =
      [jsSetField (JsVal.vobj [("txn_id", JsVal.vstr "t1")]) "policy" defaultVerdict] ∧
    applyPolicyToRows (JsVal.vobj [("rules", JsVal.varr [])])
        [JsVal.vobj [("txn_id", JsVal.vstr "t1")]] =
      [jsSetField (JsVal.vobj [("txn_id", JsVal.vstr "t1")]) "policy" defaultVerdict] :=
  ⟨claim_C5 JsVal.vnull [JsVal.vobj [("txn_id", JsVal.vstr "t1")]] (Or.inl rfl),
   claim_C5 (JsVal.vobj [("rules", JsVal.varr [])])
     [JsVal.vobj [("txn_id", JsVal.vstr "t1")]] (Or.inr rfl)⟩

theorem updateRuleCond_canonical {rr : JsVal}
    (h : ∃ gs cs, rr = JsVal.vobj gs ∧ jsGetField rr "condition" = JsVal.vstr cs ∧
      cs ≠ "" ∧ testMachineCond (trimL cs.data) = true) :
    updateRuleCond rr = some rr := by
  obtain ⟨gs, cs, hobj, hcond, hne, htm⟩ := h
  subst hobj
  show (let cond := jsGetField (JsVal.vobj gs) "condition"
    if !jsTruthy cond || isStrVal cond then
      let s := synthRuleCondition (JsVal.vobj gs)
      if jsTruthy s && !jsvalBeq s cond then some (jsSetField (JsVal.vobj gs) "condition" s)
      else some (JsVal.vobj gs)
    else some (JsVal.vobj gs)) = some (JsVal.vobj gs)
  dsimp only
  rw [hcond]
  rw [if_pos (by simp [isStrVal])]
  have hsynth : synthRuleCondition (JsVal.vobj gs) = JsVal.vstr cs := by
    unfold synthRuleCondition
    dsimp only
    rw [hcond]
    rw [if_pos (by simp [jsTruthy, isStrVal, hne, jsString, htm])]
  rw [hsynth]
  rw [if_neg (by simp [jsvalBeq])]

theorem updateRules_id {rs : List JsVal} (h : ∀ rr ∈ rs, updateRuleCond rr = some rr) :
    updateRules rs = (rs, false) := by
  induction rs with
  | nil => rfl
  | cons rr rest ih =>
    unfold updateRules
    rw [h rr (by simp)]
    rw [ih (fun x hx => h x (by simp [hx]))]

theorem setAssoc_same {fs : List (String × JsVal)} {k : String} {v : JsVal}
    (h : assocFind fs k = some v) : setAssoc fs k v = fs := by
  induction fs with
  | nil => simp [assocFind] at h
  | cons kv rest ih =>
    obtain ⟨k2, v2⟩ := kv
    by_cases hk : k2 = k
    · unfold assocFind at h
      rw [if_pos hk] at h
      unfold setAssoc
      rw [if_pos hk]
      simp at h
      rw [h]
    · unfold assocFind at h
      rw [if_neg hk] at h
      unfold setAssoc
      rw [if_neg hk, ih h]

theorem assocFind_of_getField {fs : List (String × JsVal)} {k : String} {v : JsVal}
    (h : jsGetField (JsVal.vobj fs) k = v) (hne : v ≠ JsVal.vundef) :
    assocFind fs k = some v := by
  have h2 : (assocFind fs k).getD JsVal.vundef = v := h
  cases ha : assocFind fs k with
  | none => rw [ha] at h2; exact absurd h2.symm (by simpa using hne)
  | some w => rw [ha] at h2; simp at h2; rw [h2]

theorem jsSetField_same {fs : List (String × JsVal)} {k : String} {v : JsVal}
    (h : jsGetField (JsVal.vobj fs) k = v) (hne : v ≠ JsVal.vundef) :
    jsSetField (JsVal.vobj fs) k v = JsVal.vobj fs := by
  show JsVal.vobj (setAssoc fs k v) = JsVal.vobj fs
  rw [setAssoc_same (assocFind_of_getField h hne)]

/-- C6 counterexample: an already-canonical rule document without a
`version` field is returned by the normalizer exactly as it is — the
`version` field of the result is still absent (`undefined`), not defaulted
to `"1.0"` (no code path of `normalizeParserResponse` writes a version; the
`"1.0"` default comes from the backend parser, outside this function). -/
theorem claim_C6_counterexample :
    (normalizeParserResponse c6D1).1 = NormOut.ok c6D1 ∧
    jsGetField c6D1 "version" = JsVal.vundef ∧
    jsGetField c6D1 "version" ≠ JsVal.vstr "1.0" :=
  ⟨rfl, rfl, fun h => JsVal.noConfusion h⟩

/-- C6 (amended): normalization is idempotent on canonical input with no
defaulting whatsoever: for every object whose `rules` field is an array of
rules with machine-checkable string conditions, `normalizeParserResponse`
returns the document unchanged — including its `version` field, which it
never defaults — and leaves the input unmodified. -/
theorem claim_C6 {resp : JsVal} {fs : List (String × JsVal)} {rs : List JsVal}
    (hresp : resp = JsVal.vobj fs)
    (hrules : jsGetField resp "rules" = JsVal.varr rs)
    (hcanon : canonicalRules rs) :
    normalizeParserResponse resp = (NormOut.ok resp, resp) := by
  subst hresp
  unfold normalizeParserResponse
  rw [if_neg (by simp [jsTruthy])]
  rw [if_pos (show typeofObj (JsVal.vobj fs) = true from rfl)]
  rw [show detectObjShape (JsVal.vobj fs) = DetectRes.found (DocSpec.whole rs) from by
    unfold detectObjShape
    rw [hrules]]
  dsimp only
  unfold finishDoc
  rw [show specRules (DocSpec.whole rs) = rs from rfl]
  rw [updateRules_id (fun rr hr => updateRuleCond_canonical (hcanon rr hr))]
  dsimp only
  unfold buildDoc inputAfter
  rw [jsSetField_same hrules (by simp)]

/-- C6 witness: a concrete canonical document (with a version field) is
returned unchanged, input included. -/
theorem claim_C6_witness :
    jsGetField (JsVal.vobj [("rules", JsVal.varr
        [JsVal.vobj [("name", JsVal.vstr "R1"), ("condition", JsVal.vstr "amount > 50")]]),
        ("version", JsVal.vstr "1.0")]) "rules" =
      JsVal.varr [JsVal.vobj [("name", JsVal.vstr "R1"),
        ("condition", JsVal.vstr "amount > 50")]] ∧
    normalizeParserResponse (JsVal.vobj [("rules", JsVal.varr
        [JsVal.vobj [("name", JsVal.vstr "R1"), ("condition", JsVal.vstr "amount > 50")]]),
        ("version", JsVal.vstr "1.0")]) =
      (NormOut.ok (JsVal.vobj [("rules", JsVal.varr
        [JsVal.vobj [("name", JsVal.vstr "R1"), ("condition", JsVal.vstr "amount > 50")]]),
        ("version", JsVal.vstr "1.0")]),
       JsVal.vobj [("rules", JsVal.varr
        [JsVal.vobj [("name", JsVal.vstr "R1"), ("condition", JsVal.vstr "amount > 50")]]),
        ("version", JsVal.vstr "1.0")]) := by
  refine ⟨rfl, claim_C6 rfl rfl ?_⟩
  intro rr hr
  rw [List.mem_singleton.mp hr]
  exact ⟨[("name", JsVal.vstr "R1"), ("condition", JsVal.vstr "amount > 50")],
    "amount > 50", rfl, rfl, by decide, by decide⟩

theorem updateRuleCond_ne_none {rr : JsVal} (h1 : rr ≠ JsVal.vnull)
    (h2 : rr ≠ JsVal.vundef) : updateRuleCond rr ≠ none := by
  cases rr with
  | vnull => exact absurd rfl h1
  | vundef => exact absurd rfl h2
  | vbool b =>
    unfold updateRuleCond
    dsimp only
    split
    · split <;> simp
    · simp
  | vnum q =>
    unfold updateRuleCond
    dsimp only
    split
    · split <;> simp
    · simp
  | vstr s =>
    unfold updateRuleCond
    dsimp only
    split
    · split <;> simp
    · simp
  | varr xs =>
    unfold updateRuleCond
    dsimp only
    split
    · split <;> simp
    · simp
  | vobj fs =>
    unfold updateRuleCond
    dsimp only
    split
    · split <;> simp
    · simp

theorem updateRules_noThrow {rs : List JsVal}
    (h : ∀ rr ∈ rs, rr ≠ JsVal.vnull ∧ rr ≠ JsVal.vundef) :
    (updateRules rs).2 = false := by
  induction rs with
  | nil => rfl
  | cons rr rest ih =>
    obtain ⟨hn, hu⟩ := h rr (by simp)
    cases hc : updateRuleCond rr with
    | none => exact absurd hc (updateRuleCond_ne_none hn hu)
    | some rr2 =>
      unfold updateRules
      rw [hc]
      cases hr : updateRules rest with
      | mk rest2 threw =>
        dsimp only
        have h3 := ih (fun x hx => h x (by simp [hx]))
        rw [hr] at h3
        exact h3

/-- C7 counterexample: `normalizeParserResponse` is not pure — on a document
whose rule carries `threshold`/`category` but no `condition`, the input
object is mutated: after the call it differs from its original value, its
rule now carrying the synthesized condition string. -/
theorem claim_C7_counterexample :
    (normalizeParserResponse c7D0).2 ≠ c7D0 ∧
    (match jsGetField (normalizeParserResponse c7D0).2 "rules" with
      | JsVal.varr (r :: _) => jsGetField r "condition"
      | _ => JsVal.vnull) =
      JsVal.vstr ("category == 'Travel' and amount > 100") := by
  refine ⟨?_, rfl⟩
  intro h
  have h2 : (match jsGetField (normalizeParserResponse c7D0).2 "rules" with
      | JsVal.varr (r :: _) => jsGetField r "condition"
      | _ => JsVal.vnull) = (match jsGetField c7D0 "rules" with
      | JsVal.varr (r :: _) => jsGetField r "condition"
      | _ => JsVal.vnull) := by rw [h]
  rw [show (match jsGetField c7D0 "rules" with
      | JsVal.varr (r :: _) => jsGetField r "condition"
      | _ => JsVal.vnull) = JsVal.vundef from rfl] at h2
  rw [show (match jsGetField (normalizeParserResponse c7D0).2 "rules" with
      | JsVal.varr (r :: _) => jsGetField r "condition"
      | _ => JsVal.vnull) =
      JsVal.vstr ("category == 'Travel' and amount > 100")
      from rfl] at h2
  exact JsVal.noConfusion h2

/-- C7 (amended): when the response object itself carries the rules array,
the function is observably impure — after the call the input equals the
input with the synth loop's output written into its `rules` field (the
in-place writes are visible to the caller), and the returned document is
that same mutated object, not a copy. -/
theorem claim_C7 {resp : JsVal} {fs : List (String × JsVal)} {rs : List JsVal}
    (hresp : resp = JsVal.vobj fs)
    (hrules : jsGetField resp "rules" = JsVal.varr rs)
    (hok : ∀ rr ∈ rs, rr ≠ JsVal.vnull ∧ rr ≠ JsVal.vundef) :
    normalizeParserResponse resp =
      (NormOut.ok (jsSetField resp "rules" (JsVal.varr (updateRules rs).1)),
       jsSetField resp "rules" (JsVal.varr (updateRules rs).1)) := by
  subst hresp
  unfold normalizeParserResponse
  rw [if_neg (by simp [jsTruthy])]
  rw [if_pos (show typeofObj (JsVal.vobj fs) = true from rfl)]
  rw [show detectObjShape (JsVal.vobj fs) = DetectRes.found (DocSpec.whole rs) from by
    unfold detectObjShape
    rw [hrules]]
  dsimp only
  unfold finishDoc
  rw [show specRules (DocSpec.whole rs) = rs from rfl]
  cases hur : updateRules rs with
  | mk rs2 threw =>
    have hth : threw = false := by
      have h3 := updateRules_noThrow hok
      rw [hur] at h3
      exact h3
    subst hth
    rfl

/-- C7 witness: the concrete document above matches the amended statement. -/
theorem claim_C7_witness :
    jsGetField c7D0 "rules" = JsVal.varr [c7Rule] ∧
    normalizeParserResponse c7D0 =
      (NormOut.ok (jsSetField c7D0 "rules" (JsVal.varr (updateRules [c7Rule]).1)),
       jsSetField c7D0 "rules" (JsVal.varr (updateRules [c7Rule]).1)) := by
  refine ⟨rfl, claim_C7 rfl rfl ?_⟩
  intro rr hr
  rw [List.mem_singleton.mp hr]
  exact ⟨fun hx => JsVal.noConfusion hx, fun hx => JsVal.noConfusion hx⟩

theorem norm_fresh {resp : JsVal} {s : String} {t : List Char}
    {pf : List (String × JsVal)} {rs : List JsVal}
    (htruthy : jsTruthy resp = true) (htypeof : typeofObj resp = true)
    (hdetect : detectObjShape resp = DetectRes.notFound)
    (hcands : candidateStrings resp = [s])
    (hdirect : jsonParse s = none)
    (hbrace : braceSpanL s.data = some t)
    (hparse : jsonParse (String.mk t) = some (JsVal.vobj pf))
    (hrules : jsGetField (JsVal.vobj pf) "rules" = JsVal.varr rs)
    (hcanon : canonicalRules rs) :
    normalizeParserResponse resp = (NormOut.ok (JsVal.vobj pf), resp) := by
  have hsne : s ≠ "" := by
    intro h0
    rw [h0] at hbrace
    exact Option.noConfusion hbrace
  have hcand : tryCandidate s = DetectRes.found (DocSpec.freshDoc (JsVal.vobj pf) rs) := by
    unfold tryCandidate
    dsimp only
    rw [hdirect]
    show braceTry s = DetectRes.found (DocSpec.freshDoc (JsVal.vobj pf) rs)
    unfold braceTry
    rw [hbrace]
    show (match jsonParse (String.mk t) with
      | none => DetectRes.notFound
      | some p =>
        if jsTruthy p then
          match jsGetField p "rules" with
          | JsVal.varr rs2 => DetectRes.found (DocSpec.freshDoc p rs2)
          | _ =>
            match p with
            | JsVal.varr xs => DetectRes.found (DocSpec.freshWrap xs)
            | _ => DetectRes.notFound
        else DetectRes.notFound) = DetectRes.found (DocSpec.freshDoc (JsVal.vobj pf) rs)
    rw [hparse]
    show (if jsTruthy (JsVal.vobj pf) then
        match jsGetField (JsVal.vobj pf) "rules" with
        | JsVal.varr rs2 => DetectRes.found (DocSpec.freshDoc (JsVal.vobj pf) rs2)
        | _ =>
          match JsVal.vobj pf with
          | JsVal.varr xs => DetectRes.found (DocSpec.freshWrap xs)
          | _ => DetectRes.notFound
      else DetectRes.notFound) = DetectRes.found (DocSpec.freshDoc (JsVal.vobj pf) rs)
    rw [if_pos (show jsTruthy (JsVal.vobj pf) = true from rfl)]
    rw [hrules]
  have hfound : tryCandidates [s] =
      DetectRes.found (DocSpec.freshDoc (JsVal.vobj pf) rs) := by
    unfold tryCandidates
    rw [if_neg hsne, hcand]
  unfold normalizeParserResponse
  rw [if_neg (by simp [htruthy])]
  rw [if_pos htypeof, hdetect]
  dsimp only
  rw [hcands, hfound]
  dsimp only
  unfold finishDoc
  rw [show specRules (DocSpec.freshDoc (JsVal.vobj pf) rs) = rs from rfl]
  rw [updateRules_id (fun rr hr => updateRuleCond_canonical (hcanon rr hr))]
  dsimp only
  show (NormOut.ok (jsSetField (JsVal.vobj pf) "rules" (JsVal.varr rs)), resp) =
    (NormOut.ok (JsVal.vobj pf), resp)
  rw [jsSetField_same hrules (by simp)]

/-- C8: the extraction fallback.  When the response is an object whose only
rule-bearing content is a string under one of the keys `extracted`,
`output`, `text` or `content`, the string does not parse as JSON directly,
but its substring from the first brace to the last brace parses to a truthy
object carrying a `rules` array (of canonical rules), the normalizer
returns exactly that parsed document, and the input object is left
unchanged. -/
theorem claim_C8 {kname : String} {s : String} {t : List Char}
    {pf : List (String × JsVal)} {rs : List JsVal}
    (hk : kname = "extracted" ∨ kname = "output" ∨ kname = "text" ∨ kname = "content")
    (hdirect : jsonParse s = none)
    (hbrace : braceSpanL s.data = some t)
    (hparse : jsonParse (String.mk t) = some (JsVal.vobj pf))
    (hrules : jsGetField (JsVal.vobj pf) "rules" = JsVal.varr rs)
    (hcanon : canonicalRules rs) :
    normalizeParserResponse (JsVal.vobj [(kname, JsVal.vstr s)]) =
      (NormOut.ok (JsVal.vobj pf), JsVal.vobj [(kname, JsVal.vstr s)]) := by
  rcases hk with rfl | rfl | rfl | rfl <;>
    exact norm_fresh rfl rfl rfl rfl hdirect hbrace hparse hrules hcanon

/-- C8 witness: the canonical chatter-wrapped scenario. -/
theorem claim_C8_witness :
    normalizeParserResponse (JsVal.vobj [("output", JsVal.vstr c8S)]) =
      (NormOut.ok (JsVal.vobj [("rules", JsVal.varr [c8Rule])]),
       JsVal.vobj [("output", JsVal.vstr c8S)]) := by
  refine @claim_C8 "output" c8S c8T.data [("rules", JsVal.varr [c8Rule])] [c8Rule]
    (Or.inr (Or.inl rfl)) rfl rfl rfl rfl ?_
  intro rr hr
  rw [List.mem_singleton.mp hr]
  exact ⟨[("name", JsVal.vstr "R1"), ("condition", JsVal.vstr "amount > 50")],
    "amount > 50", rfl, rfl, by decide, by decide⟩

/-! ## String-comparison clauses on missing fields -/

theorem stripL_suffix {kw s r : List Char} (h : stripL kw s = some r) : r <:+ s := by
  induction kw generalizing s with
  | nil =>
    simp only [stripL, Option.some.injEq] at h
    rw [h]
  | cons k ks ih =>
    cases s with
    | nil => simp [stripL] at h
    | cons c cs =>
      unfold stripL at h
      by_cases hc : c = k
      · rw [if_pos hc] at h
        exact (ih h).trans (List.suffix_cons c cs)
      · rw [if_neg hc] at h
        exact Option.noConfusion h

theorem stripCI_suffix {kw s r : List Char} (h : stripCI kw s = some r) : r <:+ s := by
  induction kw generalizing s with
  | nil =>
    simp only [stripCI, Option.some.injEq] at h
    rw [h]
  | cons k ks ih =>
    cases s with
    | nil => simp [stripCI] at h
    | cons c cs =>
      unfold stripCI at h
      by_cases hc : lowCh c = k
      · rw [if_pos hc] at h
        exact (ih h).trans (List.suffix_cons c cs)
      · rw [if_neg hc] at h
        exact Option.noConfusion h

theorem parseOpAmount_suffix {s : List Char} {op : COp} {r : List Char}
    (h : parseOpAmount s = some (op, r)) : r <:+ s := by
  unfold parseOpAmount at h
  split at h
  · rename_i r1 h1
    simp only [Option.some.injEq, Prod.mk.injEq] at h
    rw [← h.2]
    exact stripL_suffix h1
  · split at h
    · rename_i r1 h1
      simp only [Option.some.injEq, Prod.mk.injEq] at h
      rw [← h.2]
      exact stripL_suffix h1
    · split at h
      · rename_i r1 h1
        simp only [Option.some.injEq, Prod.mk.injEq] at h
        rw [← h.2]
        exact stripL_suffix h1
      · split at h
        · rename_i r1 h1
          simp only [Option.some.injEq, Prod.mk.injEq] at h
          rw [← h.2]
          exact stripL_suffix h1
        · split at h
          · rename_i r1 h1
            simp only [Option.some.injEq, Prod.mk.injEq] at h
            rw [← h.2]
            exact stripL_suffix h1
          · split at h
            · rename_i r1 h1
              simp only [Option.some.injEq, Prod.mk.injEq] at h
              rw [← h.2]
              exact stripL_suffix h1
            · split at h
              · rename_i r1 h1
                simp only [Option.some.injEq, Prod.mk.injEq] at h
                rw [← h.2]
                exact stripL_suffix h1
              · exact Option.noConfusion h

theorem getLast_of_suffix {r s : List Char} (h : r <:+ s) (hne : r ≠ []) :
    s.getLast? = r.getLast? := by
  obtain ⟨pre, hp⟩ := h
  rw [← hp]
  exact List.getLast?_append_of_ne_nil pre hne

theorem matchNumEnd_last {s : List Char} {v : ℚ} (h : matchNumEnd s = some v) :
    ∃ c, s.getLast? = some c ∧ isDigitCh c = true := by
  unfold matchNumEnd at h
  by_cases hip : s.takeWhile isDigitCh = []
  · rw [if_pos hip] at h
    exact Option.noConfusion h
  · rw [if_neg hip] at h
    split at h
    · rename_i hdw
      have hs : s = s.takeWhile isDigitCh := by
        conv_lhs => rw [← List.takeWhile_append_dropWhile (p := isDigitCh) (l := s)]
        rw [hdw, List.append_nil]
      cases hlast : s.getLast? with
      | none =>
        rw [List.getLast?_eq_none_iff] at hlast
        rw [hlast] at hip
        simp at hip
      | some c =>
        refine ⟨c, rfl, ?_⟩
        have hc : c ∈ s := List.mem_of_mem_getLast? hlast
        rw [hs] at hc
        exact List.mem_takeWhile_imp hc
    · rename_i t hdw
      by_cases hfp : t.takeWhile isDigitCh = []
      · rw [if_pos hfp] at h
        exact Option.noConfusion h
      · rw [if_neg hfp] at h
        by_cases hrest : t.dropWhile isDigitCh = []
        · have ht : t = t.takeWhile isDigitCh := by
            conv_lhs => rw [← List.takeWhile_append_dropWhile (p := isDigitCh) (l := t)]
            rw [hrest, List.append_nil]
          have htne : t ≠ [] := by
            intro h0
            rw [h0] at hfp
            simp at hfp
          have hs2 : s = s.takeWhile isDigitCh ++ ('.' :: t) := by
            conv_lhs => rw [← List.takeWhile_append_dropWhile (p := isDigitCh) (l := s)]
            rw [hdw]
          cases hlt : t.getLast? with
          | none =>
            rw [List.getLast?_eq_none_iff] at hlt
            exact absurd hlt htne
          | some c =>
            refine ⟨c, ?_, ?_⟩
            · rw [hs2, List.getLast?_append_of_ne_nil _ (by simp),
                show ('.' :: t) = ['.'] ++ t from rfl,
                List.getLast?_append_of_ne_nil _ htne, hlt]
            · have hc : c ∈ t := List.mem_of_mem_getLast? hlt
              rw [ht] at hc
              exact List.mem_takeWhile_imp hc
        · rw [if_neg hrest] at h
          exact Option.noConfusion h
    · exact Option.noConfusion h

theorem matchAmountClause_lastNotDigit {c : List Char} {q : Char}
    (hlast : c.getLast? = some q) (hq : isDigitCh q = false) :
    matchAmountClause c = none := by
  cases hm : matchAmountClause c with
  | none => rfl
  | some ov =>
    exfalso
    unfold matchAmountClause at hm
    split at hm
    · exact Option.noConfusion hm
    · rename_i r1 h1
      split at hm
      · exact Option.noConfusion hm
      · rename_i op r2 h2
        split at hm
        · exact Option.noConfusion hm
        · rename_i v h3
          obtain ⟨dd, hd1, hd2⟩ := matchNumEnd_last h3
          have s5 : r2.dropWhile jsWs <:+ c :=
            (List.dropWhile_suffix jsWs).trans
              ((parseOpAmount_suffix h2).trans
                ((List.dropWhile_suffix jsWs).trans (stripCI_suffix h1)))
          have hne : r2.dropWhile jsWs ≠ [] := by
            intro h0
            rw [h0] at hd1
            exact Option.noConfusion hd1
          have hglast := getLast_of_suffix s5 hne
          rw [hlast, hd1] at hglast
          have hqd : q = dd := Option.some.inj hglast
          rw [hqd, hd2] at hq
          exact Bool.noConfusion hq

theorem noTok_identPrefix {kw Fd : List Char} (hF : ∀ c ∈ Fd, isIdentCh c = true)
    (B : List Char) :
    ∀ j, j < Fd.length → tryTok kw (Fd.drop j ++ B) = none := by
  intro j hj
  rw [List.drop_eq_getElem_cons hj, List.cons_append]
  exact tryTok_nonWs (identCh_props (hF _ (List.getElem_mem hj))).1

theorem noTok_strCond1 {k0 : Char} {ks Fd vd : List Char}
    (hF : ∀ c ∈ Fd, isIdentCh c = true)
    (hbang : ¬ lowCh '!' = k0) (hquo : ¬ lowCh '\'' = k0)
    (hquoAll : ∀ k ∈ k0 :: ks, ¬ lowCh '\'' = k)
    (hno : hasTokIn (k0 :: ks) vd = false) :
    ∀ j, j < (Fd ++ (' ' :: '!' :: '=' :: ' ' :: '\'' :: (vd ++ ['\'']))).length →
      tryTok (k0 :: ks)
        ((Fd ++ (' ' :: '!' :: '=' :: ' ' :: '\'' :: (vd ++ ['\'']))).drop j) = none := by
  apply noTok_glue
  · exact noTok_identPrefix hF _
  · rw [show (' ' :: '!' :: '=' :: ' ' :: '\'' :: (vd ++ ['\''])) =
      ([' ', '!', '=', ' ', '\''] : List Char) ++ (vd ++ ['\'']) from rfl]
    apply noTok_glue
    · intro j hj
      rw [show ([' ', '!', '=', ' ', '\''] : List Char).length = 5 from rfl] at hj
      interval_cases j
      · have hdw : (' ' :: '!' :: '=' :: ' ' :: '\'' :: (vd ++ ['\''])).dropWhile jsWs =
            '!' :: ('=' :: ' ' :: '\'' :: (vd ++ ['\''])) := by
          rw [dropWhile_cons_ws (by decide), dropWhile_cons_nws (by decide)]
        exact tryTok_none_mismatch hdw hbang
      · exact tryTok_nonWs (by decide)
      · exact tryTok_nonWs (by decide)
      · have hdw : (' ' :: '\'' :: (vd ++ ['\''])).dropWhile jsWs =
            '\'' :: (vd ++ ['\'']) := by
          rw [dropWhile_cons_ws (by decide), dropWhile_cons_nws (by decide)]
        exact tryTok_none_mismatch hdw hquo
      · exact tryTok_nonWs (by decide)
    · apply noTok_glue
      · intro j hj
        exact tryTok_embed_none (by simp) (by decide) hquoAll hno j hj
      · intro j hj
        rw [show (['\''] : List Char).length = 1 from rfl] at hj
        interval_cases j
        exact tryTok_nonWs (by decide)

theorem noTok_strCond2 {k0 : Char} {ks Fd : List Char}
    (hF : ∀ c ∈ Fd, isIdentCh c = true)
    (heq : ¬ lowCh '=' = k0) (hquo : ¬ lowCh '\'' = k0) :
    ∀ j, j < (Fd ++ (' ' :: '=' :: '=' :: ' ' :: '\'' :: '\'' :: [])).length →
      tryTok (k0 :: ks)
        ((Fd ++ (' ' :: '=' :: '=' :: ' ' :: '\'' :: '\'' :: [])).drop j) = none := by
  apply noTok_glue
  · exact noTok_identPrefix hF _
  · intro j hj
    rw [show ((' ' :: '=' :: '=' :: ' ' :: '\'' :: '\'' :: []) : List Char).length = 6
      from rfl] at hj
    interval_cases j
    · exact tryTok_none_mismatch rfl heq
    · exact tryTok_nonWs (by decide)
    · exact tryTok_nonWs (by decide)
    · exact tryTok_none_mismatch rfl hquo
    · exact tryTok_nonWs (by decide)
    · exact tryTok_nonWs (by decide)

theorem clauseSat_strShape {tx : JsVal} {c0 d0 : Char} {frest opc drest lit : List Char}
    {eqv : Bool}
    (hc0 : isIdentStart c0 = true)
    (hfall : ∀ c ∈ c0 :: frest, isIdentCh c = true)
    (hopc : opc = d0 :: drest) (hd0 : jsWs d0 = false)
    (hop : parseOpStr (opc ++ (' ' :: '\'' :: (lit ++ ['\'']))) =
      some (eqv, ' ' :: '\'' :: (lit ++ ['\''])))
    (hlit : ∀ c ∈ lit, jsLineTerm c = false) :
    clauseSat tx ((c0 :: frest) ++ ' ' :: (opc ++ (' ' :: '\'' :: (lit ++ ['\''])))) =
      (if eqv then decide ((txFieldStr tx (String.mk (c0 :: frest))).data = lit)
       else decide ((txFieldStr tx (String.mk (c0 :: frest))).data ≠ lit)) := by
  have hlastS : ((c0 :: frest) ++ ' ' :: (opc ++ (' ' :: '\'' :: (lit ++ ['\''])))).getLast? =
      some '\'' := by
    rw [show (c0 :: frest) ++ ' ' :: (opc ++ (' ' :: '\'' :: (lit ++ ['\'']))) =
      ((c0 :: frest) ++ ' ' :: (opc ++ (' ' :: '\'' :: lit))) ++ ['\''] from by simp]
    exact List.getLast?_concat _
  have hheadS : ((c0 :: frest) ++ ' ' :: (opc ++ (' ' :: '\'' :: (lit ++ ['\''])))).head? =
      some c0 := rfl
  unfold clauseSat
  dsimp only
  rw [stripParens_id ?hp1 ?hp2]
  case hp1 =>
    rw [hheadS]
    intro hcc
    have : c0 = '(' := Option.some.inj hcc
    rw [this] at hc0
    exact absurd hc0 (by decide)
  case hp2 =>
    rw [hlastS]
    intro hcc
    exact absurd (Option.some.inj hcc) (by decide)
  rw [trimL_id ?ht1 ?ht2]
  case ht1 =>
    intro cc hcc
    rw [hheadS] at hcc
    rw [← Option.some.inj hcc]
    exact (identCh_props (hfall c0 (by simp))).1
  case ht2 =>
    intro cc hcc
    rw [hlastS] at hcc
    rw [← Option.some.inj hcc]
    decide
  rw [matchAmountClause_lastNotDigit hlastS (by decide)]
  rw [matchStrClause_shape hc0 hfall hopc hd0 hop hlit]

theorem decide_data_ne (cat C : String) : decide (cat.data ≠ C.data) = decide (cat ≠ C) := by
  rw [decide_not, decide_not, decide_data_eq]

theorem evalStrCond1 {F v : String} (tx : JsVal)
    (hF0 : F.data ≠ [])
    (hFstart : ∀ c, F.data.head? = some c → isIdentStart c = true)
    (hF : ∀ c ∈ F.data, isIdentCh c = true)
    (hvor : hasTokIn ['o', 'r'] v.data = false)
    (hvand : hasTokIn ['a', 'n', 'd'] v.data = false)
    (hvn : ∀ c ∈ v.data, jsLineTerm c = false) :
    (orGroups (JsVal.vobj [("condition", JsVal.vstr (F ++ " != '" ++ v ++ "'"))])).any
        (fun g => (andClauses g).all (clauseSat tx)) =
      decide (txFieldStr tx F ≠ v) := by
  obtain ⟨c0, frest, hFd⟩ : ∃ c0 frest, F.data = c0 :: frest := by
    cases hc : F.data with
    | nil => exact absurd hc hF0
    | cons c0 frest => exact ⟨c0, frest, rfl⟩
  have hc0 : isIdentStart c0 = true := hFstart c0 (by rw [hFd]; rfl)
  have hfall : ∀ c ∈ c0 :: frest, isIdentCh c = true := by
    intro c hc
    exact hF c (by rw [hFd]; exact hc)
  have hdata : (F ++ " != '" ++ v ++ "'").data =
      F.data ++ (' ' :: '!' :: '=' :: ' ' :: '\'' :: (v.data ++ ['\''])) := by
    simp [String.data_append]
  have hlastS : (F.data ++ (' ' :: '!' :: '=' :: ' ' :: '\'' :: (v.data ++ ['\'']))).getLast? =
      some '\'' := by
    rw [show F.data ++ (' ' :: '!' :: '=' :: ' ' :: '\'' :: (v.data ++ ['\''])) =
      (F.data ++ (' ' :: '!' :: '=' :: ' ' :: '\'' :: v.data)) ++ ['\''] from by simp]
    exact List.getLast?_concat _
  have htr : trimL (F.data ++ (' ' :: '!' :: '=' :: ' ' :: '\'' :: (v.data ++ ['\'']))) =
      F.data ++ (' ' :: '!' :: '=' :: ' ' :: '\'' :: (v.data ++ ['\''])) := by
    apply trimL_id
    · intro c hc
      rw [hFd] at hc
      have h2 : some c0 = some c := hc
      rw [← Option.some.inj h2]
      exact (identCh_props (hfall c0 (by simp))).1
    · intro c hc
      rw [hlastS] at hc
      rw [← Option.some.inj hc]
      decide
  have hquoAllOr : ∀ k ∈ ('o' :: ['r'] : List Char), ¬ lowCh '\'' = k := by
    intro k hk
    fin_cases hk <;> decide
  have hquoAllAnd : ∀ k ∈ ('a' :: ['n', 'd'] : List Char), ¬ lowCh '\'' = k := by
    intro k hk
    fin_cases hk <;> decide
  have hsplitOr : splitTok ['o', 'r']
      (F.data ++ (' ' :: '!' :: '=' :: ' ' :: '\'' :: (v.data ++ ['\'']))) =
      [F.data ++ (' ' :: '!' :: '=' :: ' ' :: '\'' :: (v.data ++ ['\'']))] :=
    splitTok_one (noTok_strCond1 hF (by decide) (by decide) hquoAllOr hvor)
  have hsplitAnd : splitTok ['a', 'n', 'd']
      (F.data ++ (' ' :: '!' :: '=' :: ' ' :: '\'' :: (v.data ++ ['\'']))) =
      [F.data ++ (' ' :: '!' :: '=' :: ' ' :: '\'' :: (v.data ++ ['\'']))] :=
    splitTok_one (noTok_strCond1 hF (by decide) (by decide) hquoAllAnd hvand)
  have hne : (F ++ " != '" ++ v ++ "'") ≠ "" := by
    intro h0
    have : (F ++ " != '" ++ v ++ "'").data = [] := by rw [h0]
    rw [hdata, hFd] at this
    exact List.noConfusion this
  have hog : orGroups (JsVal.vobj [("condition", JsVal.vstr (F ++ " != '" ++ v ++ "'"))]) =
      [F.data ++ (' ' :: '!' :: '=' :: ' ' :: '\'' :: (v.data ++ ['\'']))] := by
    unfold orGroups
    rw [if_pos (by simp [jsTruthy])]
    rw [show jsGetField (JsVal.vobj [("condition", JsVal.vstr (F ++ " != '" ++ v ++ "'"))])
      "condition" = JsVal.vstr (F ++ " != '" ++ v ++ "'") from rfl]
    rw [show jsOr (JsVal.vstr (F ++ " != '" ++ v ++ "'")) (JsVal.vstr "") =
      JsVal.vstr (F ++ " != '" ++ v ++ "'") from by
        unfold jsOr
        rw [if_pos (by simp [jsTruthy, hne])]]
    rw [show jsString (JsVal.vstr (F ++ " != '" ++ v ++ "'")) = F ++ " != '" ++ v ++ "'"
      from rfl]
    rw [hdata, htr, hsplitOr]
    simp only [List.map_cons, List.map_nil]
    rw [htr]
  rw [hog]
  simp only [List.any_cons, List.any_nil, Bool.or_false]
  have hac : andClauses (F.data ++ (' ' :: '!' :: '=' :: ' ' :: '\'' :: (v.data ++ ['\'']))) =
      [F.data ++ (' ' :: '!' :: '=' :: ' ' :: '\'' :: (v.data ++ ['\'']))] := by
    unfold andClauses
    rw [hsplitAnd]
    simp only [List.map_cons, List.map_nil]
    rw [htr]
  rw [hac]
  simp only [List.all_cons, List.all_nil, Bool.and_true]
  have hclause := @clauseSat_strShape tx c0 '!' frest ['!', '='] ['='] v.data false
    hc0 hfall rfl (by decide) rfl hvn
  rw [show F.data ++ (' ' :: '!' :: '=' :: ' ' :: '\'' :: (v.data ++ ['\''])) =
    (c0 :: frest) ++ ' ' :: (['!', '='] ++ (' ' :: '\'' :: (v.data ++ ['\''])))
    from by rw [hFd]; rfl]
  rw [hclause]
  have hFmk : String.mk (c0 :: frest) = F := by
    rw [← hFd]
  rw [hFmk]
  simp only [if_neg (Bool.false_ne_true)]
  rw [show v.data = String.data v from rfl]
  exact decide_data_ne (txFieldStr tx F) v

theorem evalStrCond2 {F : String} (tx : JsVal)
    (hF0 : F.data ≠ [])
    (hFstart : ∀ c, F.data.head? = some c → isIdentStart c = true)
    (hF : ∀ c ∈ F.data, isIdentCh c = true) :
    (orGroups (JsVal.vobj [("condition", JsVal.vstr (F ++ " == ''"))])).any
        (fun g => (andClauses g).all (clauseSat tx)) =
      decide (txFieldStr tx F = "") := by
  obtain ⟨c0, frest, hFd⟩ : ∃ c0 frest, F.data = c0 :: frest := by
    cases hc : F.data with
    | nil => exact absurd hc hF0
    | cons c0 frest => exact ⟨c0, frest, rfl⟩
  have hc0 : isIdentStart c0 = true := hFstart c0 (by rw [hFd]; rfl)
  have hfall : ∀ c ∈ c0 :: frest, isIdentCh c = true := by
    intro c hc
    exact hF c (by rw [hFd]; exact hc)
  have hdata : (F ++ " == ''").data =
      F.data ++ (' ' :: '=' :: '=' :: ' ' :: '\'' :: '\'' :: []) := by
    simp [String.data_append]
  have hlastS : (F.data ++ (' ' :: '=' :: '=' :: ' ' :: '\'' :: '\'' :: [])).getLast? =
      some '\'' := by
    rw [show F.data ++ (' ' :: '=' :: '=' :: ' ' :: '\'' :: '\'' :: []) =
      (F.data ++ (' ' :: '=' :: '=' :: ' ' :: '\'' :: [])) ++ ['\''] from by simp]
    exact List.getLast?_concat _
  have htr : trimL (F.data ++ (' ' :: '=' :: '=' :: ' ' :: '\'' :: '\'' :: [])) =
      F.data ++ (' ' :: '=' :: '=' :: ' ' :: '\'' :: '\'' :: []) := by
    apply trimL_id
    · intro c hc
      rw [hFd] at hc
      have h2 : some c0 = some c := hc
      rw [← Option.some.inj h2]
      exact (identCh_props (hfall c0 (by simp))).1
    · intro c hc
      rw [hlastS] at hc
      rw [← Option.some.inj hc]
      decide
  have hsplitOr : splitTok ['o', 'r']
      (F.data ++ (' ' :: '=' :: '=' :: ' ' :: '\'' :: '\'' :: [])) =
      [F.data ++ (' ' :: '=' :: '=' :: ' ' :: '\'' :: '\'' :: [])] :=
    splitTok_one (noTok_strCond2 hF (by decide) (by decide))
  have hsplitAnd : splitTok ['a', 'n', 'd']
      (F.data ++ (' ' :: '=' :: '=' :: ' ' :: '\'' :: '\'' :: [])) =
      [F.data ++ (' ' :: '=' :: '=' :: ' ' :: '\'' :: '\'' :: [])] :=
    splitTok_one (noTok_strCond2 hF (by decide) (by decide))
  have hne : (F ++ " == ''") ≠ "" := by
    intro h0
    have : (F ++ " == ''").data = [] := by rw [h0]
    rw [hdata, hFd] at this
    exact List.noConfusion this
  have hog : orGroups (JsVal.vobj [("condition", JsVal.vstr (F ++ " == ''"))]) =
      [F.data ++ (' ' :: '=' :: '=' :: ' ' :: '\'' :: '\'' :: [])] := by
    unfold orGroups
    rw [if_pos (by simp [jsTruthy])]
    rw [show jsGetField (JsVal.vobj [("condition", JsVal.vstr (F ++ " == ''"))])
      "condition" = JsVal.vstr (F ++ " == ''") from rfl]
    rw [show jsOr (JsVal.vstr (F ++ " == ''")) (JsVal.vstr "") =
      JsVal.vstr (F ++ " == ''") from by
        unfold jsOr
        rw [if_pos (by simp [jsTruthy, hne])]]
    rw [show jsString (JsVal.vstr (F ++ " == ''")) = F ++ " == ''" from rfl]
    rw [hdata, htr, hsplitOr]
    simp only [List.map_cons, List.map_nil]
    rw [htr]
  rw [hog]
  simp only [List.any_cons, List.any_nil, Bool.or_false]
  have hac : andClauses (F.data ++ (' ' :: '=' :: '=' :: ' ' :: '\'' :: '\'' :: [])) =
      [F.data ++ (' ' :: '=' :: '=' :: ' ' :: '\'' :: '\'' :: [])] := by
    unfold andClauses
    rw [hsplitAnd]
    simp only [List.map_cons, List.map_nil]
    rw [htr]
  rw [hac]
  simp only [List.all_cons, List.all_nil, Bool.and_true]
  have hclause := @clauseSat_strShape tx c0 '=' frest ['=', '='] ['='] [] true
    hc0 hfall rfl (by decide) rfl (by simp)
  simp only [List.nil_append] at hclause
  rw [show F.data ++ (' ' :: '=' :: '=' :: ' ' :: '\'' :: '\'' :: []) =
    (c0 :: frest) ++ ' ' :: (['=', '='] ++ (' ' :: '\'' :: ['\'']))
    from by rw [hFd]; rfl]
  rw [hclause]
  have hFmk : String.mk (c0 :: frest) = F := by
    rw [← hFd]
  rw [hFmk]
  rw [if_pos trivial]
  rw [show ([] : List Char) = String.data "" from rfl]
  exact decide_data_eq (txFieldStr tx F) ""

/-- C10 counterexample: `category == ''` does not match only the
transactions whose `category` is absent, `undefined`, or `null` — it also
matches a transaction whose `category` is present and equal to the empty
string, so the claim's "exactly those transactions" is too strong. -/
theorem claim_C10_counterexample :
    evaluateRuleAgainstTx (JsVal.vobj [("condition", JsVal.vstr "category == ''")])
      (JsVal.vobj [("category", JsVal.vstr ""), ("amount", JsVal.vnum 10)]) = true ∧
    jsGetField (JsVal.vobj [("category", JsVal.vstr ""), ("amount", JsVal.vnum 10)])
      "category" ≠ JsVal.vundef ∧
    jsGetField (JsVal.vobj [("category", JsVal.vstr ""), ("amount", JsVal.vnum 10)])
      "category" ≠ JsVal.vnull :=
  ⟨by decide, fun h => JsVal.noConfusion h, fun h => JsVal.noConfusion h⟩

/-- C10 (amended): a string-comparison clause reads the transaction field as
`String(tx[field] ?? '')`, so `field != 'v'` evaluates to the inequality of
the read string with `v` (hence true on every transaction whose field is
absent, `undefined` or `null`), and `field == ''` evaluates to the equality
of the read string with the empty string — which holds for all nullish
fields but also for a present empty-string field, so it does not match
exactly the nullish ones. -/
theorem claim_C10 {F v : String}
    (hF0 : F.data ≠ [])
    (hFstart : ∀ c, F.data.head? = some c → isIdentStart c = true)
    (hF : ∀ c ∈ F.data, isIdentCh c = true)
    (hv0 : v ≠ "")
    (hvor : hasTokIn ['o', 'r'] v.data = false)
    (hvand : hasTokIn ['a', 'n', 'd'] v.data = false)
    (hvn : ∀ c ∈ v.data, jsLineTerm c = false) :
    (∀ tx, evaluateRuleAgainstTx
        (JsVal.vobj [("condition", JsVal.vstr (F ++ " != '" ++ v ++ "'"))]) tx =
        decide (txFieldStr tx F ≠ v)) ∧
    (∀ tx, evaluateRuleAgainstTx
        (JsVal.vobj [("condition", JsVal.vstr (F ++ " == ''"))]) tx =
        decide (txFieldStr tx F = "")) ∧
    (∀ tx, (jsGetField tx F = JsVal.vundef ∨ jsGetField tx F = JsVal.vnull) →
        txFieldStr tx F = "" ∧
        evaluateRuleAgainstTx
          (JsVal.vobj [("condition", JsVal.vstr (F ++ " != '" ++ v ++ "'"))]) tx = true ∧
        evaluateRuleAgainstTx
          (JsVal.vobj [("condition", JsVal.vstr (F ++ " == ''"))]) tx = true) := by
  have h1 : ∀ tx, evaluateRuleAgainstTx
      (JsVal.vobj [("condition", JsVal.vstr (F ++ " != '" ++ v ++ "'"))]) tx =
      decide (txFieldStr tx F ≠ v) := by
    intro tx
    rw [evaluateRuleAgainstTx_eq_any_all]
    exact evalStrCond1 tx hF0 hFstart hF hvor hvand hvn
  have h2 : ∀ tx, evaluateRuleAgainstTx
      (JsVal.vobj [("condition", JsVal.vstr (F ++ " == ''"))]) tx =
      decide (txFieldStr tx F = "") := by
    intro tx
    rw [evaluateRuleAgainstTx_eq_any_all]
    exact evalStrCond2 tx hF0 hFstart hF
  refine ⟨h1, h2, ?_⟩
  intro tx hnull
  have hf : txFieldStr tx F = "" := txFieldStr_nullish hnull
  refine ⟨hf, ?_, ?_⟩
  · rw [h1 tx, hf]
    simp only [decide_eq_true_eq]
    exact fun h => hv0 h.symm
  · rw [h2 tx, hf]
    simp

/-- C10 witness: field `vendor`, value `ACME`, on a transaction without a
`vendor` field both clauses evaluate to true. -/
theorem claim_C10_witness :
    txFieldStr (JsVal.vobj [("amount", JsVal.vnum 5)]) "vendor" = "" ∧
    evaluateRuleAgainstTx (JsVal.vobj [("condition", JsVal.vstr "vendor != 'ACME'")])
      (JsVal.vobj [("amount", JsVal.vnum 5)]) = true ∧
    evaluateRuleAgainstTx (JsVal.vobj [("condition", JsVal.vstr "vendor == ''")])
      (JsVal.vobj [("amount", JsVal.vnum 5)]) = true := by
  have h := @claim_C10 "vendor" "ACME" (by decide) (by decide)
    (by intro c hc; fin_cases hc <;> decide) (by decide) (by decide) (by decide)
    (by intro c hc; fin_cases hc <;> decide)
  exact h.2.2 (JsVal.vobj [("amount", JsVal.vnum 5)]) (Or.inl rfl)

/-! ## Idempotence of the category aligner -/

theorem tryLit_free {c q : Char} {A X : List Char} (hq : isQuoteCh q = true)
    (hfree : ∀ x ∈ A, isQuoteCh x = false) :
    tryLit c (A ++ q :: X) = if q = c ∧ A ≠ [] then some (A, X) else none := by
  have ht : (A ++ q :: X).takeWhile (fun x => !isQuoteCh x) = A :=
    takeWhile_mid X (by intro x hx; simp [hfree x hx]) (by simp [hq])
  have hd : (A ++ q :: X).dropWhile (fun x => !isQuoteCh x) = q :: X :=
    dropWhile_mid X (by intro x hx; simp [hfree x hx]) (by simp [hq])
  unfold tryLit
  dsimp only
  rw [hd]
  dsimp only
  rw [ht]

theorem tryLit_some {q : Char} {l2 suf : List Char} (hq : isQuoteCh q = true)
    (hfree : ∀ x ∈ l2, isQuoteCh x = false) (hne : l2 ≠ []) :
    tryLit q (l2 ++ q :: suf) = some (l2, suf) := by
  rw [tryLit_free hq hfree]
  rw [if_pos ⟨rfl, hne⟩]

theorem quoteSplit (A : List Char) :
    (∀ c ∈ A, isQuoteCh c = false) ∨
    ∃ A1 qa A2, A = A1 ++ qa :: A2 ∧ (∀ c ∈ A1, isQuoteCh c = false) ∧
      isQuoteCh qa = true := by
  induction A with
  | nil => left; simp
  | cons a A2 ih =>
    by_cases ha : isQuoteCh a = true
    · right
      exact ⟨[], a, A2, by simp, by simp, ha⟩
    · rcases ih with hfree | ⟨A1, qa, A3, hA, h1, h2⟩
      · left
        intro c hc
        rcases List.mem_cons.mp hc with rfl | hc2
        · simpa using ha
        · exact hfree c hc2
      · right
        refine ⟨a :: A1, qa, A3, by rw [hA]; rfl, ?_, h2⟩
        intro c hc
        rcases List.mem_cons.mp hc with rfl | h3
        · simpa using ha
        · exact h1 c h3

theorem tryLit_none_transfer {c q : Char} {A lit lit2 suf : List Char}
    (hq : isQuoteCh q = true)
    (h : tryLit c (A ++ q :: (lit ++ q :: suf)) = none) :
    tryLit c (A ++ q :: (lit2 ++ q :: suf)) = none := by
  rcases quoteSplit A with hfree | ⟨A1, qa, A2, hA, h1, h2⟩
  · rw [tryLit_free hq hfree] at h
    rw [tryLit_free hq hfree]
    by_cases hP : q = c ∧ A ≠ []
    · rw [if_pos hP] at h
      exact Option.noConfusion h
    · rw [if_neg hP]
  · rw [hA, show (A1 ++ qa :: A2) ++ q :: (lit ++ q :: suf) =
      A1 ++ qa :: (A2 ++ q :: (lit ++ q :: suf)) from by simp] at h
    rw [tryLit_free h2 h1] at h
    rw [hA, show (A1 ++ qa :: A2) ++ q :: (lit2 ++ q :: suf) =
      A1 ++ qa :: (A2 ++ q :: (lit2 ++ q :: suf)) from by simp]
    rw [tryLit_free h2 h1]
    by_cases hP : qa = c ∧ A1 ≠ []
    · rw [if_pos hP] at h
      exact Option.noConfusion h
    · rw [if_neg hP]

theorem stripL_self {p X : List Char} : stripL p (p ++ X) = some X := by
  induction p with
  | nil => rfl
  | cons a p2 ih =>
    show (if a = a then stripL p2 (p2 ++ X) else none) = some X
    rw [if_pos rfl, ih]

theorem stripL_eq_append {p s r : List Char} (h : stripL p s = some r) : s = p ++ r := by
  induction p generalizing s with
  | nil =>
    simp only [stripL, Option.some.injEq] at h
    rw [h]
    rfl
  | cons a p2 ih =>
    cases s with
    | nil => simp [stripL] at h
    | cons c cs =>
      unfold stripL at h
      by_cases hc : c = a
      · rw [if_pos hc] at h
        rw [hc, List.cons_append, ← ih h]
      · rw [if_neg hc] at h
        exact Option.noConfusion h

theorem tryLit_inv {q : Char} {r l sf : List Char} (h : tryLit q r = some (l, sf)) :
    (∀ c ∈ l, isQuoteCh c = false) ∧ l ≠ [] ∧ r = l ++ q :: sf := by
  unfold tryLit at h
  dsimp only at h
  split at h
  · rename_i q2 suf2 heq
    split at h
    · rename_i hcond
      simp only [Option.some.injEq, Prod.mk.injEq] at h
      obtain ⟨h1, h2⟩ := h
      refine ⟨?_, ?_, ?_⟩
      · intro c hc
        rw [← h1] at hc
        have := List.mem_takeWhile_imp hc
        simpa using this
      · rw [← h1]
        exact hcond.2
      · rw [← h1, ← h2]
        conv_lhs => rw [← List.takeWhile_append_dropWhile
          (p := fun c => !isQuoteCh c) (l := r)]
        rw [heq, hcond.1]
    · exact Option.noConfusion h
  · exact Option.noConfusion h

theorem firstQuoted_decomp {s pre : List Char} {q : Char} {lit suf : List Char}
    (h : firstQuoted s = some (pre, q, lit, suf)) :
    isQuoteCh q = true ∧ (∀ c ∈ lit, isQuoteCh c = false) ∧ lit ≠ [] ∧
      s = pre ++ q :: (lit ++ q :: suf) := by
  induction s generalizing pre with
  | nil => exact Option.noConfusion h
  | cons c rest ih =>
    unfold firstQuoted at h
    by_cases hc : isQuoteCh c = true
    · rw [if_pos hc] at h
      cases htl : tryLit c rest with
      | some ls =>
        obtain ⟨l, sf⟩ := ls
        rw [htl] at h
        simp only [Option.some.injEq, Prod.mk.injEq] at h
        obtain ⟨hp, hqc, hl, hs⟩ := h
        obtain ⟨hfree, hne, hr⟩ := tryLit_inv htl
        subst hp hqc hl hs
        exact ⟨hc, hfree, hne, by rw [hr]; rfl⟩
      | none =>
        rw [htl] at h
        cases hfr : firstQuoted rest with
        | none => rw [hfr] at h; simp at h
        | some r4 =>
          obtain ⟨p2, q2, l2, s2⟩ := r4
          rw [hfr] at h
          simp only [Option.map_some', Option.some.injEq, Prod.mk.injEq] at h
          obtain ⟨hp, hqc, hl, hs⟩ := h
          subst hqc hl hs
          obtain ⟨ha, hb, hcn, hd⟩ := ih hfr
          refine ⟨ha, hb, hcn, ?_⟩
          rw [← hp, hd]
          rfl
    · rw [if_neg hc] at h
      cases hfr : firstQuoted rest with
      | none => rw [hfr] at h; simp at h
      | some r4 =>
        obtain ⟨p2, q2, l2, s2⟩ := r4
        rw [hfr] at h
        simp only [Option.map_some', Option.some.injEq, Prod.mk.injEq] at h
        obtain ⟨hp, hqc, hl, hs⟩ := h
        subst hqc hl hs
        obtain ⟨ha, hb, hcn, hd⟩ := ih hfr
        refine ⟨ha, hb, hcn, ?_⟩
        rw [← hp, hd]
        rfl

theorem firstQuoted_replace {pre : List Char} {q : Char} {lit lit2 suf : List Char}
    (hq : isQuoteCh q = true)
    (hfree2 : ∀ c ∈ lit2, isQuoteCh c = false) (hne2 : lit2 ≠ [])
    (h : firstQuoted (pre ++ q :: (lit ++ q :: suf)) = some (pre, q, lit, suf)) :
    firstQuoted (pre ++ q :: (lit2 ++ q :: suf)) = some (pre, q, lit2, suf) := by
  induction pre with
  | nil =>
    simp only [List.nil_append]
    unfold firstQuoted
    rw [if_pos hq]
    rw [tryLit_some hq hfree2 hne2]
  | cons c pre2 ih =>
    simp only [List.cons_append] at h ⊢
    unfold firstQuoted at h ⊢
    by_cases hc : isQuoteCh c = true
    · rw [if_pos hc] at h ⊢
      cases htl : tryLit c (pre2 ++ q :: (lit ++ q :: suf)) with
      | some ls =>
        obtain ⟨l, sf⟩ := ls
        rw [htl] at h
        simp at h
      | none =>
        rw [htl] at h
        rw [tryLit_none_transfer hq htl]
        cases hfr : firstQuoted (pre2 ++ q :: (lit ++ q :: suf)) with
        | none => rw [hfr] at h; simp at h
        | some r4 =>
          obtain ⟨p2, q2, l2, s2⟩ := r4
          rw [hfr] at h
          simp only [Option.map_some', Option.some.injEq, Prod.mk.injEq] at h
          obtain ⟨hp, hqc, hl, hs⟩ := h
          have hp2 : p2 = pre2 := List.cons.inj hp |>.2
          subst hqc hl hs hp2
          rw [ih hfr]
          rfl
    · rw [if_neg hc] at h ⊢
      cases hfr : firstQuoted (pre2 ++ q :: (lit ++ q :: suf)) with
      | none => rw [hfr] at h; simp at h
      | some r4 =>
        obtain ⟨p2, q2, l2, s2⟩ := r4
        rw [hfr] at h
        simp only [Option.map_some', Option.some.injEq, Prod.mk.injEq] at h
        obtain ⟨hp, hqc, hl, hs⟩ := h
        have hp2 : p2 = pre2 := List.cons.inj hp |>.2
        subst hqc hl hs hp2
        rw [ih hfr]
        rfl

theorem replaceFirst_at {pre : List Char} {q : Char} {lit suf rep : List Char}
    (hq : isQuoteCh q = true)
    (h : firstQuoted (pre ++ q :: (lit ++ q :: suf)) = some (pre, q, lit, suf)) :
    replaceFirstL (q :: (lit ++ [q])) rep (pre ++ q :: (lit ++ q :: suf)) =
      pre ++ (rep ++ suf) := by
  induction pre with
  | nil =>
    obtain ⟨-, hfree, hne, -⟩ := firstQuoted_decomp h
    simp only [List.nil_append]
    unfold replaceFirstL
    have hshape : q :: (lit ++ q :: suf) = (q :: (lit ++ [q])) ++ suf := by simp
    have hpre : isPre (q :: (lit ++ [q])) (q :: (lit ++ q :: suf)) = true := by
      unfold isPre
      rw [hshape, stripL_self]
      rfl
    rw [hpre, if_pos rfl]
    rw [hshape, show ((q :: (lit ++ [q])) ++ suf).drop (q :: (lit ++ [q])).length = suf
      from List.drop_left _ _]
  | cons c pre2 ih =>
    obtain ⟨-, hfree, hne, -⟩ := firstQuoted_decomp h
    simp only [List.cons_append] at h ⊢
    have hnp : isPre (q :: (lit ++ [q])) (c :: (pre2 ++ q :: (lit ++ q :: suf))) = false := by
      unfold firstQuoted at h
      by_cases hc : isQuoteCh c = true
      · rw [if_pos hc] at h
        cases htl : tryLit c (pre2 ++ q :: (lit ++ q :: suf)) with
        | some ls =>
          obtain ⟨l, sf⟩ := ls
          rw [htl] at h
          simp at h
        | none =>
          cases hip : isPre (q :: (lit ++ [q])) (c :: (pre2 ++ q :: (lit ++ q :: suf))) with
          | false => rfl
          | true =>
            exfalso
            unfold isPre at hip
            cases hsl : stripL (q :: (lit ++ [q])) (c :: (pre2 ++ q :: (lit ++ q :: suf))) with
            | none => rw [hsl] at hip; exact Bool.noConfusion hip
            | some Y =>
              have hdec := stripL_eq_append hsl
              have hcq : c = q := List.cons.inj hdec |>.1
              have hrest : pre2 ++ q :: (lit ++ q :: suf) = (lit ++ [q]) ++ Y :=
                List.cons.inj hdec |>.2
              rw [hcq] at htl
              rw [hrest, show (lit ++ [q]) ++ Y = lit ++ q :: Y from by simp] at htl
              rw [tryLit_some hq hfree hne] at htl
              exact Option.noConfusion htl
      · cases hip : isPre (q :: (lit ++ [q])) (c :: (pre2 ++ q :: (lit ++ q :: suf))) with
        | false => rfl
        | true =>
          exfalso
          unfold isPre at hip
          cases hsl : stripL (q :: (lit ++ [q])) (c :: (pre2 ++ q :: (lit ++ q :: suf))) with
          | none => rw [hsl] at hip; exact Bool.noConfusion hip
          | some Y =>
            have hcq : c = q := List.cons.inj (stripL_eq_append hsl) |>.1
            rw [hcq, hq] at hc
            exact hc rfl
    have hinv : firstQuoted (pre2 ++ q :: (lit ++ q :: suf)) = some (pre2, q, lit, suf) := by
      unfold firstQuoted at h
      by_cases hc : isQuoteCh c = true
      · rw [if_pos hc] at h
        cases htl : tryLit c (pre2 ++ q :: (lit ++ q :: suf)) with
        | some ls =>
          obtain ⟨l, sf⟩ := ls
          rw [htl] at h
          simp at h
        | none =>
          rw [htl] at h
          cases hfr : firstQuoted (pre2 ++ q :: (lit ++ q :: suf)) with
          | none => rw [hfr] at h; simp at h
          | some r4 =>
            obtain ⟨p2, q2, l2, s2⟩ := r4
            rw [hfr] at h
            simp only [Option.map_some', Option.some.injEq, Prod.mk.injEq] at h
            obtain ⟨hp, hqc, hl, hs⟩ := h
            have hp2 : p2 = pre2 := List.cons.inj hp |>.2
            subst hqc hl hs hp2
            rfl
      · rw [if_neg hc] at h
        cases hfr : firstQuoted (pre2 ++ q :: (lit ++ q :: suf)) with
        | none => rw [hfr] at h; simp at h
        | some r4 =>
          obtain ⟨p2, q2, l2, s2⟩ := r4
          rw [hfr] at h
          simp only [Option.map_some', Option.some.injEq, Prod.mk.injEq] at h
          obtain ⟨hp, hqc, hl, hs⟩ := h
          have hp2 : p2 = pre2 := List.cons.inj hp |>.2
          subst hqc hl hs hp2
          rfl
    unfold replaceFirstL
    rw [hnp, if_neg Bool.false_ne_true]
    rw [ih hinv]

theorem mapCategory_mem {cats : List String} {c : String} (hc : c ∈ cats) (hne : c ≠ "")
    (hclean : trimL c.data = c.data)
    (huniq : ∀ a ∈ cats, ∀ b ∈ cats, lowStr a = lowStr b → a = b) :
    mapCategory cats c = c := by
  unfold mapCategory
  rw [if_neg hne]
  dsimp only
  rw [hclean]
  rw [show String.mk c.data = c from rfl]
  rw [if_neg hne]
  have hfind : cats.reverse.find? (fun x => decide (lowStr x = lowStr c)) = some c := by
    cases hf : cats.reverse.find? (fun x => decide (lowStr x = lowStr c)) with
    | none =>
      exfalso
      have h2 := List.find?_eq_none.mp hf c (List.mem_reverse.mpr hc)
      simp at h2
    | some x =>
      have hx1 := List.find?_some hf
      simp only [decide_eq_true_eq] at hx1
      have hx2 : x ∈ cats := List.mem_reverse.mp (List.mem_of_find?_eq_some hf)
      rw [huniq x hx2 c hc hx1]
  rw [hfind]
  dsimp only
  rw [if_neg hne]

theorem mapCategory_cases (cats : List String) (val : String) :
    mapCategory cats val = val ∨ mapCategory cats val ∈ cats := by
  unfold mapCategory
  by_cases h1 : val = ""
  · rw [if_pos h1]
    left
    rfl
  · rw [if_neg h1]
    dsimp only
    by_cases h2 : String.mk (trimL val.data) = ""
    · rw [if_pos h2]
      left
      rfl
    · rw [if_neg h2]
      split
      · rename_i x heq
        split at heq
        · rename_i x2 hf
          split at heq
          · exact Option.noConfusion heq
          · right
            have hx : x2 = x := Option.some.inj heq
            rw [← hx]
            exact List.mem_reverse.mp (List.mem_of_find?_eq_some hf)
        · exact Option.noConfusion heq
      · split
        · rename_i y hy
          right
          exact List.mem_of_find?_eq_some hy
        · left
          rfl

theorem mapCategory_idem {cats : List String} (val : String)
    (hne : ∀ c ∈ cats, c ≠ "") (hclean : ∀ c ∈ cats, trimL c.data = c.data)
    (huniq : ∀ a ∈ cats, ∀ b ∈ cats, lowStr a = lowStr b → a = b) :
    mapCategory cats (mapCategory cats val) = mapCategory cats val := by
  rcases mapCategory_cases cats val with h | h
  · rw [h]
    exact h
  · exact mapCategory_mem h (hne _ h) (hclean _ h) huniq

theorem alignCondition_eq_none (cats : List String) {cond : String}
    (h : firstQuoted cond.data = none) : alignCondition cats cond = cond := by
  unfold alignCondition
  rw [h]

theorem alignCondition_eq_guard (cats : List String) {cond : String} {pre : List Char}
    {q : Char} {lit suf : List Char}
    (h : firstQuoted cond.data = some (pre, q, lit, suf))
    (hg : ¬(mapCategory cats (String.mk lit) ≠ "" ∧
      mapCategory cats (String.mk lit) ≠ String.mk lit)) :
    alignCondition cats cond = cond := by
  unfold alignCondition
  rw [h]
  dsimp only
  rw [if_neg hg]

theorem alignCondition_eq_fire (cats : List String) {cond : String} {pre : List Char}
    {q : Char} {lit suf : List Char}
    (h : firstQuoted cond.data = some (pre, q, lit, suf))
    (hg : mapCategory cats (String.mk lit) ≠ "" ∧
      mapCategory cats (String.mk lit) ≠ String.mk lit) :
    alignCondition cats cond = String.mk (replaceFirstL (q :: (lit ++ [q]))
      (q :: ((mapCategory cats (String.mk lit)).data ++ [q])) cond.data) := by
  unfold alignCondition
  rw [h]
  dsimp only
  rw [if_pos hg]

theorem alignCondition_idem (cats : List String) (cond : String)
    (_hne : ∀ c ∈ cats, c ≠ "") (hclean : ∀ c ∈ cats, trimL c.data = c.data)
    (hquote : ∀ c ∈ cats, ∀ ch ∈ c.data, isQuoteCh ch = false)
    (huniq : ∀ a ∈ cats, ∀ b ∈ cats, lowStr a = lowStr b → a = b) :
    alignCondition cats (alignCondition cats cond) = alignCondition cats cond := by
  cases hfq : firstQuoted cond.data with
  | none =>
    have h1 := alignCondition_eq_none cats hfq
    rw [h1]
    exact h1
  | some r4 =>
    obtain ⟨pre, q, lit, suf⟩ := r4
    by_cases hg : mapCategory cats (String.mk lit) ≠ "" ∧
        mapCategory cats (String.mk lit) ≠ String.mk lit
    · obtain ⟨hq, hfree, hlitne, hsdec⟩ := firstQuoted_decomp hfq
      have hmem : mapCategory cats (String.mk lit) ∈ cats := by
        rcases mapCategory_cases cats (String.mk lit) with hcase | hcase
        · exact absurd hcase hg.2
        · exact hcase
      have hmne : mapCategory cats (String.mk lit) ≠ "" := hg.1
      have hmdata : ∀ ch ∈ (mapCategory cats (String.mk lit)).data, isQuoteCh ch = false :=
        hquote _ hmem
      have hmdne : (mapCategory cats (String.mk lit)).data ≠ [] := by
        intro h0
        apply hmne
        have h3 : mapCategory cats (String.mk lit) =
            String.mk (mapCategory cats (String.mk lit)).data := rfl
        rw [h3, h0]
      have hrepl : replaceFirstL (q :: (lit ++ [q]))
          (q :: ((mapCategory cats (String.mk lit)).data ++ [q])) cond.data =
          pre ++ q :: ((mapCategory cats (String.mk lit)).data ++ q :: suf) := by
        rw [hsdec]
        rw [replaceFirst_at hq (by rw [← hsdec]; exact hfq)]
        simp
      have hcond2 : alignCondition cats cond =
          String.mk (pre ++ q :: ((mapCategory cats (String.mk lit)).data ++ q :: suf)) := by
        rw [alignCondition_eq_fire cats hfq hg, hrepl]
      rw [hcond2]
      have hfq2 : firstQuoted (String.mk (pre ++ q ::
          ((mapCategory cats (String.mk lit)).data ++ q :: suf))).data =
          some (pre, q, (mapCategory cats (String.mk lit)).data, suf) := by
        show firstQuoted (pre ++ q :: ((mapCategory cats (String.mk lit)).data ++ q :: suf)) = _
        exact firstQuoted_replace hq hmdata hmdne (by rw [← hsdec]; exact hfq)
      have hmm : mapCategory cats (String.mk (mapCategory cats (String.mk lit)).data) =
          mapCategory cats (String.mk lit) := by
        show mapCategory cats (mapCategory cats (String.mk lit)) = mapCategory cats (String.mk lit)
        exact mapCategory_mem hmem hmne (hclean _ hmem) huniq
      apply alignCondition_eq_guard cats hfq2
      intro hcontra
      apply hcontra.2
      rw [hmm]
    · have h1 := alignCondition_eq_guard cats hfq hg
      rw [h1]
      exact h1

theorem alignRule_mk (cats : List String) (nm cat cond : Option String) :
    alignRule cats ⟨nm, cat, cond⟩ =
      ⟨nm,
       (match cat with
        | some c => if c ≠ "" then some (mapCategory cats c) else some c
        | none => none),
       (match cond with
        | some s => if s ≠ "" then some (alignCondition cats s) else some s
        | none => none)⟩ := by
  unfold alignRule
  cases cat with
  | none =>
    dsimp only
    cases cond with
    | none => rfl
    | some s =>
      dsimp only
      by_cases hs : s ≠ ""
      · rw [if_pos hs, if_pos hs]
      · rw [if_neg hs, if_neg hs]
  | some c =>
    dsimp only
    by_cases hc : c ≠ ""
    · rw [if_pos hc, if_pos hc]
      dsimp only
      cases cond with
      | none => rfl
      | some s =>
        dsimp only
        by_cases hs : s ≠ ""
        · rw [if_pos hs, if_pos hs]
        · rw [if_neg hs, if_neg hs]
    · rw [if_neg hc, if_neg hc]
      dsimp only
      cases cond with
      | none => rfl
      | some s =>
        dsimp only
        by_cases hs : s ≠ ""
        · rw [if_pos hs, if_pos hs]
        · rw [if_neg hs, if_neg hs]

theorem alignRule_idem (cats : List String)
    (hne : ∀ c ∈ cats, c ≠ "") (hclean : ∀ c ∈ cats, trimL c.data = c.data)
    (hquote : ∀ c ∈ cats, ∀ ch ∈ c.data, isQuoteCh ch = false)
    (huniq : ∀ a ∈ cats, ∀ b ∈ cats, lowStr a = lowStr b → a = b)
    (r : ARule) : alignRule cats (alignRule cats r) = alignRule cats r := by
  obtain ⟨nm, cat, cond⟩ := r
  rw [alignRule_mk, alignRule_mk]
  have hcat : (match (match cat with
      | some c => if c ≠ "" then some (mapCategory cats c) else some c
      | none => none) with
      | some c => if c ≠ "" then some (mapCategory cats c) else some c
      | none => none) =
      (match cat with
      | some c => if c ≠ "" then some (mapCategory cats c) else some c
      | none => none) := by
    cases cat with
    | none => rfl
    | some c =>
      dsimp only
      by_cases hc : c ≠ ""
      · rw [if_pos hc]
        dsimp only
        by_cases hmc : mapCategory cats c ≠ ""
        · rw [if_pos hmc, mapCategory_idem c hne hclean huniq]
        · rw [if_neg hmc]
      · rw [if_neg hc]
        dsimp only
        rw [if_neg hc]
  have hcond : (match (match cond with
      | some s => if s ≠ "" then some (alignCondition cats s) else some s
      | none => none) with
      | some s => if s ≠ "" then some (alignCondition cats s) else some s
      | none => none) =
      (match cond with
      | some s => if s ≠ "" then some (alignCondition cats s) else some s
      | none => none) := by
    cases cond with
    | none => rfl
    | some s =>
      dsimp only
      by_cases hs : s ≠ ""
      · rw [if_pos hs]
        dsimp only
        by_cases hs2 : alignCondition cats s ≠ ""
        · rw [if_pos hs2, alignCondition_idem cats s hne hclean hquote huniq]
        · rw [if_neg hs2]
      · rw [if_neg hs]
        dsimp only
        rw [if_neg hs]
  rw [hcat, hcond]

/-- C9 counterexample: alignment is not idempotent for every document and
dataset.  With dataset categories `["AB", "ab"]` and a rule category `"a"`,
the first pass maps `"a"` to `"AB"` (first substring match), and the second
pass maps `"AB"` to `"ab"` (exact case-insensitive lookup, in which later
dataset entries overwrite earlier ones), so aligning twice differs from
aligning once. -/
theorem claim_C9_counterexample :
    alignParsedCategoriesWithDataset
        (alignParsedCategoriesWithDataset ⟨[⟨none, some "a", none⟩], none, none⟩ ["AB", "ab"])
        ["AB", "ab"] ≠
      alignParsedCategoriesWithDataset ⟨[⟨none, some "a", none⟩], none, none⟩ ["AB", "ab"] := by
  decide

/-- C9 (amended): alignment is idempotent whenever the dataset categories
are non-empty, carry no surrounding whitespace, contain no quote
characters, and are pairwise distinct case-insensitively — for such
datasets aligning an already-aligned document yields the same document,
category fields and quoted condition literals included. -/
theorem claim_C9 {d : AlignDoc} {cats : List String}
    (hne : ∀ c ∈ cats, c ≠ "")
    (hclean : ∀ c ∈ cats, trimL c.data = c.data)
    (hquote : ∀ c ∈ cats, ∀ ch ∈ c.data, isQuoteCh ch = false)
    (huniq : ∀ a ∈ cats, ∀ b ∈ cats, lowStr a = lowStr b → a = b) :
    alignParsedCategoriesWithDataset (alignParsedCategoriesWithDataset d cats) cats =
      alignParsedCategoriesWithDataset d cats := by
  unfold alignParsedCategoriesWithDataset
  dsimp only
  rw [List.map_map]
  have hmap : d.rules.map (alignRule cats ∘ alignRule cats) = d.rules.map (alignRule cats) :=
    List.map_congr_left (fun r _ => alignRule_idem cats hne hclean hquote huniq r)
  rw [hmap]

/-- C9 witness: a clean dataset `["Meals", "Travel"]` and a document whose
rule carries category `meals` and condition `category == 'meals'` reach a
fixed point after one alignment. -/
theorem claim_C9_witness :
    alignParsedCategoriesWithDataset
        (alignParsedCategoriesWithDataset
          ⟨[⟨some "R", some "meals", some "category == 'meals'"⟩], none, none⟩
          ["Meals", "Travel"])
        ["Meals", "Travel"] =
      alignParsedCategoriesWithDataset
        ⟨[⟨some "R", some "meals", some "category == 'meals'"⟩], none, none⟩
        ["Meals", "Travel"] :=
  @claim_C9 ⟨[⟨some "R", some "meals", some "category == 'meals'"⟩], none, none⟩
    ["Meals", "Travel"] (by decide) (by decide) (by decide) (by decide)

end Card
